import Mathlib

/-!
Verification development for the `jsonextract` Go library.

The embedding models, at the byte level (bytes as `Nat` below 256):

* Go `strconv.ParseUint(s, 0, 64)` and `reader.go`'s `transformNumber`;
* `encoding/json.Valid` as a byte automaton for the strict JSON grammar;
* the JavaScript lexer interface consumed by `readJSObject` (the
  `tdewolff/parse/v2/js` lexer is an external dependency; it is modelled
  from the spec's token-class description and the repository README notes,
  e.g. that numeric underscore separators and legacy octal literals are
  not supported by the lexer);
* `readJSObject`, the `resettableRuneBuffer`, and the `Reader` scanning
  driver from `reader.go`;
* the `Objects` structured-extraction walk from `objects.go`.
-/

namespace JX

/-- Byte-level alias: all byte strings are lists of naturals. -/
abbrev Bytes := List Nat

/-- Go `lower(c) = c | ('x' - 'X')`: ASCII lower-casing used by `strconv`. -/
def lowerB (c : Nat) : Nat := c ||| 32

/-- ASCII decimal digit test. -/
def isDigitB (c : Nat) : Bool := 48 ≤ c && c ≤ 57

/-- JSON whitespace bytes: space, tab, newline, carriage return. -/
def isJsonWs (c : Nat) : Bool := c = 32 || c = 9 || c = 10 || c = 13

/-- Go `strconv` digit value: `0-9`, and letters `a-z`/`A-Z` valued 10.. . -/
def goDigitVal (c : Nat) : Option Nat :=
  if 48 ≤ c && c ≤ 57 then some (c - 48)
  else if 97 ≤ lowerB c && lowerB c ≤ 122 then some (lowerB c - 87)
  else none

/-- Digit-accumulation loop of `strconv.ParseUint`: skips underscores
(recording that one was seen), rejects digits not below the base. -/
def goDigitLoop (base : Nat) : Bytes → Nat → Bool → Option (Nat × Bool)
  | [], n, u => some (n, u)
  | c :: cs, n, u =>
    if c = 95 then goDigitLoop base cs n true
    else
      match goDigitVal c with
      | none => none
      | some d => if d < base then goDigitLoop base cs (base * n + d) u else none

/-- Inner loop of Go `strconv`'s `underscoreOK`; `saw` is 0 for a digit,
1 for an underscore, 2 for any other byte, 3 for the initial state. -/
def uOKLoop (hex : Bool) : Bytes → Nat → Bool
  | [], saw => saw ≠ 1
  | c :: cs, saw =>
    if isDigitB c || (hex && 97 ≤ lowerB c && lowerB c ≤ 102) then
      uOKLoop hex cs 0
    else if c = 95 then decide (saw = 0) && uOKLoop hex cs 1
    else decide (saw ≠ 1) && uOKLoop hex cs 2

/-- Go `strconv`'s `underscoreOK`: underscores may only separate
successive digits (the base prefix counting as a digit). -/
def underscoreOK (s : Bytes) : Bool :=
  let s1 := match s with
    | c :: r => if c = 43 || c = 45 then r else s
    | [] => s
  match s1 with
  | b0 :: b1 :: rest =>
    if b0 = 48 && (lowerB b1 = 98 || lowerB b1 = 111 || lowerB b1 = 120) then
      uOKLoop (lowerB b1 = 120) rest 0
    else uOKLoop false s1 3
  | _ => uOKLoop false s1 3

/-- Model of Go `strconv.ParseUint(string(s), 0, 64)`: base detection from
the `0b`/`0o`/`0x`/leading-zero prefix, underscore tolerance checked by
`underscoreOK`, and the 64-bit range check. -/
def parseUintGo (s : Bytes) : Option Nat :=
  match s with
  | [] => none
  | b0 :: rest0 =>
    let p : Nat × Bytes :=
      if b0 = 48 then
        match rest0 with
        | [] => (10, s)
        | b1 :: rest1 =>
          if lowerB b1 = 98 && rest1 ≠ [] then (2, rest1)
          else if lowerB b1 = 111 && rest1 ≠ [] then (8, rest1)
          else if lowerB b1 = 120 && rest1 ≠ [] then (16, rest1)
          else (8, rest0)
      else (10, s)
    match goDigitLoop p.1 p.2 0 false with
    | none => none
    | some (n, u) =>
      if u && !underscoreOK s then none
      else if n < 2 ^ 64 then some n else none

/-- Big-endian decimal digit printer (fuel-structural version of
`strconv.AppendUint(_, _, 10)`). -/
def natDecAux : Nat → Nat → Bytes → Bytes
  | 0, _, acc => acc
  | f + 1, n, acc =>
    if n < 10 then (48 + n) :: acc
    else natDecAux f (n / 10) ((48 + n % 10) :: acc)

/-- Decimal byte string of a natural number. -/
def natDec (n : Nat) : Bytes := natDecAux (n + 1) n []

/-- `transformNumber` from `reader.go`: strip a leading plus, keep a
leading minus, parse the remainder with base auto-detection, and
re-emit in decimal; on parse failure return the tail unchanged. -/
def transformNumber (number : Bytes) : Bytes :=
  let p : Bytes × Bytes :=
    match number with
    | c :: rest =>
      if c = 43 then (rest, []) else if c = 45 then (rest, [45]) else (number, [])
    | [] => (number, [])
  match parseUintGo p.1 with
  | none => p.2 ++ p.1
  | some ui => p.2 ++ natDec ui

/-! ## Strict JSON validity

`encoding/json.Valid` is modelled as a byte automaton for the canonical
JSON grammar (RFC 8259) with Go's whitespace set.  The automaton is
parameterised by `aw` (allow whitespace): with `aw = true` it is the
model of `json.Valid`; with `aw = false` it accepts exactly the
whitespace-free ("compact") strict JSON values. -/

/-- Bracket frames of the JSON automaton stack. -/
inductive JFrame where
  | fObj : JFrame
  | fArr : JFrame
deriving DecidableEq

/-- Modes of the strict-JSON byte automaton. -/
inductive JMode where
  /-- expecting the first byte of a value -/
  | vStart : JMode
  /-- just after an opening bracket of an array: value start or close -/
  | vStartOrClose : JMode
  /-- just after an opening brace: key string or close -/
  | kStartOrClose : JMode
  /-- after a comma inside an object: key string only -/
  | kStart : JMode
  /-- inside a string; `key` tells whether it is an object key -/
  | inStr (key : Bool) : JMode
  /-- inside a string, after a backslash -/
  | inStrEsc (key : Bool) : JMode
  /-- inside a `\u` escape with `left` hex digits outstanding -/
  | inStrU (key : Bool) (left : Nat) : JMode
  /-- after a complete key string: expecting the colon -/
  | colonStart : JMode
  /-- after a complete value -/
  | afterVal : JMode
  /-- number: seen a minus sign only -/
  | nNeg : JMode
  /-- number: integer part is a bare zero -/
  | n0 : JMode
  /-- number: inside a nonzero integer part -/
  | nInt : JMode
  /-- number: just after the decimal dot -/
  | nDot : JMode
  /-- number: inside the fraction digits -/
  | nFrac : JMode
  /-- number: just after `e`/`E` -/
  | nE : JMode
  /-- number: just after the exponent sign -/
  | nESign : JMode
  /-- number: inside the exponent digits -/
  | nExp : JMode
  /-- inside a `true`/`false`/`null` literal, `rest` still expected -/
  | lit (rest : Bytes) : JMode
deriving DecidableEq

/-- State of the strict-JSON byte automaton: bracket stack plus mode. -/
structure JSt where
  stack : List JFrame
  mode : JMode
deriving DecidableEq

/-- Is this mode a position where a number just ended (a complete number
can be followed by a delimiter)? -/
def numDone : JMode → Bool
  | JMode.n0 => true
  | JMode.nInt => true
  | JMode.nFrac => true
  | JMode.nExp => true
  | _ => false

/-- Hexadecimal digit test (for `\u` escapes). -/
def isHexB (c : Nat) : Bool :=
  isDigitB c || (97 ≤ lowerB c && lowerB c ≤ 102)

/-- Transition of the automaton in a mode expecting a value start. -/
def jsonValStart (st : JSt) (c : Nat) : Option JSt :=
  if c = 123 then some ⟨JFrame.fObj :: st.stack, JMode.kStartOrClose⟩
  else if c = 91 then some ⟨JFrame.fArr :: st.stack, JMode.vStartOrClose⟩
  else if c = 34 then some ⟨st.stack, JMode.inStr false⟩
  else if c = 45 then some ⟨st.stack, JMode.nNeg⟩
  else if c = 48 then some ⟨st.stack, JMode.n0⟩
  else if 49 ≤ c && c ≤ 57 then some ⟨st.stack, JMode.nInt⟩
  else if c = 116 then some ⟨st.stack, JMode.lit [114, 117, 101]⟩
  else if c = 102 then some ⟨st.stack, JMode.lit [97, 108, 115, 101]⟩
  else if c = 110 then some ⟨st.stack, JMode.lit [117, 108, 108]⟩
  else none

/-- Transition of the automaton after a complete value: comma or a
matching close bracket, depending on the top stack frame. -/
def jsonAfterVal (st : JSt) (c : Nat) : Option JSt :=
  match st.stack with
  | [] => none
  | JFrame.fObj :: s =>
    if c = 44 then some ⟨st.stack, JMode.kStart⟩
    else if c = 125 then some ⟨s, JMode.afterVal⟩
    else none
  | JFrame.fArr :: s =>
    if c = 44 then some ⟨st.stack, JMode.vStart⟩
    else if c = 93 then some ⟨s, JMode.afterVal⟩
    else none

/-- One byte step of the strict-JSON automaton; `aw` allows whitespace
between tokens. -/
def jsonStep (aw : Bool) (st : JSt) (c : Nat) : Option JSt :=
  match st.mode with
  | JMode.vStart =>
    if aw && isJsonWs c then some st else jsonValStart st c
  | JMode.vStartOrClose =>
    if aw && isJsonWs c then some st
    else if c = 93 then
      match st.stack with
      | JFrame.fArr :: s => some ⟨s, JMode.afterVal⟩
      | _ => none
    else jsonValStart st c
  | JMode.kStartOrClose =>
    if aw && isJsonWs c then some st
    else if c = 34 then some ⟨st.stack, JMode.inStr true⟩
    else if c = 125 then
      match st.stack with
      | JFrame.fObj :: s => some ⟨s, JMode.afterVal⟩
      | _ => none
    else none
  | JMode.kStart =>
    if aw && isJsonWs c then some st
    else if c = 34 then some ⟨st.stack, JMode.inStr true⟩
    else none
  | JMode.inStr k =>
    if c = 34 then
      some ⟨st.stack, if k then JMode.colonStart else JMode.afterVal⟩
    else if c = 92 then some ⟨st.stack, JMode.inStrEsc k⟩
    else if c < 32 then none
    else some st
  | JMode.inStrEsc k =>
    if c = 34 || c = 92 || c = 47 || c = 98 || c = 102 || c = 110 || c = 114 || c = 116 then
      some ⟨st.stack, JMode.inStr k⟩
    else if c = 117 then some ⟨st.stack, JMode.inStrU k 4⟩
    else none
  | JMode.inStrU k left =>
    if isHexB c then
      if left ≤ 1 then some ⟨st.stack, JMode.inStr k⟩
      else some ⟨st.stack, JMode.inStrU k (left - 1)⟩
    else none
  | JMode.colonStart =>
    if aw && isJsonWs c then some st
    else if c = 58 then some ⟨st.stack, JMode.vStart⟩
    else none
  | JMode.afterVal =>
    if aw && isJsonWs c then some st else jsonAfterVal st c
  | JMode.nNeg =>
    if c = 48 then some ⟨st.stack, JMode.n0⟩
    else if 49 ≤ c && c ≤ 57 then some ⟨st.stack, JMode.nInt⟩
    else none
  | JMode.n0 =>
    if c = 46 then some ⟨st.stack, JMode.nDot⟩
    else if c = 101 || c = 69 then some ⟨st.stack, JMode.nE⟩
    else if aw && isJsonWs c then some ⟨st.stack, JMode.afterVal⟩
    else jsonAfterVal ⟨st.stack, JMode.afterVal⟩ c
  | JMode.nInt =>
    if isDigitB c then some st
    else if c = 46 then some ⟨st.stack, JMode.nDot⟩
    else if c = 101 || c = 69 then some ⟨st.stack, JMode.nE⟩
    else if aw && isJsonWs c then some ⟨st.stack, JMode.afterVal⟩
    else jsonAfterVal ⟨st.stack, JMode.afterVal⟩ c
  | JMode.nDot =>
    if isDigitB c then some ⟨st.stack, JMode.nFrac⟩ else none
  | JMode.nFrac =>
    if isDigitB c then some st
    else if c = 101 || c = 69 then some ⟨st.stack, JMode.nE⟩
    else if aw && isJsonWs c then some ⟨st.stack, JMode.afterVal⟩
    else jsonAfterVal ⟨st.stack, JMode.afterVal⟩ c
  | JMode.nE =>
    if c = 43 || c = 45 then some ⟨st.stack, JMode.nESign⟩
    else if isDigitB c then some ⟨st.stack, JMode.nExp⟩
    else none
  | JMode.nESign =>
    if isDigitB c then some ⟨st.stack, JMode.nExp⟩ else none
  | JMode.nExp =>
    if isDigitB c then some st
    else if aw && isJsonWs c then some ⟨st.stack, JMode.afterVal⟩
    else jsonAfterVal ⟨st.stack, JMode.afterVal⟩ c
  | JMode.lit rest =>
    match rest with
    | [] => none
    | r :: rs =>
      if c = r then
        some ⟨st.stack, if rs = [] then JMode.afterVal else JMode.lit rs⟩
      else none

/-- Run the automaton over a byte list. -/
def jsonRun (aw : Bool) : JSt → Bytes → Option JSt
  | st, [] => some st
  | st, c :: cs =>
    match jsonStep aw st c with
    | none => none
    | some st1 => jsonRun aw st1 cs

/-- Accepting states: empty stack and a complete value. -/
def jsonAccept (st : JSt) : Bool :=
  st.stack = [] && (st.mode = JMode.afterVal || numDone st.mode)

/-- The initial automaton state. -/
def jsonStart : JSt := ⟨[], JMode.vStart⟩

/-- Model of `encoding/json.Valid`. -/
def jsonValidB (v : Bytes) : Bool :=
  match jsonRun true jsonStart v with
  | none => false
  | some st => jsonAccept st

/-- Whitespace-free strict JSON ("compact"): the same automaton with all
whitespace transitions removed. -/
def jsonCompactB (v : Bytes) : Bool :=
  match jsonRun false jsonStart v with
  | none => false
  | some st => jsonAccept st

example : jsonValidB [123, 125] = true := by decide
example : jsonValidB [123, 32, 125] = true := by decide
example : jsonCompactB [123, 32, 125] = false := by decide
example : jsonValidB [91, 49, 32, 50, 93] = false := by decide
example : jsonValidB [91, 49, 50, 93] = true := by decide
example : jsonValidB [] = false := by decide
example : jsonValidB [123] = false := by decide
example : jsonValidB [50, 49] = true := by decide
example : jsonValidB [91, 49, 44, 32, 93] = false := by decide
example : jsonValidB
    [123, 34, 97, 34, 58, 91, 116, 114, 117, 101, 44, 110, 117, 108, 108, 93, 125] = true := by
  decide
example : jsonValidB [123, 34, 97, 34, 58, 48, 49, 125] = false := by decide
example : jsonValidB [34, 92, 117, 48, 48, 52, 49, 34] = true := by decide
example : jsonValidB [34, 92, 117, 48, 48, 34] = false := by decide

/-! ## JavaScript lexer

Modelled from the spec: the relaxed-JSON lexer interface of section 4.2
(the concrete lexer, `tdewolff/parse/v2/js`, is an external dependency
whose source is not part of this repository).  Token classes follow the
spec's list; per the repository README, numeric underscore separators
and legacy leading-zero octal literals are not supported by the lexer.
Non-ASCII identifier starts, unicode whitespace and template
substitutions are conservatively lexed as errors; these differences only
affect candidates that are rejected either way. -/

/-- Token kinds of the lexer model. -/
inductive LTok where
  | eofT : LTok
  | badT : LTok
  | wsT : LTok
  | lineT : LTok
  | commentT : LTok
  | commentLineT : LTok
  | identT : LTok
  | punctT : LTok
  | stringT : LTok
  | templateT : LTok
  | numericT : LTok
  | bigIntT : LTok
  | divT : LTok
  | divEqT : LTok
deriving DecidableEq

/-- Non-line whitespace bytes of the lexer. -/
def isLexWs (c : Nat) : Bool := c = 32 || c = 9 || c = 11 || c = 12

/-- Line terminator bytes. -/
def isLineB (c : Nat) : Bool := c = 10 || c = 13

/-- ASCII identifier start: letter, underscore, dollar. -/
def isIdentStart (c : Nat) : Bool :=
  (65 ≤ c && c ≤ 90) || (97 ≤ c && c ≤ 122) || c = 95 || c = 36

/-- ASCII identifier continuation byte. -/
def isIdentChar (c : Nat) : Bool := isIdentStart c || isDigitB c

/-- Single-character punctuators. -/
def isSinglePunct (c : Nat) : Bool :=
  c = 123 || c = 125 || c = 91 || c = 93 || c = 40 || c = 41 || c = 59 ||
  c = 44 || c = 60 || c = 62 || c = 43 || c = 45 || c = 42 || c = 37 ||
  c = 38 || c = 124 || c = 94 || c = 33 || c = 126 || c = 63 || c = 58 ||
  c = 61 || c = 46

/-- Scan a string body after the opening quote `q`: escapes skip one
byte, raw line terminators and end of input are lexical errors.  Returns
the body including the closing quote, plus the rest. -/
def strSpanR (q : Nat) : Bytes → Option (Bytes × Bytes)
  | [] => none
  | c :: cs =>
    if c = q then some ([q], cs)
    else if isLineB c then none
    else if c = 92 then
      match cs with
      | [] => none
      | e :: cs2 =>
        match strSpanR q cs2 with
        | none => none
        | some (t, r) => some (92 :: e :: t, r)
    else
      match strSpanR q cs with
      | none => none
      | some (t, r) => some (c :: t, r)

/-- Scan a template-literal body after the opening backtick: raw line
terminators are allowed, escapes skip one byte, a substitution head
(dollar + open brace) is treated as a lexical error. -/
def tmplSpanR : Bytes → Option (Bytes × Bytes)
  | [] => none
  | c :: cs =>
    if c = 96 then some ([96], cs)
    else if c = 92 then
      match cs with
      | [] => none
      | e :: cs2 =>
        match tmplSpanR cs2 with
        | none => none
        | some (t, r) => some (92 :: e :: t, r)
    else if c = 36 then
      match cs with
      | 123 :: _ => none
      | _ =>
        match tmplSpanR cs with
        | none => none
        | some (t, r) => some (36 :: t, r)
    else
      match tmplSpanR cs with
      | none => none
      | some (t, r) => some (c :: t, r)

/-- Scan a block comment body after the opening two bytes, looking for
the closing star-slash; the boolean records whether a line terminator
occurred inside. -/
def blockCmtAux : Nat → Bytes → Bool → Option (Bytes × Bytes × Bool)
  | 0, _, _ => none
  | _ + 1, [], _ => none
  | _ + 1, 42 :: 47 :: r, sl => some ([42, 47], r, sl)
  | f + 1, c :: cs, sl =>
    match blockCmtAux f cs (sl || isLineB c) with
    | none => none
    | some (t, r, sl2) => some (c :: t, r, sl2)

/-- Octal digit test. -/
def isOctB (c : Nat) : Bool := 48 ≤ c && c ≤ 55

/-- Binary digit test. -/
def isBinB (c : Nat) : Bool := c = 48 || c = 49

/-- Exponent tail of a decimal numeric literal (optionally sign, then at
least one digit); `pre` is the part of the token already scanned. -/
def expTail (pre : Bytes) (r : Bytes) : Option (LTok × Bytes × Bytes) :=
  match r with
  | c :: r2 =>
    if c = 101 || c = 69 then
      match r2 with
      | s :: r3 =>
        if s = 43 || s = 45 then
          let s4 := r3.span (fun b => isDigitB b)
          if s4.1 = [] then none else some (LTok.numericT, pre ++ c :: s :: s4.1, s4.2)
        else
          let s4 := r2.span (fun b => isDigitB b)
          if s4.1 = [] then none else some (LTok.numericT, pre ++ c :: s4.1, s4.2)
      | [] => none
    else some (LTok.numericT, pre, r)
  | [] => some (LTok.numericT, pre, [])

/-- Decimal numeric literal: integer part, optional fraction, optional
exponent; a pure integer may carry the big-integer suffix `n`. -/
def decNum (l : Bytes) : Option (LTok × Bytes × Bytes) :=
  let s1 := l.span (fun b => isDigitB b)
  match s1.2 with
  | [] => if s1.1 = [] then none else some (LTok.numericT, s1.1, [])
  | c :: r2 =>
    if c = 46 then
      let s2 := r2.span (fun b => isDigitB b)
      if s1.1 = [] && s2.1 = [] then none
      else expTail (s1.1 ++ 46 :: s2.1) s2.2
    else if c = 110 then
      if s1.1 = [] then none else some (LTok.bigIntT, s1.1 ++ [110], r2)
    else if s1.1 = [] then none
    else if c = 101 || c = 69 then expTail s1.1 (c :: r2)
    else some (LTok.numericT, s1.1, c :: r2)

/-- Prefixed (hex, octal, binary) integer literal body with optional
big-integer suffix; `p0` and `p1` are the two prefix bytes. -/
def prefixNum (p0 p1 : Nat) (dig : Nat → Bool) (rest : Bytes) :
    Option (LTok × Bytes × Bytes) :=
  let s := rest.span dig
  if s.1 = [] then none
  else
    match s.2 with
    | [] => some (LTok.numericT, p0 :: p1 :: s.1, [])
    | c :: r3 =>
      if c = 110 then some (LTok.bigIntT, p0 :: p1 :: s.1 ++ [110], r3)
      else some (LTok.numericT, p0 :: p1 :: s.1, c :: r3)

/-- Numeric literal dispatcher; rejects legacy leading-zero octals. -/
def lexNum (l : Bytes) : Option (LTok × Bytes × Bytes) :=
  match l with
  | b0 :: c :: rest =>
    if b0 = 48 then
      if lowerB c = 120 then prefixNum 48 c (fun b => isHexB b) rest
      else if lowerB c = 111 then prefixNum 48 c (fun b => isOctB b) rest
      else if lowerB c = 98 then prefixNum 48 c (fun b => isBinB b) rest
      else if isDigitB c then none
      else decNum l
    else decNum l
  | _ => decNum l

/-- Three-character punctuators. -/
def isPunct3 (a b c : Nat) : Bool :=
  (a = 61 && b = 61 && c = 61) || (a = 33 && b = 61 && c = 61) ||
  (a = 62 && b = 62 && c = 62) || (a = 46 && b = 46 && c = 46)

/-- Two-character punctuators. -/
def isPunct2 (a b : Nat) : Bool :=
  (a = 61 && b = 61) || (a = 61 && b = 62) || (a = 33 && b = 61) || (a = 60 && b = 61) ||
  (a = 62 && b = 61) || (a = 38 && b = 38) || (a = 124 && b = 124) || (a = 63 && b = 63) ||
  (a = 63 && b = 46) || (a = 43 && b = 43) || (a = 45 && b = 45) || (a = 43 && b = 61) ||
  (a = 45 && b = 61) || (a = 42 && b = 42) || (a = 42 && b = 61) || (a = 37 && b = 61) ||
  (a = 38 && b = 61) || (a = 124 && b = 61) || (a = 94 && b = 61) || (a = 60 && b = 60) ||
  (a = 62 && b = 62)

/-- Multi-character punctuators (all of which `readJSObject` rejects),
then single-character punctuators: longest match first. -/
def lexPunct (l : Bytes) : Option (Bytes × Bytes) :=
  match l with
  | [] => none
  | [c1] => if isSinglePunct c1 then some ([c1], []) else none
  | [c1, c2] =>
    if isPunct2 c1 c2 then some ([c1, c2], [])
    else if isSinglePunct c1 then some ([c1], [c2]) else none
  | c1 :: c2 :: c3 :: r =>
    if isPunct3 c1 c2 c3 then some ([c1, c2, c3], r)
    else if isPunct2 c1 c2 then some ([c1, c2], c3 :: r)
    else if isSinglePunct c1 then some ([c1], c2 :: c3 :: r) else none

/-- One lexing step: returns the token kind, its text, and the rest of
the input.  For `eofT` and `badT` the text is empty and the rest is the
whole input. -/
def lexNext (l : Bytes) : LTok × Bytes × Bytes :=
  match l with
  | [] => (LTok.eofT, [], [])
  | c :: cs =>
    if isLexWs c then
      let s := cs.span (fun b => isLexWs b)
      (LTok.wsT, c :: s.1, s.2)
    else if isLineB c then
      let s := cs.span (fun b => isLineB b)
      (LTok.lineT, c :: s.1, s.2)
    else if c = 47 then
      match cs with
      | [] => (LTok.divT, [47], cs)
      | c2 :: r =>
        if c2 = 47 then
          let s := r.span (fun b => !isLineB b)
          (LTok.commentT, 47 :: 47 :: s.1, s.2)
        else if c2 = 42 then
          match blockCmtAux (r.length + 1) r false with
          | none => (LTok.badT, [], l)
          | some (t, rest, sl) =>
            (if sl then LTok.commentLineT else LTok.commentT, 47 :: 42 :: t, rest)
        else if c2 = 61 then (LTok.divEqT, [47, 61], r)
        else (LTok.divT, [47], cs)
    else if c = 34 || c = 39 then
      match strSpanR c cs with
      | none => (LTok.badT, [], l)
      | some (t, r) => (LTok.stringT, c :: t, r)
    else if c = 96 then
      match tmplSpanR cs with
      | none => (LTok.badT, [], l)
      | some (t, r) => (LTok.templateT, 96 :: t, r)
    else if isDigitB c || (c = 46 && (cs.headD 0 |> isDigitB)) then
      match lexNum l with
      | none => (LTok.badT, [], l)
      | some (k, t, r) => (k, t, r)
    else if isIdentStart c then
      let s := cs.span (fun b => isIdentChar b)
      (LTok.identT, c :: s.1, s.2)
    else
      match lexPunct l with
      | some (t, r) => (LTok.punctT, t, r)
      | none => (LTok.badT, [], l)

/-- Regex body scanner (after the opening slash): escapes skip one byte,
character classes may contain slashes, line terminators are errors. -/
def regexBodyAux : Nat → Bool → Bytes → Option (Bytes × Bytes)
  | 0, _, _ => none
  | _ + 1, _, [] => none
  | f + 1, inCl, c :: cs =>
    if c = 92 then
      match cs with
      | [] => none
      | e :: cs2 =>
        if isLineB e then none
        else
          match regexBodyAux f inCl cs2 with
          | none => none
          | some (t, r) => some (92 :: e :: t, r)
    else if isLineB c then none
    else if inCl then
      match regexBodyAux f (c ≠ 93) cs with
      | none => none
      | some (t, r) => some (c :: t, r)
    else if c = 91 then
      match regexBodyAux f true cs with
      | none => none
      | some (t, r) => some (91 :: t, r)
    else if c = 47 then some ([47], cs)
    else
      match regexBodyAux f false cs with
      | none => none
      | some (t, r) => some (c :: t, r)

/-- The lexer's "read as regex" primitive: re-lex from the position of
the division token; the text includes slashes and trailing flags. -/
def lexRegExp (l : Bytes) : Option (Bytes × Bytes) :=
  match l with
  | 47 :: rest =>
    match regexBodyAux (rest.length + 1) false rest with
    | none => none
    | some (t, r) =>
      let s := r.span (fun b => isIdentChar b)
      some (47 :: t ++ s.1, s.2)
  | _ => none

/-- Ignored token kinds, as in `isIgnoredToken` of `reader.go`. -/
def isIgnoredTok (tt : LTok) : Bool :=
  tt = LTok.wsT || tt = LTok.lineT || tt = LTok.commentT || tt = LTok.commentLineT

example : lexNext [123, 32, 125] = (LTok.punctT, [123], [32, 125]) := by decide
example : lexNext [32, 9, 125] = (LTok.wsT, [32, 9], [125]) := by decide
example : lexNext [50, 49, 110, 44] = (LTok.bigIntT, [50, 49, 110], [44]) := by decide
example : lexNext [48, 120, 49, 53, 125] = (LTok.numericT, [48, 120, 49, 53], [125]) := by decide
example : lexNext [49, 95, 48, 48, 48] = (LTok.numericT, [49], [95, 48, 48, 48]) := by decide
example : lexNext [95, 48, 48, 48] = (LTok.identT, [95, 48, 48, 48], []) := by decide
example : lexNext [48, 49] = (LTok.badT, [], [48, 49]) := by decide
example : lexNext [39, 97, 39, 93] = (LTok.stringT, [39, 97, 39], [93]) := by decide
example : lexNext [49, 46, 53, 101, 43, 51, 93] = (LTok.numericT, [49, 46, 53, 101, 43, 51], [93]) := by
  decide
example : lexNext [124, 124, 32] = (LTok.punctT, [124, 124], [32]) := by decide
example : lexRegExp [47, 97, 98, 47, 105, 44] = some ([47, 97, 98, 47, 105], [44]) := by decide

/-! ## String transforms and the value normaliser `readJSObject` -/

/-- Lowercase hex digit byte. -/
def hexDigL (d : Nat) : Nat := if d < 10 then 48 + d else 87 + d

/-- Escaping loop of Go `json.Marshal` on a string: quote, backslash,
newline, carriage return, tab, other control bytes as unicode escapes,
and HTML-escaping of angle brackets and ampersand. (Invalid-UTF-8
replacement and U+2028/U+2029 escaping are not modelled; bytes at or
above 0x20 other than the cases below pass through unchanged.) -/
def jmEsc : Bytes → Bytes
  | [] => []
  | c :: cs =>
    if c = 34 then 92 :: 34 :: jmEsc cs
    else if c = 92 then 92 :: 92 :: jmEsc cs
    else if c = 10 then 92 :: 110 :: jmEsc cs
    else if c = 13 then 92 :: 114 :: jmEsc cs
    else if c = 9 then 92 :: 116 :: jmEsc cs
    else if c < 32 then 92 :: 117 :: 48 :: 48 :: hexDigL (c / 16) :: hexDigL (c % 16) :: jmEsc cs
    else if c = 60 then 92 :: 117 :: 48 :: 48 :: 51 :: 99 :: jmEsc cs
    else if c = 62 then 92 :: 117 :: 48 :: 48 :: 51 :: 101 :: jmEsc cs
    else if c = 38 then 92 :: 117 :: 48 :: 48 :: 50 :: 54 :: jmEsc cs
    else c :: jmEsc cs

/-- Model of `json.Marshal(string(s))`: a double-quoted escaped string. -/
def jsonMarshalStr (s : Bytes) : Bytes := 34 :: (jmEsc s ++ [34])

/-- `singleQuoteReplacer` of `reader.go`: single quotes become double
quotes, double quotes get escaped, escaped single quotes are unescaped
(patterns tried in that order at each position). -/
def sqReplace : Bytes → Bytes
  | [] => []
  | 39 :: cs => 34 :: sqReplace cs
  | 34 :: cs => 92 :: 34 :: sqReplace cs
  | 92 :: 39 :: cs => 39 :: sqReplace cs
  | c :: cs => c :: sqReplace cs

/-- `templateQuoteReplacer` of `reader.go`: escaped backticks become
plain backticks. -/
def tmplReplace : Bytes → Bytes
  | [] => []
  | 92 :: 96 :: cs => 96 :: tmplReplace cs
  | c :: cs => c :: tmplReplace cs

/-- The `jsIdentifiers` map of `reader.go`. -/
def jsIdentLookup (text : Bytes) : Option Bytes :=
  if text = [116, 114, 117, 101] then some [116, 114, 117, 101]
  else if text = [102, 97, 108, 115, 101] then some [102, 97, 108, 115, 101]
  else if text = [110, 117, 108, 108] then some [110, 117, 108, 108]
  else if text = [117, 110, 100, 101, 102, 105, 110, 101, 100] then some [110, 117, 108, 108]
  else if text = [78, 97, 78] then some [110, 117, 108, 108]
  else none

/-- The `matchingBracket` map of `reader.go` (zero byte outside its
domain, like a Go map access). -/
def matchingClose (b : Nat) : Nat :=
  if b = 123 then 125 else if b = 91 then 93 else 0

/-- `bytes.TrimSuffix(text, "n")`. -/
def trimSuffixN (text : Bytes) : Bytes :=
  if text.getLastD 0 = 110 then text.dropLast else text

/-- The token loop of `readJSObject`: carries the remaining input, the
output buffer, the bracket `level`, the last written byte, the opening
byte `first`, and the count of consumed source bytes.  Returns `none`
for the rejection cases (lexical error, multi-character punctuator,
double open brace, plus between digits, unsupported string, short
template); returns the buffer and byte count on end of input or when
`level` returns to zero. -/
def rjAux : Nat → Bytes → Bytes → Int → Nat → Nat → Nat → Option (Bytes × Nat)
  | 0, _, _, _, _, _, _ => none
  | f + 1, rem, buf, level, lastB, first, cnt =>
    match lexNext rem with
    | (LTok.eofT, _, _) => some (buf, cnt)
    | (LTok.badT, _, _) => none
    | (tt, text, rest) =>
      let first1 := if cnt = 0 then text.headD 0 else first
      let cnt1 := cnt + text.length
      match tt with
      | LTok.wsT | LTok.lineT | LTok.commentT | LTok.commentLineT =>
        rjAux f rest buf level lastB first1 cnt1
      | LTok.identT =>
        match jsIdentLookup text with
        | some v => rjAux f rest (buf ++ v) level (text.getLastD 0) first1 cnt1
        | none =>
          let t2 := jsonMarshalStr text
          rjAux f rest (buf ++ t2) level (t2.getLastD 0) first1 cnt1
      | LTok.divT | LTok.divEqT =>
        match lexRegExp rem with
        | none => none
        | some (rt, rr) =>
          let t2 := jsonMarshalStr rt
          rjAux f rr (buf ++ t2) level (t2.getLastD 0) first1 cnt1
      | LTok.punctT =>
        match text with
        | [c] =>
          if c = 123 || c = 91 then
            let level1 := if c = first1 then level + 1 else level
            if lastB = 123 && c = 123 then none
            else rjAux f rest (buf ++ [c]) level1 c first1 cnt1
          else if c = 93 || c = 125 then
            let level1 := if c = matchingClose first1 then level - 1 else level
            let buf2 := (if lastB = 44 then buf.dropLast else buf) ++ [c]
            if level1 = 0 then some (buf2, cnt1)
            else rjAux f rest buf2 level1 c first1 cnt1
          else if c = 43 then
            if 48 ≤ lastB && lastB ≤ 57 then none
            else rjAux f rest (buf ++ [c]) level c first1 cnt1
          else rjAux f rest (buf ++ [c]) level c first1 cnt1
        | _ => none
      | LTok.stringT =>
        if text.headD 0 = 39 then
          rjAux f rest (buf ++ sqReplace text) level (text.getLastD 0) first1 cnt1
        else if text.headD 0 = 34 then
          rjAux f rest (buf ++ text) level (text.getLastD 0) first1 cnt1
        else none
      | LTok.templateT =>
        if text.length ≤ 2 then none
        else
          let t2 := jsonMarshalStr (tmplReplace ((text.drop 1).dropLast))
          rjAux f rest (buf ++ t2) level (t2.getLastD 0) first1 cnt1
      | LTok.numericT =>
        let buf1 := if lastB = 43 then buf.dropLast else buf
        let t2 := transformNumber text
        rjAux f rest (buf1 ++ t2) level (t2.getLastD 0) first1 cnt1
      | LTok.bigIntT =>
        let buf1 := if lastB = 43 then buf.dropLast else buf
        let t2 := transformNumber (trimSuffixN text)
        rjAux f rest (buf1 ++ t2) level (t2.getLastD 0) first1 cnt1
      | _ => rjAux f rest (buf ++ text) level (text.getLastD 0) first1 cnt1

/-- `readJSObject` of `reader.go` on a byte list: the token loop started
in its initial state, with enough fuel for the whole input. -/
def rjRun (l : Bytes) : Option (Bytes × Nat) :=
  rjAux (l.length + 1) l [] 0 0 0 0

example : rjRun [123, 125] = some ([123, 125], 2) := by decide
example : rjRun [123, 32, 125] = some ([123, 125], 3) := by decide
example : rjRun [123, 97, 58, 49, 125] = some ([123, 34, 97, 34, 58, 49, 125], 5) := by decide
example : rjRun [91, 49, 44, 32, 93] = some ([91, 49, 93], 5) := by decide
example : rjRun [123, 123, 125] = none := by decide
example : rjRun [91, 51, 43, 51, 93] = none := by decide
example : rjRun [123, 125, 125, 125] = some ([123, 125], 2) := by decide
example : rjRun [91, 93, 59, 59] = some ([91, 93], 2) := by decide
example :
    rjRun [123, 107, 58, 39, 97, 39, 125] =
      some ([123, 34, 107, 34, 58, 34, 97, 34, 125], 7) := by decide

/-! ## The resettable rune buffer and the Reader driver -/

/-- UTF-8 continuation byte test. -/
def isContB (b : Nat) : Bool := 128 ≤ b && b < 192

/-- Range check for the byte following a multi-byte leader, following
Go's `utf8` accept ranges (this rejects overlong encodings, surrogates
and values beyond U+10FFFF). -/
def utf8AcceptB1 (b b1 : Nat) : Bool :=
  if b = 224 then 160 ≤ b1 && b1 ≤ 191
  else if b = 237 then 128 ≤ b1 && b1 ≤ 159
  else if b = 240 then 144 ≤ b1 && b1 ≤ 191
  else if b = 244 then 128 ≤ b1 && b1 ≤ 143
  else 128 ≤ b1 && b1 ≤ 191

/-- Decode the first rune of a byte list, with the one-byte U+FFFD
fallback used by Go's `ReadRune` on malformed input. -/
def utf8Decode1 : Bytes → Nat × Nat
  | [] => (65533, 1)
  | b :: rest =>
    if b < 128 then (b, 1)
    else if 194 ≤ b && b < 224 then
      match rest with
      | b1 :: _ =>
        if isContB b1 then ((b - 192) * 64 + (b1 - 128), 2) else (65533, 1)
      | _ => (65533, 1)
    else if 224 ≤ b && b < 240 then
      match rest with
      | b1 :: b2 :: _ =>
        if utf8AcceptB1 b b1 && isContB b2 then
          ((b - 224) * 4096 + (b1 - 128) * 64 + (b2 - 128), 3)
        else (65533, 1)
      | _ => (65533, 1)
    else if 240 ≤ b && b < 245 then
      match rest with
      | b1 :: b2 :: b3 :: _ =>
        if utf8AcceptB1 b b1 && isContB b2 && isContB b3 then
          ((b - 240) * 262144 + (b1 - 128) * 4096 + (b2 - 128) * 64 + (b3 - 128), 4)
        else (65533, 1)
      | _ => (65533, 1)
    else (65533, 1)

/-- UTF-8 encoding of a rune (used by `bytes.Buffer.WriteRune` capture). -/
def utf8Encode (r : Nat) : Bytes :=
  if r < 128 then [r]
  else if r < 2048 then [192 + r / 64, 128 + r % 64]
  else if r < 65536 then [224 + r / 4096, 128 + (r / 64) % 64, 128 + r % 64]
  else [240 + r / 262144, 128 + (r / 4096) % 64, 128 + (r / 64) % 64, 128 + r % 64]

/-- State of `resettableRuneBuffer`: the return buffer (read first), the
capture buffer `before`, the capture flag, and the remaining bytes of
the wrapped reader. -/
structure RBuf where
  ret : Bytes
  before : Bytes
  enableRet : Bool
  str : Bytes
deriving DecidableEq

/-- Bytes observable from the buffer: return buffer then stream. -/
def RBuf.avail (b : RBuf) : Bytes := b.ret ++ b.str

/-- One byte through `Read`: return buffer first, then the stream;
captured into `before` while capture is enabled. -/
def RBuf.readByte (b : RBuf) : Option (Nat × RBuf) :=
  match b.ret with
  | c :: r =>
    some (c, ⟨r, if b.enableRet then b.before ++ [c] else b.before, b.enableRet, b.str⟩)
  | [] =>
    match b.str with
    | c :: s =>
      some (c, ⟨[], if b.enableRet then b.before ++ [c] else b.before, b.enableRet, s⟩)
    | [] => none

/-- `n` sequential one-byte reads (stopping at end of input). -/
def RBuf.readN : Nat → RBuf → Bytes × RBuf
  | 0, b => ([], b)
  | n + 1, b =>
    match b.readByte with
    | none => ([], b)
    | some (c, b1) =>
      let r := RBuf.readN n b1
      (c :: r.1, r.2)

/-- `ReadRune`: decoded wholly from the return buffer if it is
nonempty, else from the stream; the capture buffer records the rune
re-encoded (as `bytes.Buffer.WriteRune` does). -/
def RBuf.readRune (b : RBuf) : Option (Nat × RBuf) :=
  match b.ret with
  | [] =>
    match b.str with
    | [] => none
    | _ =>
      let d := utf8Decode1 b.str
      some (d.1,
        ⟨[], if b.enableRet then b.before ++ utf8Encode d.1 else b.before, b.enableRet,
          b.str.drop d.2⟩)
  | _ =>
    let d := utf8Decode1 b.ret
    some (d.1,
      ⟨b.ret.drop d.2, if b.enableRet then b.before ++ utf8Encode d.1 else b.before,
        b.enableRet, b.str⟩)

/-- `MarkStart`: enable capture and reset the capture buffer. -/
def RBuf.markStart (b : RBuf) : RBuf := ⟨b.ret, [], true, b.str⟩

/-- `MarkEnd`: disable capture. -/
def RBuf.markEnd (b : RBuf) : RBuf := ⟨b.ret, b.before, false, b.str⟩

/-- Reading everything through the buffer (the lexer's `NewInput` calls
`ReadAll` on it): yields all available bytes, captures them if enabled. -/
def RBuf.drainAll (b : RBuf) : Bytes × RBuf :=
  (b.avail, ⟨[], if b.enableRet then b.before ++ b.avail else b.before, b.enableRet, []⟩)

/-- `ReturnAndSkip(n)`: the capture buffer becomes the return buffer
with `n` bytes discarded; the boolean reports the `io.CopyN` end-of-file
error when fewer than `n` bytes were captured. -/
def RBuf.returnAndSkip (n : Nat) (b : RBuf) : RBuf × Bool :=
  (⟨b.before.drop n, [], b.enableRet, b.str⟩, decide (b.before.length < n))

/-- `ReturnAndSkipOne`: as above but discarding one rune; the boolean
reports the read error on an empty capture buffer. -/
def RBuf.returnAndSkipOne (b : RBuf) : RBuf × Bool :=
  match b.before with
  | [] => (⟨[], [], b.enableRet, b.str⟩, true)
  | _ => (⟨b.before.drop (utf8Decode1 b.before).2, [], b.enableRet, b.str⟩, false)

/-- Go error values as far as the embedding distinguishes them:
`ErrStop`, `ErrCallbackNeverCalled`, an error wrapping another (as
built by `fmt.Errorf` with a wrap verb), and arbitrary other errors.
Go compares errors with `==`, modelled by decidable equality; a
`wrapped e` is never equal to `e` itself. -/
inductive GoError where
  | errStop : GoError
  | cbNever : GoError
  | wrapped : GoError → GoError
  | custom : Nat → GoError
deriving DecidableEq

/-- A callback with private state `σ` (a Go closure): takes the state
and the delivered bytes, returns the new state and the returned error. -/
def JCallback (σ : Type) := σ → Bytes → σ × Option GoError

/-- The always-continue callback. -/
def pureCb : JCallback Unit := fun _ _ => ((), none)

/-- A callback returning a fixed error on every invocation. -/
def constCb (e : GoError) : JCallback Unit := fun _ _ => ((), some e)

/-- The scanning loop of `Reader`: read runes until an opening brace or
bracket; mark, normalise, validate; on failure return-and-skip-one past
the opener; on success return-and-skip the consumed bytes and invoke
the callback.  Returns the list of delivered values, the final error
(`none` models a nil return, including the `ErrStop` and end-of-stream
mappings), and the final callback state. -/
def readerFuel {σ : Type} (cb : JCallback σ) :
    Nat → RBuf → σ → List Bytes → List Bytes × Option GoError × σ
  | 0, _, s, acc => (acc.reverse, none, s)
  | f + 1, b, s, acc =>
    match b.readRune with
    | none => (acc.reverse, none, s)
    | some (r, b1) =>
      if r = 123 || r = 91 then
        let d := (b.markStart).drainAll
        match rjRun d.1 with
        | some mn =>
          if jsonValidB mn.1 then
            let rs := d.2.returnAndSkip mn.2
            if rs.2 then (acc.reverse, none, s)
            else
              match cb s mn.1 with
              | (s1, none) => readerFuel cb f rs.1.markEnd s1 (mn.1 :: acc)
              | (s1, some e) =>
                ((mn.1 :: acc).reverse, if e = GoError.errStop then none else some e, s1)
          else
            let so := d.2.returnAndSkipOne
            if so.2 then (acc.reverse, none, s)
            else readerFuel cb f so.1 s acc
        | none =>
          let so := d.2.returnAndSkipOne
          if so.2 then (acc.reverse, none, s)
          else readerFuel cb f so.1 s acc
      else readerFuel cb f b1 s acc

/-- `Reader` of `reader.go` on a byte list input. -/
def readerRun {σ : Type} (input : Bytes) (cb : JCallback σ) (s0 : σ) :
    List Bytes × Option GoError × σ :=
  readerFuel cb (input.length + 1) ⟨[], [], false, input⟩ s0 []

example : readerRun [123, 125, 91, 93] pureCb () = ([[123, 125], [91, 93]], none, ()) := by decide
example :
    readerRun [123, 123, 32, 34, 116, 34, 58, 32, 34, 97, 34, 32, 125] pureCb () =
      ([[123, 34, 116, 34, 58, 34, 97, 34, 125]], none, ()) := by decide
example : readerRun [97, 98, 99] pureCb () = ([], none, ()) := by decide
example :
    readerRun [123, 125] (constCb (GoError.custom 7)) () =
      ([[123, 125]], some (GoError.custom 7), ()) := by decide
example : readerRun [123, 125, 91, 93] (constCb GoError.errStop) () =
    ([[123, 125]], none, ()) := by decide

/-! ## Structured extraction: `Objects` of `objects.go`

The walk operates on values already delivered by `Reader` and decoded
with `json.Unmarshal` into `map` / slice / raw forms.  A delivered value
is modelled as a tree: an object node carries the raw bytes of the whole
object and its immediate fields (the decoded Go map, so keys are
distinct), an array node carries its elements, and any other value is a
leaf.  Keys and raw values are byte strings. -/

/-- A decoded JSON value as walked by `keyFunc`. -/
inductive JTree where
  | jobj : Bytes → List (Bytes × JTree) → JTree
  | jarr : Bytes → List JTree → JTree
  | jleaf : Bytes → JTree

/-- An `ObjectOption`: key filter, callback, required flag. -/
structure MOption (σ : Type) where
  keys : List Bytes
  cb : JCallback σ
  required : Bool

/-- `ObjectOption.match`: every filter key present among the immediate
keys of the decoded object. -/
def optMatch {σ : Type} (o : MOption σ) (fields : List (Bytes × JTree)) : Bool :=
  o.keys.all (fun k => fields.any (fun f => f.1 = k))

/-- Membership of an index in the satisfaction set (the Go map lookup
`satisfiedCallbacks[i]`). -/
def satContains (sat : List Nat) (i : Nat) : Bool := sat.contains i

/-- Walk state: indices of satisfied options (the `satisfiedCallbacks`
map), the `satisfiedCount`, and the shared callback state. -/
structure WSt (σ : Type) where
  sat : List Nat
  cnt : Nat
  us : σ

/-- The option scan of `Objects` for one decoded object (the `for i, opt`
loop): skip satisfied entries, call the first matching entry's callback
with the object's raw bytes, mark it satisfied if it returned `ErrStop`
(propagating `ErrStop` itself exactly when all options are satisfied),
propagate other errors, and stop after the first match.  The third
component is the list of callback invocations made (option index and
bytes passed). -/
def optLoop {σ : Type} (total : Nat) (raw : Bytes) (fields : List (Bytes × JTree)) :
    List (MOption σ) → Nat → WSt σ → WSt σ × Option GoError × List (Nat × Bytes)
  | [], _, st => (st, none, [])
  | o :: os, i, st =>
    if satContains st.sat i then optLoop total raw fields os (i + 1) st
    else if optMatch o fields then
      let r := o.cb st.us raw
      match r.2 with
      | some e =>
        if e = GoError.errStop then
          let st1 : WSt σ := ⟨i :: st.sat, st.cnt + 1, r.1⟩
          if st1.cnt = total then (st1, some GoError.errStop, [(i, raw)])
          else (st1, none, [(i, raw)])
        else (⟨st.sat, st.cnt, r.1⟩, some e, [(i, raw)])
      | none => (⟨st.sat, st.cnt, r.1⟩, none, [(i, raw)])
    else optLoop total raw fields os (i + 1) st

/-- Lexicographic byte-string order (Go string comparison). -/
def lexLeB : Bytes → Bytes → Bool
  | [], _ => true
  | _ :: _, [] => false
  | a :: as_, b :: bs =>
    if a < b then true else if b < a then false else lexLeB as_ bs

/-- Insertion into a key-sorted field list. -/
def insField (x : Bytes × JTree) : List (Bytes × JTree) → List (Bytes × JTree)
  | [] => [x]
  | y :: ys => if lexLeB x.1 y.1 then x :: y :: ys else y :: insField x ys

/-- Key-sorting of the decoded map (`sort.Strings(keys)`). -/
def sortFields : List (Bytes × JTree) → List (Bytes × JTree)
  | [] => []
  | x :: xs => insField x (sortFields xs)

/-- The recursive walk of `keyFunc`, in worklist form (processing a
list of pending trees depth-first is equivalent to the nested recursion
of `objects.go`, since both stop at the first error and concatenate
callback invocations in the same order): a leaf is skipped, an array
prepends its elements, an object runs the option scan and then prepends
its field values in sorted key order.  Fuel bounds the total number of
nodes plus list spines. -/
def walkTs {σ : Type} (opts : List (MOption σ)) (total : Nat) :
    Nat → List JTree → WSt σ → WSt σ × Option GoError × List (Nat × Bytes)
  | 0, _, st => (st, none, [])
  | _ + 1, [], st => (st, none, [])
  | f + 1, t :: ts, st =>
    match t with
    | JTree.jleaf _ => walkTs opts total f ts st
    | JTree.jarr _ elems => walkTs opts total f (elems ++ ts) st
    | JTree.jobj raw fields =>
      let m := optLoop total raw fields opts 0 st
      match m.2.1 with
      | some e => (m.1, some e, m.2.2)
      | none =>
        let w := walkTs opts total f ((sortFields fields).map (fun p => p.2) ++ ts) m.1
        (w.1, w.2.1, m.2.2 ++ w.2.2)

/-- The required-option check after the walk (`for i, oo := range o`
with a break at the first failure). -/
def requiredCheck {σ : Type} (sat : List Nat) : List (MOption σ) → Nat → Option GoError
  | [], _ => none
  | o :: os, i =>
    if o.required && !satContains sat i then some GoError.cbNever
    else requiredCheck sat os (i + 1)

/-- `Objects`: run the walk over the values delivered by `Reader` (here
given as decoded trees), map the walk result as `Reader` maps callback
errors (`ErrStop` becomes nil), and apply the required-option check only
when there was no error and not every option was satisfied.  Returns
the final error, the walk state, and the callback-invocation trace. -/
def objectsModel {σ : Type} (opts : List (MOption σ)) (fuel : Nat) (trees : List JTree)
    (s0 : σ) : Option GoError × WSt σ × List (Nat × Bytes) :=
  let w := walkTs opts opts.length fuel trees ⟨[], 0, s0⟩
  let rerr : Option GoError :=
    match w.2.1 with
    | some e => if e = GoError.errStop then none else some e
    | none => none
  let err :=
    if rerr = none && w.1.cnt ≠ opts.length then requiredCheck w.1.sat opts 0
    else rerr
  (err, w.1, w.2.2)

example : parseUintGo [50, 49] = some 21 := by decide
example : parseUintGo [48, 120, 49, 53] = some 21 := by decide
example : parseUintGo [48, 111, 50, 53] = some 21 := by decide
example : parseUintGo [48, 98, 49, 48, 49, 48, 49] = some 21 := by decide
example : parseUintGo [49, 95, 48, 48, 48] = some 1000 := by decide
example : parseUintGo [49, 46, 53] = none := by decide
example : parseUintGo [49, 101, 53] = none := by decide
example : parseUintGo [48, 49, 48, 48] = some 64 := by decide
example : transformNumber [48, 120, 49, 53] = [50, 49] := by decide
example : transformNumber [43, 50, 49] = [50, 49] := by decide
example : transformNumber [49, 46, 53] = [49, 46, 53] := by decide

/-! ## Shape predicates for the idempotence development (claim C8) -/

/-- Modes of the automaton that are inside a string literal. -/
def strMode : JMode → Bool
  | JMode.inStr _ => true
  | JMode.inStrEsc _ => true
  | JMode.inStrU _ _ => true
  | _ => false

/-- Proper nonempty tails of the three JSON literals. -/
def litTail (r : Bytes) : Bool :=
  decide (r = [114, 117, 101] ∨ r = [117, 101] ∨ r = [101] ∨
    r = [97, 108, 115, 101] ∨ r = [108, 115, 101] ∨ r = [115, 101] ∨
    r = [117, 108, 108] ∨ r = [108, 108] ∨ r = [108])

/-- States reachable from the start state have literal tails of the
three JSON literals only. -/
def stWF (st : JSt) : Bool :=
  match st.mode with
  | JMode.lit r => litTail r
  | _ => true

/-- Body of a strict double-quoted string after the opening quote:
escape pairs, ordinary characters, and the closing quote. -/
inductive SBody : Bytes → Prop where
  | done : SBody [34]
  | single (c : Nat) (rest : Bytes) (h34 : c ≠ 34) (h92 : c ≠ 92)
      (hnl : isLineB c = false) (ih : SBody rest) : SBody (c :: rest)
  | esc (e : Nat) (rest : Bytes) (ih : SBody rest) : SBody (92 :: e :: rest)

/-- Body of a single-quoted source string after the opening quote, as
consumed by the string scanner. -/
inductive SQSrc : Bytes → Prop where
  | done : SQSrc [39]
  | single (c : Nat) (rest : Bytes) (h39 : c ≠ 39) (h92 : c ≠ 92)
      (hnl : isLineB c = false) (ih : SQSrc rest) : SQSrc (c :: rest)
  | esc (e : Nat) (rest : Bytes) (ih : SQSrc rest) : SQSrc (92 :: e :: rest)

/-- Well-formedness of a numeric token: printable non-quote bytes, no
comma, nonempty, not plus-terminated, and starting with a digit or a
dot. -/
def numTokOk (t : Bytes) : Prop :=
  (∀ c ∈ t, 32 < c ∧ c ≠ 34 ∧ c ≠ 92 ∧ c ≠ 44) ∧ t ≠ [] ∧
  t.getLastD 0 ≠ 43 ∧ (isDigitB (t.headD 0) = true ∨ t.headD 0 = 46)

/-- The byte chunks `readJSObject` appends to its output buffer: plain
tokens (numbers and the three literals), single punctuators, and string
literals. -/
inductive Atom : Bytes → Prop where
  | tok (t : Bytes) (hne : t ≠ [])
      (hall : ∀ c ∈ t, 32 < c ∧ c ≠ 34 ∧ c ≠ 92)
      (hl43 : t.getLastD 0 ≠ 43) (hl44 : t.getLastD 0 ≠ 44) : Atom t
  | punct (c : Nat) (h : isSinglePunct c = true) : Atom [c]
  | str (body : Bytes) (h : SBody body) : Atom (34 :: body)
  | sq (body : Bytes) (h : SQSrc body) : Atom (34 :: sqReplace body)

/-- The stack frame opened by an opening byte. -/
def frameOf (b : Nat) : JFrame := if b = 123 then JFrame.fObj else JFrame.fArr

/-- Modes of the automaton at lexer-token boundaries. -/
def bMode : JMode → Bool
  | JMode.vStart => true
  | JMode.vStartOrClose => true
  | JMode.kStartOrClose => true
  | JMode.kStart => true
  | JMode.colonStart => true
  | JMode.afterVal => true
  | JMode.nNeg => true
  | JMode.n0 => true
  | JMode.nInt => true
  | JMode.nFrac => true
  | JMode.nExp => true
  | _ => false

/-- Invariant of the copy simulation between the token loop of
`readJSObject` and the compact automaton: the rest of the input
completes an accepting whitespace-free run, the mode is a token
boundary, the bottom frame matches the opening byte, the loop level
counts that frame on the stack, and the last written byte constrains
the mode; at a boundary inside a number the next byte cannot extend
the number token. -/
def CInv (first : Nat) (st : JSt) (rem : Bytes) (lastB : Nat) (level : Int) : Prop :=
  (∃ fin, jsonRun false st rem = some fin ∧ jsonAccept fin = true) ∧
  bMode st.mode = true ∧
  st.stack.getLast? = some (frameOf first) ∧
  level = (st.stack.count (frameOf first) : Int) ∧
  lastB ≠ 43 ∧
  (lastB = 44 → st.mode = JMode.kStart ∨ st.mode = JMode.vStart) ∧
  (lastB = 123 → st.mode = JMode.kStartOrClose) ∧
  ((st.mode = JMode.n0 ∨ st.mode = JMode.nInt) →
    ∀ d, rem.head? = some d → isDigitB d = false ∧ d ≠ 46 ∧ d ≠ 101 ∧ d ≠ 69) ∧
  (st.mode = JMode.nFrac →
    ∀ d, rem.head? = some d → isDigitB d = false ∧ d ≠ 101 ∧ d ≠ 69) ∧
  (st.mode = JMode.nExp → ∀ d, rem.head? = some d → isDigitB d = false)

/-! ## Lemmas about the resettable buffer (claim C2) -/

/-- `readN` on a state with an empty return buffer: reads a prefix of
the stream, capturing it when capture is enabled. -/
theorem readN_nilRet : ∀ (m : Nat) (bf : Bytes) (e : Bool) (str : Bytes),
    RBuf.readN m ⟨[], bf, e, str⟩ =
      (str.take m, ⟨[], if e then bf ++ str.take m else bf, e, str.drop m⟩) := by
  intro m
  induction m with
  | zero =>
    intro bf e str
    cases e <;> simp [RBuf.readN]
  | succ n ih =>
    intro bf e str
    match str with
    | [] =>
      cases e <;> simp [RBuf.readN, RBuf.readByte]
    | c :: s =>
      have hb : RBuf.readByte ⟨[], bf, e, c :: s⟩ =
          some (c, ⟨[], if e then bf ++ [c] else bf, e, s⟩) := by
        cases e <;> rfl
      rw [RBuf.readN, hb]
      dsimp only
      rw [ih]
      cases e <;>
        simp [List.take_succ_cons, List.drop_succ_cons, List.append_assoc,
          List.singleton_append]

/-- A byte read takes the head of the available bytes. -/
theorem readByte_avail_take (b : RBuf) :
    (RBuf.readByte b).map (fun p => p.1) = b.avail.head? ∧
    (∀ c b1, RBuf.readByte b = some (c, b1) → b1.avail = b.avail.tail) := by
  obtain ⟨ret, before, e, str⟩ := b
  match ret with
  | [] =>
    match str with
    | [] => simp [RBuf.readByte, RBuf.avail]
    | c :: s =>
      constructor
      · simp [RBuf.readByte, RBuf.avail]
      · intro c1 b1 h
        simp [RBuf.readByte] at h
        simp [← h.2, RBuf.avail]
  | x :: xs =>
    constructor
    · simp [RBuf.readByte, RBuf.avail]
    · intro c1 b1 h
      simp [RBuf.readByte] at h
      simp [← h.2, RBuf.avail]

/-- Sequential reads produce exactly the available bytes, in order. -/
theorem readN_fst_avail : ∀ (m : Nat) (b : RBuf),
    (RBuf.readN m b).1 = b.avail.take m := by
  intro m
  induction m with
  | zero => intro b; simp [RBuf.readN]
  | succ n ih =>
    intro b
    match h : RBuf.readByte b with
    | none =>
      have := (readByte_avail_take b).1
      rw [h] at this
      have hav : b.avail = [] := by
        cases hx : b.avail with
        | nil => rfl
        | cons c cs => rw [hx] at this; simp at this
      simp [RBuf.readN, h, hav]
    | some (c, b1) =>
      have h1 := (readByte_avail_take b).1
      have h2 := (readByte_avail_take b).2 c b1 h
      rw [h] at h1
      cases hx : b.avail with
      | nil => rw [hx] at h1; simp at h1
      | cons d ds =>
        rw [hx] at h1
        simp at h1
        rw [hx] at h2
        simp at h2
        simp [RBuf.readN, h, ih b1, h2, hx, h1]

/-- C2: for every underlying byte stream, after `MarkStart` at stream
position `p`, reading any `N` bytes through the resettable buffer, then
calling `ReturnAndSkip(k)` with `k ≤ N`: the skip reports no error, and
all subsequent reads produce exactly the original stream's byte
sequence starting at position `p + k`. -/
theorem rbuf_mark_read_skip_roundtrip (stream : Bytes) (p N k : Nat)
    (hN : p + N ≤ stream.length) (hk : k ≤ N) :
    (((RBuf.readN N ((RBuf.readN p ⟨[], [], false, stream⟩).2.markStart)).2.returnAndSkip
        k).1.avail = stream.drop (p + k)) ∧
    ((RBuf.readN N ((RBuf.readN p ⟨[], [], false, stream⟩).2.markStart)).2.returnAndSkip
        k).2 = false ∧
    (∀ m,
      (RBuf.readN m
        (((RBuf.readN N ((RBuf.readN p ⟨[], [], false, stream⟩).2.markStart)).2.returnAndSkip
          k).1)).1 = (stream.drop (p + k)).take m) := by
  have hlen : ((stream.drop p).take N).length = N := by
    rw [List.length_take, List.length_drop]
    omega
  have e1 : (RBuf.readN p ⟨[], [], false, stream⟩).2 = ⟨[], [], false, stream.drop p⟩ := by
    rw [readN_nilRet]
    rfl
  have e2 : RBuf.markStart ⟨[], [], false, stream.drop p⟩ =
      ⟨[], [], true, stream.drop p⟩ := rfl
  have e3 : (RBuf.readN N (⟨[], [], true, stream.drop p⟩ : RBuf)).2 =
      ⟨[], (stream.drop p).take N, true, (stream.drop p).drop N⟩ := by
    rw [readN_nilRet]
    simp
  have e4 : RBuf.returnAndSkip k
      (⟨[], (stream.drop p).take N, true, (stream.drop p).drop N⟩ : RBuf) =
      (⟨((stream.drop p).take N).drop k, [], true, (stream.drop p).drop N⟩, false) := by
    simp only [RBuf.returnAndSkip, hlen]
    simp
    omega
  have havail : RBuf.avail
      (⟨((stream.drop p).take N).drop k, [], true, (stream.drop p).drop N⟩ : RBuf) =
      stream.drop (p + k) := by
    show ((stream.drop p).take N).drop k ++ (stream.drop p).drop N = stream.drop (p + k)
    have hsplit : (stream.drop p).take N ++ (stream.drop p).drop N = stream.drop p :=
      List.take_append_drop N (stream.drop p)
    have hd : ((stream.drop p).take N ++ (stream.drop p).drop N).drop k =
        ((stream.drop p).take N).drop k ++ (stream.drop p).drop N := by
      rw [List.drop_append_of_le_length]
      omega
    rw [hsplit] at hd
    rw [← hd, List.drop_drop]
  rw [e1, e2, e3, e4]
  exact ⟨havail, rfl, fun m => by rw [readN_fst_avail, havail]⟩

/-! ## Lemmas about the option scan and `Objects` (claims C5, C6) -/

/-- Spec-side description of the scan: the first option, in
declaration order, that is not yet satisfied and whose keys are all
present. -/
def firstMatchIdx {σ : Type} (sat : List Nat) (fields : List (Bytes × JTree)) :
    List (MOption σ) → Nat → Option Nat
  | [], _ => none
  | o :: os, i =>
    if !satContains sat i && optMatch o fields then some i
    else firstMatchIdx sat fields os (i + 1)

/-- Characterization of the option scan at any starting index: no
remaining match means no callback call and an unchanged state; otherwise
exactly the first non-satisfied matching option's callback runs, once,
on the whole object's bytes, with the `ErrStop` bookkeeping of
`objects.go`. -/
theorem optLoop_spec {σ : Type} (total : Nat) (raw : Bytes)
    (fields : List (Bytes × JTree)) :
    ∀ (opts : List (MOption σ)) (i : Nat) (st : WSt σ),
      (firstMatchIdx st.sat fields opts i = none →
        optLoop total raw fields opts i st = (st, none, [])) ∧
      (∀ j, firstMatchIdx st.sat fields opts i = some j →
        i ≤ j ∧ ∃ o, opts.get? (j - i) = some o ∧ satContains st.sat j = false ∧
          optMatch o fields = true ∧
          (((o.cb st.us raw).2 = some GoError.errStop →
             optLoop total raw fields opts i st =
               (⟨j :: st.sat, st.cnt + 1, (o.cb st.us raw).1⟩,
                 if st.cnt + 1 = total then some GoError.errStop else none, [(j, raw)])) ∧
           (∀ e, e ≠ GoError.errStop → (o.cb st.us raw).2 = some e →
             optLoop total raw fields opts i st =
               (⟨st.sat, st.cnt, (o.cb st.us raw).1⟩, some e, [(j, raw)])) ∧
           ((o.cb st.us raw).2 = none →
             optLoop total raw fields opts i st =
               (⟨st.sat, st.cnt, (o.cb st.us raw).1⟩, none, [(j, raw)])))) := by
  intro opts
  induction opts with
  | nil =>
    intro i st
    refine ⟨fun _ => rfl, fun j h => ?_⟩
    simp [firstMatchIdx] at h
  | cons o os ih =>
    intro i st
    by_cases hc : satContains st.sat i = true
    · have hfm : firstMatchIdx st.sat fields (o :: os) i =
          firstMatchIdx st.sat fields os (i + 1) := by
        simp [firstMatchIdx, hc]
      have hol : optLoop total raw fields (o :: os) i st =
          optLoop total raw fields os (i + 1) st := by
        simp [optLoop, hc]
      rw [hfm, hol]
      refine ⟨(ih (i + 1) st).1, fun j hj => ?_⟩
      obtain ⟨hij, o1, hgo, rest⟩ := (ih (i + 1) st).2 j hj
      refine ⟨by omega, o1, ?_, rest⟩
      have : j - i = (j - (i + 1)) + 1 := by omega
      rw [this]
      simpa using hgo
    · have hc0 : satContains st.sat i = false := by simpa using hc
      by_cases hm : optMatch o fields = true
      · have hfm : firstMatchIdx st.sat fields (o :: os) i = some i := by
          simp [firstMatchIdx, hc0, hm]
        rw [hfm]
        refine ⟨by simp, fun j hj => ?_⟩
        have hji : j = i := by simpa using hj.symm
        subst hji
        refine ⟨le_refl j, o, by simp, hc0, hm, ?_, ?_, ?_⟩
        · intro hstop
          simp [optLoop, hc0, hm, hstop]
          split <;> rfl
        · intro e he hcb
          simp [optLoop, hc0, hm, hcb, he]
        · intro hcb
          simp [optLoop, hc0, hm, hcb]
      · have hm0 : optMatch o fields = false := by simpa using hm
        have hfm : firstMatchIdx st.sat fields (o :: os) i =
            firstMatchIdx st.sat fields os (i + 1) := by
          simp [firstMatchIdx, hc0, hm0]
        have hol : optLoop total raw fields (o :: os) i st =
            optLoop total raw fields os (i + 1) st := by
          simp [optLoop, hc0, hm0]
        rw [hfm, hol]
        refine ⟨(ih (i + 1) st).1, fun j hj => ?_⟩
        obtain ⟨hij, o1, hgo, rest⟩ := (ih (i + 1) st).2 j hj
        refine ⟨by omega, o1, ?_, rest⟩
        have : j - i = (j - (i + 1)) + 1 := by omega
        rw [this]
        simpa using hgo

/-- C5: at most one option's callback runs for a nested object — the
first non-satisfied option (in declaration order) whose keys are all
present receives the whole object's bytes; `ErrStop` marks it
satisfied, early termination is signalled exactly when all options are
satisfied, and the walk stops the extraction when the scan reports an
error. -/
theorem objects_option_scan_first_match {σ : Type} (total : Nat) (raw : Bytes)
    (fields : List (Bytes × JTree)) (opts : List (MOption σ)) (st : WSt σ) :
    (firstMatchIdx st.sat fields opts 0 = none →
      optLoop total raw fields opts 0 st = (st, none, [])) ∧
    (∀ j, firstMatchIdx st.sat fields opts 0 = some j →
      ∃ o, opts.get? j = some o ∧ satContains st.sat j = false ∧
        optMatch o fields = true ∧
        (((o.cb st.us raw).2 = some GoError.errStop →
           optLoop total raw fields opts 0 st =
             (⟨j :: st.sat, st.cnt + 1, (o.cb st.us raw).1⟩,
               if st.cnt + 1 = total then some GoError.errStop else none, [(j, raw)])) ∧
         (∀ e, e ≠ GoError.errStop → (o.cb st.us raw).2 = some e →
           optLoop total raw fields opts 0 st =
             (⟨st.sat, st.cnt, (o.cb st.us raw).1⟩, some e, [(j, raw)])) ∧
         ((o.cb st.us raw).2 = none →
           optLoop total raw fields opts 0 st =
             (⟨st.sat, st.cnt, (o.cb st.us raw).1⟩, none, [(j, raw)])))) ∧
    (∀ f ts st1 res calls, optLoop total raw fields opts 0 st = (st1, some res, calls) →
      walkTs opts total (f + 1) (JTree.jobj raw fields :: ts) st = (st1, some res, calls)) := by
  refine ⟨(optLoop_spec total raw fields opts 0 st).1, ?_, ?_⟩
  · intro j hj
    obtain ⟨_, o, hgo, rest⟩ := (optLoop_spec total raw fields opts 0 st).2 j hj
    exact ⟨o, by simpa using hgo, rest⟩
  · intro f ts st1 res calls h
    simp [walkTs, h]

/-- Witness for C5: with a single option whose key is absent, the scan
makes no call and leaves the state unchanged. -/
theorem objects_option_scan_first_match_witness :
    optLoop 1 [123, 125] [] [⟨[[107]], constCb GoError.errStop, false⟩] 0
      (⟨[], 0, ()⟩ : WSt Unit) = (⟨[], 0, ()⟩, none, []) :=
  (objects_option_scan_first_match 1 [123, 125] []
    [⟨[[107]], constCb GoError.errStop, false⟩] ⟨[], 0, ()⟩).1 (by decide)

/-- Executable form of "some option is flagged required but is not in
the satisfaction set" (indices counted from `i`). -/
def someRequiredUnsat {σ : Type} (sat : List Nat) : List (MOption σ) → Nat → Bool
  | [], _ => false
  | o :: os, i => (o.required && !satContains sat i) || someRequiredUnsat sat os (i + 1)

/-- The required check fires exactly when a required option is
unsatisfied, and then it yields `ErrCallbackNeverCalled`. -/
theorem requiredCheck_spec {σ : Type} (sat : List Nat) :
    ∀ (opts : List (MOption σ)) (i : Nat),
      (requiredCheck sat opts i = some GoError.cbNever ↔
        someRequiredUnsat sat opts i = true) ∧
      (requiredCheck sat opts i = none ∨ requiredCheck sat opts i = some GoError.cbNever) := by
  intro opts
  induction opts with
  | nil => intro i; simp [requiredCheck, someRequiredUnsat]
  | cons o os ih =>
    intro i
    by_cases h : (o.required && !satContains sat i) = true
    · constructor
      · simp [requiredCheck, someRequiredUnsat, h]
      · right
        simp [requiredCheck, h]
    · have h0 : (o.required && !satContains sat i) = false := by simpa using h
      constructor
      · simp [requiredCheck, someRequiredUnsat, h0]
        exact (ih (i + 1)).1
      · simpa [requiredCheck, h0] using (ih (i + 1)).2

/-- Errors reported by the option scan are the stop sentinel or come
from some option's callback. -/
theorem optLoop_err_origin {σ : Type} (total : Nat) (raw : Bytes)
    (fields : List (Bytes × JTree)) :
    ∀ (opts : List (MOption σ)) (i : Nat) (st st1 : WSt σ) (e : GoError)
      (calls : List (Nat × Bytes)),
      optLoop total raw fields opts i st = (st1, some e, calls) →
      e = GoError.errStop ∨ ∃ o ∈ opts, ∃ s b, (o.cb s b).2 = some e := by
  intro opts
  induction opts with
  | nil =>
    intro i st st1 e calls h
    simp [optLoop] at h
  | cons o os ih =>
    intro i st st1 e calls h
    by_cases hc : satContains st.sat i = true
    · rcases ih (i + 1) st st1 e calls (by simpa [optLoop, hc] using h) with h1 | ⟨o1, ho1, hh⟩
      · exact Or.inl h1
      · exact Or.inr ⟨o1, List.mem_cons_of_mem o ho1, hh⟩
    · have hc0 : satContains st.sat i = false := by simpa using hc
      by_cases hm : optMatch o fields = true
      · rw [optLoop] at h
        rw [hc0] at h
        simp only [Bool.false_eq_true, if_false] at h
        rw [if_pos hm] at h
        cases hcb : (o.cb st.us raw).2 with
        | none => rw [hcb] at h; simp at h
        | some e1 =>
          rw [hcb] at h
          dsimp only at h
          by_cases hstop : e1 = GoError.errStop
          · subst hstop
            rw [if_pos rfl] at h
            split at h
            · left
              have h2 := congrArg (fun x => x.2.1) h
              simpa using h2.symm
            · have h2 := congrArg (fun x => x.2.1) h
              simp at h2
          · rw [if_neg hstop] at h
            have h2 := congrArg (fun x => x.2.1) h
            have : e1 = e := by simpa using h2
            subst this
            exact Or.inr ⟨o, List.mem_cons_self o os, st.us, raw, hcb⟩
      · have hm0 : optMatch o fields = false := by simpa using hm
        rcases ih (i + 1) st st1 e calls (by simpa [optLoop, hc0, hm0] using h) with
          h1 | ⟨o1, ho1, hh⟩
        · exact Or.inl h1
        · exact Or.inr ⟨o1, List.mem_cons_of_mem o ho1, hh⟩

/-- Errors reported by the walk are the stop sentinel or come from some
option's callback. -/
theorem walkTs_err_origin {σ : Type} (opts : List (MOption σ)) (total : Nat) :
    ∀ (f : Nat) (ts : List JTree) (st st1 : WSt σ) (e : GoError)
      (calls : List (Nat × Bytes)),
      walkTs opts total f ts st = (st1, some e, calls) →
      e = GoError.errStop ∨ ∃ o ∈ opts, ∃ s b, (o.cb s b).2 = some e := by
  intro f
  induction f with
  | zero =>
    intro ts st st1 e calls h
    simp [walkTs] at h
  | succ f ih =>
    intro ts st st1 e calls h
    match ts with
    | [] => simp [walkTs] at h
    | t :: ts1 =>
      match t with
      | JTree.jleaf r => exact ih _ _ _ _ _ (by simpa [walkTs] using h)
      | JTree.jarr r elems => exact ih _ _ _ _ _ (by simpa [walkTs] using h)
      | JTree.jobj raw fields =>
        rw [walkTs] at h
        dsimp only at h
        rcases hm : optLoop total raw fields opts 0 st with ⟨stm, resm, callsm⟩
        rw [hm] at h
        cases resm with
        | some e0 =>
          simp only [Prod.mk.injEq] at h
          obtain ⟨-, he, -⟩ := h
          have he0 : e0 = e := by simpa using he
          subst he0
          exact optLoop_err_origin total raw fields opts 0 st stm e0 callsm hm
        | none =>
          simp only at h
          rcases hw : walkTs opts total f ((sortFields fields).map (fun p => p.2) ++ ts1)
            stm with ⟨stw, resw, callsw⟩
          rw [hw] at h
          simp only [Prod.mk.injEq] at h
          obtain ⟨-, he, -⟩ := h
          subst he
          exact ih _ _ _ _ _ hw


/-! ## Concrete normalisation facts (claims C7, C4, C3) -/

/-- C7: normalising the relaxed object with hexadecimal, octal, binary
and big-integer literals re-emits every number in decimal: the input
is the bytes of an object with values `0x15`, `0o25`, `0b10101`, `21n`
and the single delivered value is the strict JSON object with all four
values printed `21`. -/
theorem reader_number_normalisation_eval :
    readerRun
      [123, 32, 97, 58, 32, 48, 120, 49, 53, 44, 32, 98, 58, 32, 48, 111, 50, 53, 44, 32,
        99, 58, 32, 48, 98, 49, 48, 49, 48, 49, 44, 32, 100, 58, 32, 50, 49, 110, 32, 125]
      pureCb () =
      ([[123, 34, 97, 34, 58, 50, 49, 44, 34, 98, 34, 58, 50, 49, 44, 34, 99, 34, 58, 50,
        49, 44, 34, 100, 34, 58, 50, 49, 125]], none, ()) := by
  decide

/-- C4 counterexample: the candidate containing a bare `Infinity`
literal is not rejected — the enclosing object is delivered, with the
identifier re-emitted as the JSON string "Infinity". -/
theorem infinity_not_rejected_counterexample :
    (readerRun [123, 97, 58, 32, 73, 110, 102, 105, 110, 105, 116, 121, 125] pureCb ()).1 =
      [[123, 34, 97, 34, 58, 34, 73, 110, 102, 105, 110, 105, 116, 121, 34, 125]] ∧
    (readerRun [123, 97, 58, 32, 73, 110, 102, 105, 110, 105, 116, 121, 125] pureCb ()).1 ≠
      [] := by
  constructor
  · decide
  · decide

/-- C4 (amended): a numeric literal with underscore separators causes
rejection of the enclosing candidate (the lexer splits it and the
result fails validation), while an infinity literal does not — it is
re-emitted as a quoted identifier string and the value is delivered. -/
theorem underscore_rejected_infinity_stringified :
    readerRun [123, 97, 58, 32, 49, 95, 48, 48, 48, 125] pureCb () = ([], none, ()) ∧
    readerRun [123, 97, 58, 32, 73, 110, 102, 105, 110, 105, 116, 121, 125] pureCb () =
      ([[123, 34, 97, 34, 58, 34, 73, 110, 102, 105, 110, 105, 116, 121, 34, 125]],
        none, ()) := by
  constructor
  · decide
  · decide

/-- C3 counterexample: an input that is already strict JSON but
contains whitespace between tokens is not delivered byte-for-byte: the
whitespace is discarded. -/
theorem ws_not_preserved_counterexample :
    jsonValidB [123, 32, 125] = true ∧
    (readerRun [123, 32, 125] pureCb ()).1 = [[123, 125]] ∧
    (readerRun [123, 32, 125] pureCb ()).1 ≠ [[123, 32, 125]] := by
  refine ⟨by decide, by decide, by decide⟩

/-! ## Delivered-value invariants (claim C1) -/

/-- Appending preserves a nonempty head. -/
theorem head_append_of_some (l t : Bytes) (x : Nat) (h : l.head? = some x) :
    (l ++ t).head? = some x := by
  cases l with
  | nil => simp at h
  | cons a as => simpa using h

/-- Dropping the last element of a list of length at least two keeps
the head. -/
theorem dropLast_head_of_two (l : Bytes) (x : Nat) (h : l.head? = some x)
    (h2 : 2 ≤ l.length) : l.dropLast.head? = some x := by
  match l with
  | [] => simp at h
  | [a] => simp at h2
  | a :: c :: rest =>
    simp at h
    simpa [List.dropLast] using h

/-- A marshalled string ends with the closing quote. -/
theorem jsonMarshalStr_last (s : Bytes) : (jsonMarshalStr s).getLastD 0 = 34 := by
  have h : jsonMarshalStr s = (34 :: jmEsc s) ++ [34] := by simp [jsonMarshalStr]
  rw [h, List.getLastD_eq_getLast?, List.getLast?_concat]
  rfl

/-- The single-quote replacer maps nonempty inputs to nonempty
outputs. -/
theorem sqReplace_ne_nil (l : Bytes) (h : l ≠ []) : sqReplace l ≠ [] := by
  unfold sqReplace
  split <;> simp_all

/-- A list with nonzero last-element default is nonempty. -/
theorem ne_nil_of_getLastD (l : Bytes) (c : Nat) (hc : c ≠ 0) (h : l.getLastD 0 = c) :
    l ≠ [] := by
  intro he
  subst he
  simp at h
  omega

/-- A list with a head is nonempty. -/
theorem length_pos_of_head (l : Bytes) (x : Nat) (h : l.head? = some x) :
    1 ≤ l.length := by
  cases l with
  | nil => simp at h
  | cons a as => simp

/-- Head and length invariant of the normaliser loop: once the buffer
starts with the opening byte, every successful outcome starts with it
too (the trailing-comma and plus fix-ups can only truncate a buffer of
length at least two, which the invariant guarantees whenever the last
written byte is a comma or plus). -/
theorem rjAux_head (b : Nat) :
    ∀ (f : Nat) (rem buf : Bytes) (level : Int) (lastB first cnt : Nat) (msg : Bytes)
      (n : Nat),
      buf.head? = some b →
      (lastB = 44 ∨ lastB = 43 → 2 ≤ buf.length) →
      rjAux f rem buf level lastB first cnt = some (msg, n) →
      msg.head? = some b := by
  intro f
  induction f with
  | zero =>
    intro rem buf level lastB first cnt msg n h1 h2 h3
    simp [rjAux] at h3
  | succ f ih =>
    intro rem buf level lastB first cnt msg n h1 h2 h3
    rw [rjAux] at h3
    rcases hlex : lexNext rem with ⟨tt, text, rest⟩
    rw [hlex] at h3
    cases tt with
    | eofT =>
      simp only [Option.some.injEq, Prod.mk.injEq] at h3
      rw [← h3.1]
      exact h1
    | badT => simp at h3
    | wsT => exact ih _ _ _ _ _ _ _ _ h1 h2 h3
    | lineT => exact ih _ _ _ _ _ _ _ _ h1 h2 h3
    | commentT => exact ih _ _ _ _ _ _ _ _ h1 h2 h3
    | commentLineT => exact ih _ _ _ _ _ _ _ _ h1 h2 h3
    | identT =>
      dsimp only at h3
      rcases hjs : jsIdentLookup text with _ | v
      · rw [hjs] at h3
        dsimp only at h3
        refine ih _ _ _ _ _ _ _ _ (head_append_of_some _ _ _ h1) (fun hh => ?_) h3
        rw [jsonMarshalStr_last] at hh
        rcases hh with hh | hh <;> omega
      · rw [hjs] at h3
        dsimp only at h3
        unfold jsIdentLookup at hjs
        split_ifs at hjs with ht1 ht2 ht3 ht4 ht5 <;>
          first
          | (simp only [Option.some.injEq] at hjs
             subst hjs
             first
             | (subst ht1; exact ih _ _ _ _ _ _ _ _ (head_append_of_some _ _ _ h1)
                 (fun hh => by simp at hh) h3)
             | (subst ht2; exact ih _ _ _ _ _ _ _ _ (head_append_of_some _ _ _ h1)
                 (fun hh => by simp at hh) h3)
             | (subst ht3; exact ih _ _ _ _ _ _ _ _ (head_append_of_some _ _ _ h1)
                 (fun hh => by simp at hh) h3)
             | (subst ht4; exact ih _ _ _ _ _ _ _ _ (head_append_of_some _ _ _ h1)
                 (fun hh => by simp at hh) h3)
             | (subst ht5; exact ih _ _ _ _ _ _ _ _ (head_append_of_some _ _ _ h1)
                 (fun hh => by simp at hh) h3))
          | simp at hjs
    | divT =>
      dsimp only at h3
      rcases hre : lexRegExp rem with _ | ⟨rt, rr⟩
      · rw [hre] at h3
        simp at h3
      · rw [hre] at h3
        dsimp only at h3
        refine ih _ _ _ _ _ _ _ _ (head_append_of_some _ _ _ h1) (fun hh => ?_) h3
        rw [jsonMarshalStr_last] at hh
        rcases hh with hh | hh <;> omega
    | divEqT =>
      dsimp only at h3
      rcases hre : lexRegExp rem with _ | ⟨rt, rr⟩
      · rw [hre] at h3
        simp at h3
      · rw [hre] at h3
        dsimp only at h3
        refine ih _ _ _ _ _ _ _ _ (head_append_of_some _ _ _ h1) (fun hh => ?_) h3
        rw [jsonMarshalStr_last] at hh
        rcases hh with hh | hh <;> omega
    | punctT =>
      rcases text with _ | ⟨c, trest⟩
      · dsimp only at h3
        exact absurd h3 (by simp)
      · rcases trest with _ | ⟨c2, t3⟩
        · dsimp only at h3
          generalize hf : (if cnt = 0 then ([c] : Bytes).headD 0 else first) = fst at h3
          split at h3
          · next hopen =>
            simp only [Bool.or_eq_true, decide_eq_true_eq] at hopen
            generalize hop : (if c = fst then level + 1 else level) = lvlop at h3
            split at h3
            · exact absurd h3 (by simp)
            · refine ih _ _ _ _ _ _ _ _ (head_append_of_some _ _ _ h1) (fun hh => ?_) h3
              rcases hopen with h4 | h4 <;> rcases hh with hh | hh <;> omega
          · split at h3
            · next hclose =>
              simp only [Bool.or_eq_true, decide_eq_true_eq] at hclose
              generalize hcl : (if c = matchingClose fst then level - 1 else level) =
                lvl1 at h3
              have hb2 : ((if lastB = 44 then buf.dropLast else buf) ++ [c]).head? =
                  some b := by
                split
                · next h44 =>
                  exact head_append_of_some _ _ _
                    (dropLast_head_of_two _ _ h1 (h2 (Or.inl h44)))
                · exact head_append_of_some _ _ _ h1
              split at h3
              · simp only [Option.some.injEq, Prod.mk.injEq] at h3
                rw [← h3.1]
                exact hb2
              · refine ih _ _ _ _ _ _ _ _ hb2 (fun hh => ?_) h3
                rcases hclose with h4 | h4 <;> rcases hh with hh | hh <;> omega
            · split at h3
              · split at h3
                · exact absurd h3 (by simp)
                · refine ih _ _ _ _ _ _ _ _ (head_append_of_some _ _ _ h1)
                    (fun hh => ?_) h3
                  have hlb := length_pos_of_head buf b h1
                  simp only [List.length_append, List.length_cons, List.length_nil]
                  omega
              · refine ih _ _ _ _ _ _ _ _ (head_append_of_some _ _ _ h1)
                  (fun hh => ?_) h3
                have hlb := length_pos_of_head buf b h1
                simp only [List.length_append, List.length_cons, List.length_nil]
                omega
        · dsimp only at h3
          exact absurd h3 (by simp)
    | stringT =>
      dsimp only at h3
      generalize hf : (if cnt = 0 then text.headD 0 else first) = fst at h3
      split at h3
      · refine ih _ _ _ _ _ _ _ _ (head_append_of_some _ _ _ h1) (fun hh => ?_) h3
        have htx : text ≠ [] := by
          rcases hh with hh | hh <;> exact ne_nil_of_getLastD _ _ (by omega) hh
        have hsq := sqReplace_ne_nil text htx
        have hlb := length_pos_of_head buf b h1
        have h0 : 1 ≤ (sqReplace text).length := List.length_pos.mpr hsq
        simp only [List.length_append]
        omega
      · split at h3
        · refine ih _ _ _ _ _ _ _ _ (head_append_of_some _ _ _ h1) (fun hh => ?_) h3
          have htx : text ≠ [] := by
            rcases hh with hh | hh <;> exact ne_nil_of_getLastD _ _ (by omega) hh
          have hlb := length_pos_of_head buf b h1
          have h0 : 1 ≤ text.length := List.length_pos.mpr htx
          simp only [List.length_append]
          omega
        · exact absurd h3 (by simp)
    | templateT =>
      dsimp only at h3
      generalize hf : (if cnt = 0 then text.headD 0 else first) = fst at h3
      split at h3
      · exact absurd h3 (by simp)
      · refine ih _ _ _ _ _ _ _ _ (head_append_of_some _ _ _ h1) (fun hh => ?_) h3
        rw [jsonMarshalStr_last] at hh
        rcases hh with hh | hh <;> omega
    | numericT =>
      dsimp only at h3
      have hb1 : (if lastB = 43 then buf.dropLast else buf).head? = some b := by
        split
        · next h43 => exact dropLast_head_of_two _ _ h1 (h2 (Or.inr h43))
        · exact h1
      refine ih _ _ _ _ _ _ _ _ (head_append_of_some _ _ _ hb1) (fun hh => ?_) h3
      have ht2 : transformNumber text ≠ [] := by
        rcases hh with hh | hh <;> exact ne_nil_of_getLastD _ _ (by omega) hh
      have hlb1 := length_pos_of_head _ b hb1
      have h0 : 1 ≤ (transformNumber text).length := List.length_pos.mpr ht2
      simp [List.length_append]
      omega
    | bigIntT =>
      dsimp only at h3
      have hb1 : (if lastB = 43 then buf.dropLast else buf).head? = some b := by
        split
        · next h43 => exact dropLast_head_of_two _ _ h1 (h2 (Or.inr h43))
        · exact h1
      refine ih _ _ _ _ _ _ _ _ (head_append_of_some _ _ _ hb1) (fun hh => ?_) h3
      have ht2 : transformNumber (trimSuffixN text) ≠ [] := by
        rcases hh with hh | hh <;> exact ne_nil_of_getLastD _ _ (by omega) hh
      have hlb1 := length_pos_of_head _ b hb1
      have h0 : 1 ≤ (transformNumber (trimSuffixN text)).length := List.length_pos.mpr ht2
      simp [List.length_append]
      omega

/-- A head byte that starts no multi-byte punctuator lexes as its own
single-byte punctuator. -/
theorem lexPunct_plain (c : Nat) (cs : Bytes)
    (h3 : ∀ b b', isPunct3 c b b' = false) (h2 : ∀ b, isPunct2 c b = false)
    (h1 : isSinglePunct c = true) : lexPunct (c :: cs) = some ([c], cs) := by
  match cs with
  | [] => simp [lexPunct, h1]
  | [b] => simp [lexPunct, h2, h1]
  | b :: b2 :: r => simp [lexPunct, h3, h2, h1]

/-- The lexer on an open brace. -/
theorem lexNext_123 (cs : Bytes) : lexNext (123 :: cs) = (LTok.punctT, [123], cs) := by
  have hp : lexPunct (123 :: cs) = some ([123], cs) :=
    lexPunct_plain 123 cs (fun b b2 => by simp [isPunct3]) (fun b => by simp [isPunct2])
      (by decide)
  simp [lexNext, isLexWs, isLineB, isDigitB, isIdentStart, hp]

/-- The lexer on an open bracket. -/
theorem lexNext_91 (cs : Bytes) : lexNext (91 :: cs) = (LTok.punctT, [91], cs) := by
  have hp : lexPunct (91 :: cs) = some ([91], cs) :=
    lexPunct_plain 91 cs (fun b b2 => by simp [isPunct3]) (fun b => by simp [isPunct2])
      (by decide)
  simp [lexNext, isLexWs, isLineB, isDigitB, isIdentStart, hp]

/-- The fuel-initial step of the normaliser on an open brace. -/
theorem rjRun_brace (cs : Bytes) :
    rjRun (123 :: cs) = rjAux (cs.length + 1) cs [123] 1 123 123 1 := by
  show rjAux ((123 :: cs).length + 1) (123 :: cs) [] 0 0 0 0 = _
  have hl : (123 :: cs).length + 1 = cs.length + 1 + 1 := by simp
  rw [hl, rjAux, lexNext_123]
  rfl

/-- The fuel-initial step of the normaliser on an open bracket. -/
theorem rjRun_bracket (cs : Bytes) :
    rjRun (91 :: cs) = rjAux (cs.length + 1) cs [91] 1 91 91 1 := by
  show rjAux ((91 :: cs).length + 1) (91 :: cs) [] 0 0 0 0 = _
  have hl : (91 :: cs).length + 1 = cs.length + 1 + 1 := by simp
  rw [hl, rjAux, lexNext_91]
  rfl

/-- A successful normalisation of a bracket-headed input yields a
buffer with the same head byte. -/
theorem rjRun_head_bracket (l msg : Bytes) (n : Nat)
    (hb : l.head? = some 123 ∨ l.head? = some 91)
    (h : rjRun l = some (msg, n)) : msg.head? = l.head? := by
  match l with
  | [] => simp at hb
  | c :: cs =>
    rcases hb with hb | hb
    · have hc : c = 123 := by simpa using hb
      subst hc
      rw [rjRun_brace] at h
      rw [show ((123 :: cs : Bytes)).head? = some 123 from rfl]
      exact rjAux_head 123 (cs.length + 1) cs [123] 1 123 123 1 msg n rfl
        (fun hh => by rcases hh with hh | hh <;> omega) h
    · have hc : c = 91 := by simpa using hb
      subst hc
      rw [rjRun_bracket] at h
      rw [show ((91 :: cs : Bytes)).head? = some 91 from rfl]
      exact rjAux_head 91 (cs.length + 1) cs [91] 1 91 91 1 msg n rfl
        (fun hh => by rcases hh with hh | hh <;> omega) h

/-- Unfolding lemma for the byte-level UTF-8 decoder on a cons cell. -/
theorem utf8Decode1_cons (b : Nat) (rest : Bytes) :
    utf8Decode1 (b :: rest) =
    if b < 128 then (b, 1)
    else if 194 ≤ b && b < 224 then
      match rest with
      | b1 :: _ =>
        if isContB b1 then ((b - 192) * 64 + (b1 - 128), 2) else (65533, 1)
      | _ => (65533, 1)
    else if 224 ≤ b && b < 240 then
      match rest with
      | b1 :: b2 :: _ =>
        if utf8AcceptB1 b b1 && isContB b2 then
          ((b - 224) * 4096 + (b1 - 128) * 64 + (b2 - 128), 3)
        else (65533, 1)
      | _ => (65533, 1)
    else if 240 ≤ b && b < 245 then
      match rest with
      | b1 :: b2 :: b3 :: _ =>
        if utf8AcceptB1 b b1 && isContB b2 && isContB b3 then
          ((b - 240) * 262144 + (b1 - 128) * 4096 + (b2 - 128) * 64 + (b3 - 128), 4)
        else (65533, 1)
      | _ => (65533, 1)
    else (65533, 1) := rfl

/-- Bounds extracted from the second-byte accept ranges. -/
theorem utf8AcceptB1_bound (b b1 : Nat) (h : utf8AcceptB1 b b1 = true) :
    128 ≤ b1 ∧ (b = 224 → 160 ≤ b1) ∧ (b = 240 → 144 ≤ b1) := by
  unfold utf8AcceptB1 at h
  split_ifs at h with h1 h2 h3 h4 <;>
    simp only [Bool.and_eq_true, decide_eq_true_eq] at h <;>
    refine ⟨by omega, fun hb2 => by omega, fun hb2 => by omega⟩

/-- A rune decoded below 128 is exactly the first byte. -/
theorem utf8Decode1_low (l : Bytes) (r n : Nat) (h : utf8Decode1 l = (r, n))
    (hr : r < 128) : l.head? = some r := by
  match l with
  | [] => simp only [utf8Decode1, Prod.mk.injEq] at h; omega
  | b :: rest =>
    rw [utf8Decode1_cons] at h
    by_cases hb0 : b < 128
    · rw [if_pos hb0] at h
      simp only [Prod.mk.injEq] at h
      simp [← h.1]
    · exfalso
      rw [if_neg hb0] at h
      by_cases hb2 : (194 ≤ b && b < 224) = true
      · rw [if_pos hb2] at h
        simp only [Bool.and_eq_true, decide_eq_true_eq] at hb2
        rcases rest with _ | ⟨b1, r2⟩
        · simp only [Prod.mk.injEq] at h
          omega
        · simp only [] at h
          by_cases hcont : isContB b1 = true
          · rw [if_pos hcont] at h
            simp only [isContB, Bool.and_eq_true, decide_eq_true_eq] at hcont
            simp only [Prod.mk.injEq] at h
            omega
          · rw [if_neg hcont] at h
            simp only [Prod.mk.injEq] at h
            omega
      · rw [if_neg hb2] at h
        by_cases hb3 : (224 ≤ b && b < 240) = true
        · rw [if_pos hb3] at h
          simp only [Bool.and_eq_true, decide_eq_true_eq] at hb3
          rcases rest with _ | ⟨b1, r2⟩
          · simp only [Prod.mk.injEq] at h
            omega
          · rcases r2 with _ | ⟨b2, r3⟩
            · simp only [Prod.mk.injEq] at h
              omega
            · simp only [] at h
              by_cases hacc : (utf8AcceptB1 b b1 && isContB b2) = true
              · rw [if_pos hacc] at h
                simp only [Bool.and_eq_true] at hacc
                obtain ⟨hacc1, hacc2⟩ := hacc
                obtain ⟨hge, h224, _⟩ := utf8AcceptB1_bound b b1 hacc1
                simp only [Prod.mk.injEq] at h
                rcases eq_or_ne b 224 with hbe | hbn
                · have := h224 hbe
                  omega
                · omega
              · rw [if_neg hacc] at h
                simp only [Prod.mk.injEq] at h
                omega
        · rw [if_neg hb3] at h
          by_cases hb4 : (240 ≤ b && b < 245) = true
          · rw [if_pos hb4] at h
            simp only [Bool.and_eq_true, decide_eq_true_eq] at hb4
            rcases rest with _ | ⟨b1, r2⟩
            · simp only [Prod.mk.injEq] at h
              omega
            · rcases r2 with _ | ⟨b2, r3⟩
              · simp only [Prod.mk.injEq] at h
                omega
              · rcases r3 with _ | ⟨b3, r4⟩
                · simp only [Prod.mk.injEq] at h
                  omega
                · simp only [] at h
                  by_cases hacc : (utf8AcceptB1 b b1 && isContB b2 && isContB b3) = true
                  · rw [if_pos hacc] at h
                    simp only [Bool.and_eq_true] at hacc
                    obtain ⟨⟨hacc1, hacc2⟩, hacc3⟩ := hacc
                    obtain ⟨hge, _, h240⟩ := utf8AcceptB1_bound b b1 hacc1
                    simp only [Prod.mk.injEq] at h
                    rcases eq_or_ne b 240 with hbe | hbn
                    · have := h240 hbe
                      omega
                    · omega
                  · rw [if_neg hacc] at h
                    simp only [Prod.mk.injEq] at h
                    omega
          · rw [if_neg hb4] at h
            simp only [Prod.mk.injEq] at h
            omega

/-- A rune read below 128 is the head of the available bytes. -/
theorem readRune_avail_head (b : RBuf) (r : Nat) (b1 : RBuf)
    (h : b.readRune = some (r, b1)) (hr : r < 128) : b.avail.head? = some r := by
  obtain ⟨ret, bf, e, str⟩ := b
  match ret with
  | [] =>
    match str with
    | [] => simp [RBuf.readRune] at h
    | c :: s =>
      simp only [RBuf.readRune, Option.some.injEq, Prod.mk.injEq] at h
      have := utf8Decode1_low (c :: s) r (utf8Decode1 (c :: s)).2
        (by rw [← h.1]) hr
      simpa [RBuf.avail] using this
  | d :: dr =>
    simp only [RBuf.readRune, Option.some.injEq, Prod.mk.injEq] at h
    have := utf8Decode1_low (d :: dr) r (utf8Decode1 (d :: dr)).2
      (by rw [← h.1]) hr
    rw [RBuf.avail]
    rw [List.cons_append]
    simpa using this

/-- The drained bytes after a mark are the available bytes. -/
theorem markStart_drain_avail (b : RBuf) : (b.markStart.drainAll).1 = b.avail := rfl

/-- A valid JSON value starting with a bracket has length at least
two. -/
theorem jsonValid_bracket_len (v : Bytes) (hv : jsonValidB v = true)
    (hh : v.head? = some 123 ∨ v.head? = some 91) : 2 ≤ v.length := by
  match v with
  | [] => simp at hh
  | [c] =>
    rcases hh with hh | hh <;> (simp only [List.head?] at hh) <;>
      (injection hh with hh; subst hh; exact absurd hv (by decide))
  | c :: d :: rest => simp

/-- Every value in the delivered trace was accepted by the validator
and starts with an opening brace or bracket. -/
theorem readerFuel_delivered {σ : Type} (cb : JCallback σ) :
    ∀ (f : Nat) (b : RBuf) (s : σ) (acc : List Bytes) (v : Bytes),
      v ∈ (readerFuel cb f b s acc).1 →
      v ∈ acc ∨ (jsonValidB v = true ∧ (v.head? = some 123 ∨ v.head? = some 91)) := by
  intro f
  induction f with
  | zero =>
    intro b s acc v hv
    simp only [readerFuel, List.mem_reverse] at hv
    exact Or.inl hv
  | succ f ih =>
    intro b s acc v hv
    rw [readerFuel] at hv
    dsimp only at hv
    split at hv
    · simp only [List.mem_reverse] at hv
      exact Or.inl hv
    · next r b1 heq =>
      split at hv
      · next hbr =>
        simp only [Bool.or_eq_true, decide_eq_true_eq] at hbr
        have hr : r < 128 := by rcases hbr with hbr | hbr <;> omega
        have hav := readRune_avail_head b r b1 heq hr
        split at hv
        · next mn hrj =>
          rw [markStart_drain_avail] at hrj
          split at hv
          · next hvalid =>
            have hP : jsonValidB mn.1 = true ∧
                (mn.1.head? = some 123 ∨ mn.1.head? = some 91) := by
              refine ⟨hvalid, ?_⟩
              have hmh := rjRun_head_bracket b.avail mn.1 mn.2
                (by rw [hav]; rcases hbr with hbr | hbr <;> (subst hbr; simp))
                (by rw [hrj])
              rw [hav] at hmh
              rcases hbr with hbr | hbr <;> (subst hbr; simp [hmh])
            split at hv
            · simp only [List.mem_reverse] at hv
              exact Or.inl hv
            · split at hv
              · rcases ih _ _ _ _ hv with hin | hPv
                · rcases List.mem_cons.mp hin with heq2 | hin2
                  · subst heq2
                    exact Or.inr hP
                  · exact Or.inl hin2
                · exact Or.inr hPv
              · simp only [List.mem_reverse] at hv
                rcases List.mem_cons.mp hv with heq2 | hin2
                · subst heq2
                  exact Or.inr hP
                · exact Or.inl hin2
          · split at hv
            · simp only [List.mem_reverse] at hv
              exact Or.inl hv
            · exact ih _ _ _ _ hv
        · split at hv
          · simp only [List.mem_reverse] at hv
            exact Or.inl hv
          · exact ih _ _ _ _ hv
      · exact ih _ _ _ _ hv

/-- C1: every byte slice passed to the callback by `Reader` begins with
an opening brace or bracket, has length at least 2, and is accepted by
the strict JSON validator. -/
theorem reader_delivered_invariant {σ : Type} (input : Bytes) (cb : JCallback σ) (s0 : σ)
    (v : Bytes) (hv : v ∈ (readerRun input cb s0).1) :
    (v.head? = some 123 ∨ v.head? = some 91) ∧ 2 ≤ v.length ∧ jsonValidB v = true := by
  rcases readerFuel_delivered cb _ _ _ _ _ hv with hin | ⟨hval, hhead⟩
  · simp at hin
  · exact ⟨hhead, jsonValid_bracket_len v hval hhead, hval⟩

/-- Witness for C1 at a concrete delivered value. -/
theorem reader_delivered_invariant_witness :
    (([123, 125] : Bytes) ∈ (readerRun [123, 125] pureCb ()).1) ∧
    ((([123, 125] : Bytes).head? = some 123 ∨ ([123, 125] : Bytes).head? = some 91) ∧
      2 ≤ ([123, 125] : Bytes).length ∧ jsonValidB [123, 125] = true) :=
  ⟨by decide, reader_delivered_invariant [123, 125] pureCb () [123, 125] (by decide)⟩

/-- C3 (amended): whitespace is not preserved.  Whenever the next token
of the remaining input is an ignored kind (whitespace, line terminator
or comment), `readJSObject` recurses without writing anything to the
output buffer and without touching the bracket level or the last
written byte. -/
theorem ws_discarded_amended (f : Nat) (rem buf : Bytes) (level : Int)
    (lastB first cnt : Nat) (tt : LTok) (text rest : Bytes)
    (hlex : lexNext rem = (tt, text, rest)) (hig : isIgnoredTok tt = true) :
    rjAux (f + 1) rem buf level lastB first cnt =
      rjAux f rest buf level lastB
        (if cnt = 0 then text.headD 0 else first) (cnt + text.length) := by
  rw [rjAux]
  rw [hlex]
  cases tt <;> first
    | exact absurd hig (by decide)
    | rfl

/-- Witness for the amended C3 at a concrete whitespace token. -/
theorem ws_discarded_amended_witness :
    lexNext [32, 125] = (LTok.wsT, [32], [125]) ∧
    isIgnoredTok LTok.wsT = true ∧
    rjAux 3 [32, 125] [] 0 0 0 0 =
      rjAux 2 [125] [] 0 0
        (if 0 = 0 then ([32] : Bytes).headD 0 else 0) (0 + ([32] : Bytes).length) :=
  ⟨by decide, by decide,
    ws_discarded_amended 2 [32, 125] [] 0 0 0 0 LTok.wsT [32] [125] (by decide) (by decide)⟩

/-- C6 (amended): provided no callback itself returns the
`ErrCallbackNeverCalled` value, `Objects` returns it exactly when the
walk finished without error (a nil result or the mapped stop sentinel),
not every option was satisfied, and some option flagged required was
never satisfied. -/
theorem objects_cbNever_iff_amended {σ : Type} (opts : List (MOption σ)) (fuel : Nat)
    (trees : List JTree) (s0 : σ)
    (hcb : ∀ o ∈ opts, ∀ s b, (o.cb s b).2 ≠ some GoError.cbNever) :
    (objectsModel opts fuel trees s0).1 = some GoError.cbNever ↔
      ((walkTs opts opts.length fuel trees ⟨[], 0, s0⟩).2.1 = none ∨
        (walkTs opts opts.length fuel trees ⟨[], 0, s0⟩).2.1 = some GoError.errStop) ∧
      (walkTs opts opts.length fuel trees ⟨[], 0, s0⟩).1.cnt ≠ opts.length ∧
      someRequiredUnsat (walkTs opts opts.length fuel trees ⟨[], 0, s0⟩).1.sat opts 0 =
        true := by
  rcases hw : walkTs opts opts.length fuel trees ⟨[], 0, s0⟩ with ⟨wst, wres, wtr⟩
  unfold objectsModel
  rw [hw]
  dsimp only
  cases wres with
  | none =>
    by_cases hcnt : wst.cnt = opts.length
    · simp [hcnt]
    · simp [hcnt]
      exact (requiredCheck_spec wst.sat opts 0).1
  | some e =>
    by_cases hstop : e = GoError.errStop
    · subst hstop
      by_cases hcnt : wst.cnt = opts.length
      · simp [hcnt]
      · simp [hcnt]
        exact (requiredCheck_spec wst.sat opts 0).1
    · have horigin := walkTs_err_origin opts opts.length fuel trees ⟨[], 0, s0⟩ wst e wtr hw
      have hene : e ≠ GoError.cbNever := by
        rcases horigin with h1 | ⟨o, ho, s, b, hcbe⟩
        · exact absurd h1 hstop
        · intro hne
          subst hne
          exact hcb o ho s b hcbe
      simp [hstop, hene]

/-- Witness for the amended C6: a single required option whose callback
never stops leads to the `ErrCallbackNeverCalled` result. -/
theorem objects_cbNever_iff_amended_witness :
    (objectsModel [⟨[], pureCb, true⟩] 5 [JTree.jobj [123, 125] []] ()).1 =
      some GoError.cbNever :=
  (objects_cbNever_iff_amended [⟨[], pureCb, true⟩] 5 [JTree.jobj [123, 125] []] ()
    (by
      intro o ho s b
      simp only [List.mem_singleton] at ho
      subst ho
      simp [pureCb])).mpr
    ⟨by decide, by decide, by decide⟩

/-- C6 counterexample: with one non-required option whose callback
returns the `ErrCallbackNeverCalled` value itself, `Objects` returns
`ErrCallbackNeverCalled` although the walk itself reported an error, so
the if-and-only-if of the claim fails as stated. -/
theorem objects_cbNever_counterexample :
    (objectsModel [⟨[], constCb GoError.cbNever, false⟩] 5
        [JTree.jobj [123, 125] []] ()).1 = some GoError.cbNever ∧
    ¬ ((walkTs [⟨[], constCb GoError.cbNever, false⟩] 1 5 [JTree.jobj [123, 125] []]
          (⟨[], 0, ()⟩ : WSt Unit)).2.1 = none ∨
        (walkTs [⟨[], constCb GoError.cbNever, false⟩] 1 5 [JTree.jobj [123, 125] []]
          (⟨[], 0, ()⟩ : WSt Unit)).2.1 = some GoError.errStop) := by
  constructor
  · decide
  · decide

/-- Any error surfaced by the scanning loop was returned by the
callback, and is never the stop sentinel (which is mapped to nil). -/
theorem readerFuel_err_from_cb {σ : Type} (cb : JCallback σ) :
    ∀ (f : Nat) (b : RBuf) (s : σ) (acc : List Bytes) (e : GoError),
      (readerFuel cb f b s acc).2.1 = some e →
      e ≠ GoError.errStop ∧ ∃ s1 v, (cb s1 v).2 = some e := by
  intro f
  induction f with
  | zero =>
    intro b s acc e h
    simp [readerFuel] at h
  | succ f ih =>
    intro b s acc e h
    rw [readerFuel] at h
    dsimp only at h
    split at h
    · simp at h
    · split at h
      · split at h
        · split at h
          · split at h
            · simp at h
            · split at h
              · exact ih _ _ _ _ h
              · next s1 e' heq =>
                simp only at h
                split at h
                · simp at h
                · simp only [Option.some.injEq] at h
                  subst h
                  next hne =>
                  exact ⟨hne, s, _, by rw [heq]⟩
          · split at h
            · simp at h
            · exact ih _ _ _ _ h
        · split at h
          · simp at h
          · exact ih _ _ _ _ h
      · exact ih _ _ _ _ h

/-- With a callback that always returns the stop sentinel, the loop
stops after at most one delivery and reports nil. -/
theorem readerFuel_const_stop :
    ∀ (f : Nat) (b : RBuf) (acc : List Bytes),
      (readerFuel (constCb GoError.errStop) f b () acc).2.1 = none ∧
      (readerFuel (constCb GoError.errStop) f b () acc).1.length ≤ acc.length + 1 := by
  intro f
  induction f with
  | zero =>
    intro b acc
    simp [readerFuel]
  | succ f ih =>
    intro b acc
    rw [readerFuel]
    dsimp only
    split
    · simp
    · split
      · split
        · split
          · split
            · simp
            · simp only [constCb]
              constructor
              · simp
              · simp
          · split
            · simp
            · exact ih _ _
        · split
          · simp
          · exact ih _ _
      · exact ih _ _

/-- With a callback constantly returning a fixed non-stop error, the run
either delivers nothing (and returns nil) or surfaces exactly that
error. -/
theorem readerFuel_const_err (e : GoError) (he : ¬e = GoError.errStop) :
    ∀ (f : Nat) (b : RBuf) (acc : List Bytes),
      ((readerFuel (constCb e) f b () acc).1 = acc.reverse ∧
        (readerFuel (constCb e) f b () acc).2.1 = none) ∨
      (readerFuel (constCb e) f b () acc).2.1 = some e := by
  intro f
  induction f with
  | zero =>
    intro b acc
    left
    simp [readerFuel]
  | succ f ih =>
    intro b acc
    rw [readerFuel]
    dsimp only
    split
    · left; simp
    · split
      · split
        · split
          · split
            · left; simp
            · right
              simp only [constCb]
              simp [he]
          · split
            · left; simp
            · exact ih _ _
        · split
          · left; simp
          · exact ih _ _
      · exact ih _ _

/-- C9: `Reader` maps callback results as specified: the stop sentinel
is never surfaced; any surfaced error is a non-stop error returned by
the callback verbatim; when the callback only ever continues or stops,
end of stream yields nil; and a stop-returning callback terminates the
loop after at most one delivery with a nil result. -/
theorem reader_callback_result_mapping {σ : Type} (input : Bytes) (cb : JCallback σ)
    (s0 : σ) :
    (readerRun input cb s0).2.1 ≠ some GoError.errStop ∧
    (∀ e, (readerRun input cb s0).2.1 = some e →
      e ≠ GoError.errStop ∧ ∃ s1 v, (cb s1 v).2 = some e) ∧
    ((∀ s1 v, (cb s1 v).2 = none ∨ (cb s1 v).2 = some GoError.errStop) →
      (readerRun input cb s0).2.1 = none) ∧
    ((readerRun input (constCb GoError.errStop) ()).1.length ≤ 1 ∧
      (readerRun input (constCb GoError.errStop) ()).2.1 = none) := by
  refine ⟨?_, ?_, ?_, ?_, ?_⟩
  · intro h
    exact (readerFuel_err_from_cb cb _ _ _ _ _ h).1 rfl
  · intro e h
    exact readerFuel_err_from_cb cb _ _ _ _ _ h
  · intro hnice
    cases hres : (readerRun input cb s0).2.1 with
    | none => rfl
    | some e =>
      obtain ⟨hne, s1, v, hcb⟩ := readerFuel_err_from_cb cb _ _ _ _ _ hres
      cases hnice s1 v with
      | inl h0 => rw [h0] at hcb; exact absurd hcb (by simp)
      | inr h0 => rw [h0] at hcb; simp at hcb; exact absurd hcb.symm hne
  · simpa using (readerFuel_const_stop (input.length + 1) ⟨[], [], false, input⟩ []).2
  · exact (readerFuel_const_stop (input.length + 1) ⟨[], [], false, input⟩ []).1

/-- Witness for C9: a concrete non-stop callback error is propagated
verbatim and originates from the callback. -/
theorem reader_callback_result_mapping_witness :
    GoError.custom 3 ≠ GoError.errStop ∧
    ∃ s1 v, (constCb (GoError.custom 3) s1 v).2 = some (GoError.custom 3) :=
  (reader_callback_result_mapping [123, 125] (constCb (GoError.custom 3)) ()).2.1
    (GoError.custom 3) (by decide)

/-- C10: `Reader` compares the callback error to `ErrStop` by identity:
the exact sentinel yields a nil result, while any other error value
(for example one merely wrapping the sentinel) is surfaced. -/
theorem reader_errstop_identity_only (input : Bytes) (e : GoError)
    (he : e ≠ GoError.errStop) :
    ((((readerRun input (constCb e) ()).1 = [] ∧
        (readerRun input (constCb e) ()).2.1 = none) ∨
      (readerRun input (constCb e) ()).2.1 = some e)) ∧
    (readerRun input (constCb GoError.errStop) ()).2.1 = none := by
  constructor
  · simpa using readerFuel_const_err e he (input.length + 1) ⟨[], [], false, input⟩ []
  · exact (readerFuel_const_stop (input.length + 1) ⟨[], [], false, input⟩ []).1

/-- Witness for C10: a wrapping of `ErrStop` is not `ErrStop`; on the
input consisting of one empty object it is surfaced as a non-nil
error, unlike `ErrStop` itself. -/
theorem reader_errstop_identity_only_witness :
    ((((readerRun [123, 125] (constCb (GoError.wrapped GoError.errStop)) ()).1 = [] ∧
        (readerRun [123, 125] (constCb (GoError.wrapped GoError.errStop)) ()).2.1 = none) ∨
      (readerRun [123, 125] (constCb (GoError.wrapped GoError.errStop)) ()).2.1 =
        some (GoError.wrapped GoError.errStop))) ∧
    (readerRun [123, 125] (constCb GoError.errStop) ()).2.1 = none :=
  reader_errstop_identity_only [123, 125] (GoError.wrapped GoError.errStop) (by decide)

/-- Witness for C2 at a concrete stream. -/
theorem rbuf_mark_read_skip_roundtrip_witness :
    (1 + 3 ≤ ([5, 6, 7, 8, 9] : Bytes).length ∧ 2 ≤ 3) ∧
    (((RBuf.readN 3 ((RBuf.readN 1 ⟨[], [], false, [5, 6, 7, 8, 9]⟩).2.markStart)).2.returnAndSkip
        2).1.avail = ([5, 6, 7, 8, 9] : Bytes).drop (1 + 2)) :=
  ⟨⟨by decide, by decide⟩,
    (rbuf_mark_read_skip_roundtrip [5, 6, 7, 8, 9] 1 3 2 (by decide) (by decide)).1⟩

/-! ## Byte-level automaton lemmas (claim C8) -/

/-- String modes never accept. -/
theorem accept_strMode (st : JSt) (h : strMode st.mode = true) : jsonAccept st = false := by
  obtain ⟨stk, m⟩ := st
  cases m <;> simp [strMode] at h <;> simp [jsonAccept, numDone]

/-- The automaton over an appended list. -/
theorem jsonRun_append (aw : Bool) : ∀ (a b : Bytes) (st : JSt),
    jsonRun aw st (a ++ b) =
      match jsonRun aw st a with
      | none => none
      | some s1 => jsonRun aw s1 b := by
  intro a
  induction a with
  | nil => intro b st; rfl
  | cons c cs ih =>
    intro b st
    rw [List.cons_append, jsonRun, jsonRun]
    cases jsonStep aw st c with
    | none => rfl
    | some s1 => exact ih b s1

/-- In string modes the whitespace flag is irrelevant. -/
theorem jsonStep_str_eq (st : JSt) (c : Nat) (h : strMode st.mode = true) :
    jsonStep true st c = jsonStep false st c := by
  obtain ⟨stk, m⟩ := st
  cases m <;> simp [strMode] at h <;> rfl

/-- On a non-whitespace byte the whitespace flag is irrelevant. -/
theorem jsonStep_nws_eq (st : JSt) (c : Nat) (h : isJsonWs c = false) :
    jsonStep true st c = jsonStep false st c := by
  obtain ⟨stk, m⟩ := st
  cases m <;> simp [jsonStep, h]

set_option maxHeartbeats 1000000

/-- Case analysis of a successful value-start transition. -/
theorem jsonValStart_cases (st : JSt) (c : Nat) (st' : JSt)
    (h : jsonValStart st c = some st') :
    (c = 123 ∧ st' = ⟨JFrame.fObj :: st.stack, JMode.kStartOrClose⟩) ∨
    (c = 91 ∧ st' = ⟨JFrame.fArr :: st.stack, JMode.vStartOrClose⟩) ∨
    (c = 34 ∧ st' = ⟨st.stack, JMode.inStr false⟩) ∨
    (c = 45 ∧ st' = ⟨st.stack, JMode.nNeg⟩) ∨
    (c = 48 ∧ st' = ⟨st.stack, JMode.n0⟩) ∨
    (49 ≤ c ∧ c ≤ 57 ∧ st' = ⟨st.stack, JMode.nInt⟩) ∨
    (c = 116 ∧ st' = ⟨st.stack, JMode.lit [114, 117, 101]⟩) ∨
    (c = 102 ∧ st' = ⟨st.stack, JMode.lit [97, 108, 115, 101]⟩) ∨
    (c = 110 ∧ st' = ⟨st.stack, JMode.lit [117, 108, 108]⟩) := by
  unfold jsonValStart at h
  split_ifs at h <;> (try cases h) <;> simp_all

/-- Case analysis of a successful after-value transition. -/
theorem jsonAfterVal_cases (st : JSt) (c : Nat) (st' : JSt)
    (h : jsonAfterVal st c = some st') :
    (∃ s, st.stack = JFrame.fObj :: s ∧
      ((c = 44 ∧ st' = ⟨st.stack, JMode.kStart⟩) ∨ (c = 125 ∧ st' = ⟨s, JMode.afterVal⟩))) ∨
    (∃ s, st.stack = JFrame.fArr :: s ∧
      ((c = 44 ∧ st' = ⟨st.stack, JMode.vStart⟩) ∨ (c = 93 ∧ st' = ⟨s, JMode.afterVal⟩))) := by
  unfold jsonAfterVal at h
  rcases hstk : st.stack with _ | ⟨fr, s⟩ <;> rw [hstk] at h
  · simp at h
  · cases fr <;> split_ifs at h <;> (try cases h) <;> simp_all

set_option maxHeartbeats 1000000 in
/-- A step on a byte other than a quote never enters a string mode. -/
theorem jsonStep_preserve_nstr (aw : Bool) (st : JSt) (c : Nat) (st' : JSt)
    (h : strMode st.mode = false) (hc : c ≠ 34)
    (hs : jsonStep aw st c = some st') : strMode st'.mode = false := by
  obtain ⟨stk, m⟩ := st
  cases m
  case inStr k => simp [strMode] at h
  case inStrEsc k => simp [strMode] at h
  case inStrU k j => simp [strMode] at h
  case lit r =>
    simp only [jsonStep] at hs
    split at hs
    · exact absurd hs (by simp)
    · split_ifs at hs <;> cases hs <;> simp [strMode]
  case vStart =>
    simp only [jsonStep] at hs
    split_ifs at hs
    · cases hs; simpa [strMode] using h
    · rcases jsonValStart_cases _ _ _ hs with
        ⟨h1, rfl⟩ | ⟨h1, rfl⟩ | ⟨h1, rfl⟩ | ⟨h1, rfl⟩ | ⟨h1, rfl⟩ |
        ⟨h1, h2, rfl⟩ | ⟨h1, rfl⟩ | ⟨h1, rfl⟩ | ⟨h1, rfl⟩ <;>
        first
        | exact absurd h1 hc
        | simp [strMode]
  case vStartOrClose =>
    simp only [jsonStep] at hs
    split_ifs at hs
    · cases hs; simpa [strMode] using h
    · split at hs
      · cases hs; simp [strMode]
      · simp at hs
    · rcases jsonValStart_cases _ _ _ hs with
        ⟨h1, rfl⟩ | ⟨h1, rfl⟩ | ⟨h1, rfl⟩ | ⟨h1, rfl⟩ | ⟨h1, rfl⟩ |
        ⟨h1, h2, rfl⟩ | ⟨h1, rfl⟩ | ⟨h1, rfl⟩ | ⟨h1, rfl⟩ <;>
        first
        | exact absurd h1 hc
        | simp [strMode]
  case kStartOrClose =>
    simp only [jsonStep] at hs
    split_ifs at hs with hw1 h125
    · cases hs; simpa [strMode] using h
    · split at hs
      · cases hs; simp [strMode]
      · simp at hs
  case kStart =>
    simp only [jsonStep] at hs
    split_ifs at hs with hw1
    cases hs; simpa [strMode] using h
  case colonStart =>
    simp only [jsonStep] at hs
    split_ifs at hs <;> cases hs <;> simp [strMode]
  case afterVal =>
    simp only [jsonStep] at hs
    split_ifs at hs
    · cases hs; simpa [strMode] using h
    · rcases jsonAfterVal_cases _ _ _ hs with
        ⟨s, hstk, ⟨h1, rfl⟩ | ⟨h1, rfl⟩⟩ | ⟨s, hstk, ⟨h1, rfl⟩ | ⟨h1, rfl⟩⟩ <;>
        simp [strMode]
  case nNeg =>
    simp only [jsonStep] at hs
    split_ifs at hs <;> cases hs <;> simp [strMode]
  case nDot =>
    simp only [jsonStep] at hs
    split_ifs at hs <;> cases hs <;> simp [strMode]
  case nE =>
    simp only [jsonStep] at hs
    split_ifs at hs <;> cases hs <;> simp [strMode]
  case nESign =>
    simp only [jsonStep] at hs
    split_ifs at hs <;> cases hs <;> simp [strMode]
  case n0 =>
    simp only [jsonStep] at hs
    split_ifs at hs <;>
      first
      | (cases hs; simp [strMode])
      | (rcases jsonAfterVal_cases _ _ _ hs with
          ⟨s, hstk, ⟨h1, rfl⟩ | ⟨h1, rfl⟩⟩ | ⟨s, hstk, ⟨h1, rfl⟩ | ⟨h1, rfl⟩⟩ <;>
          simp [strMode])
  case nInt =>
    simp only [jsonStep] at hs
    split_ifs at hs <;>
      first
      | (cases hs; simp [strMode])
      | (rcases jsonAfterVal_cases _ _ _ hs with
          ⟨s, hstk, ⟨h1, rfl⟩ | ⟨h1, rfl⟩⟩ | ⟨s, hstk, ⟨h1, rfl⟩ | ⟨h1, rfl⟩⟩ <;>
          simp [strMode])
  case nFrac =>
    simp only [jsonStep] at hs
    split_ifs at hs <;>
      first
      | (cases hs; simp [strMode])
      | (rcases jsonAfterVal_cases _ _ _ hs with
          ⟨s, hstk, ⟨h1, rfl⟩ | ⟨h1, rfl⟩⟩ | ⟨s, hstk, ⟨h1, rfl⟩ | ⟨h1, rfl⟩⟩ <;>
          simp [strMode])
  case nExp =>
    simp only [jsonStep] at hs
    split_ifs at hs <;>
      first
      | (cases hs; simp [strMode])
      | (rcases jsonAfterVal_cases _ _ _ hs with
          ⟨s, hstk, ⟨h1, rfl⟩ | ⟨h1, rfl⟩⟩ | ⟨s, hstk, ⟨h1, rfl⟩ | ⟨h1, rfl⟩⟩ <;>
          simp [strMode])


/-- From a non-string mode a backslash is always rejected. -/
theorem jsonStep_92_none (aw : Bool) (st : JSt)
    (h : strMode st.mode = false) (hw : stWF st = true) :
    jsonStep aw st 92 = none := by
  obtain ⟨stk, m⟩ := st
  cases m
  case inStr k => simp [strMode] at h
  case inStrEsc k => simp [strMode] at h
  case inStrU k j => simp [strMode] at h
  case lit r =>
    simp only [stWF, litTail, decide_eq_true_eq] at hw
    rcases hw with hw | hw | hw | hw | hw | hw | hw | hw | hw <;> subst hw <;>
      simp [jsonStep]
  all_goals (
    rcases stk with _ | ⟨fr, s⟩ <;> [skip; cases fr] <;>
      simp [jsonStep, jsonValStart, jsonAfterVal, isJsonWs, isDigitB])

/-- From a non-string mode a single quote is always rejected. -/
theorem jsonStep_39_none (aw : Bool) (st : JSt)
    (h : strMode st.mode = false) (hw : stWF st = true) :
    jsonStep aw st 39 = none := by
  obtain ⟨stk, m⟩ := st
  cases m
  case inStr k => simp [strMode] at h
  case inStrEsc k => simp [strMode] at h
  case inStrU k j => simp [strMode] at h
  case lit r =>
    simp only [stWF, litTail, decide_eq_true_eq] at hw
    rcases hw with hw | hw | hw | hw | hw | hw | hw | hw | hw <;> subst hw <;>
      simp [jsonStep]
  all_goals (
    rcases stk with _ | ⟨fr, s⟩ <;> [skip; cases fr] <;>
      simp [jsonStep, jsonValStart, jsonAfterVal, isJsonWs, isDigitB])

/-- A successful step on a double quote from a non-string mode opens a
string. -/
theorem jsonStep_34_nstr (aw : Bool) (st : JSt) (st' : JSt)
    (h : strMode st.mode = false) (hw : stWF st = true)
    (hs : jsonStep aw st 34 = some st') : ∃ k, st'.mode = JMode.inStr k := by
  obtain ⟨stk, m⟩ := st
  cases m
  case inStr k => simp [strMode] at h
  case inStrEsc k => simp [strMode] at h
  case inStrU k j => simp [strMode] at h
  case lit r =>
    simp only [stWF, litTail, decide_eq_true_eq] at hw
    rcases hw with hw | hw | hw | hw | hw | hw | hw | hw | hw <;> subst hw <;>
      simp [jsonStep] at hs
  all_goals (
    rcases stk with _ | ⟨fr, s⟩ <;> [skip; cases fr] <;>
      simp only [jsonStep, jsonValStart, jsonAfterVal, isJsonWs] at hs <;>
      split_ifs at hs <;> first
        | (cases hs; exact ⟨_, rfl⟩)
        | (injection hs with hs2; cases hs2; exact ⟨_, rfl⟩)
        | (rename_i hx; simp [isDigitB, isJsonWs] at hx; done))

/-- String modes are preserved by any byte other than a double quote. -/
theorem jsonStep_strMode_in (aw : Bool) (st : JSt) (c : Nat) (st' : JSt)
    (h : strMode st.mode = true) (hc : c ≠ 34)
    (hs : jsonStep aw st c = some st') : strMode st'.mode = true := by
  obtain ⟨stk, m⟩ := st
  cases m
  case inStr k =>
    simp only [jsonStep] at hs
    split_ifs at hs with h34 hk h92 hlt
    · exact absurd h34 hc
    · exact absurd h34 hc
    · cases hs; simp [strMode]
    · cases hs; simp [strMode]
  case inStrEsc k =>
    simp only [jsonStep] at hs
    split_ifs at hs with he hu
    · cases hs; simp [strMode]
    · cases hs; simp [strMode]
  case inStrU k j =>
    simp only [jsonStep] at hs
    split_ifs at hs with hh hl
    · cases hs; simp [strMode]
    · cases hs; simp [strMode]
  all_goals simp [strMode] at h

/-- Well-formedness of literal tails is preserved by automaton steps. -/
theorem stWF_step (aw : Bool) (st : JSt) (c : Nat) (st' : JSt)
    (hw : stWF st = true) (hs : jsonStep aw st c = some st') : stWF st' = true := by
  obtain ⟨stk, m⟩ := st
  cases m
  case inStr k =>
    simp only [jsonStep] at hs
    split_ifs at hs <;> cases hs <;> simp [stWF]
  case inStrEsc k =>
    simp only [jsonStep] at hs
    split_ifs at hs <;> cases hs <;> simp [stWF]
  case inStrU k j =>
    simp only [jsonStep] at hs
    split_ifs at hs <;> cases hs <;> simp [stWF]
  case lit r =>
    simp only [stWF, litTail, decide_eq_true_eq] at hw
    rcases hw with hw | hw | hw | hw | hw | hw | hw | hw | hw <;> subst hw <;>
      (simp only [jsonStep] at hs
       split_ifs at hs <;>
         first
         | (cases hs; simp [stWF, litTail])
         | simp at hs)
  case vStart =>
    simp only [jsonStep] at hs
    split_ifs at hs
    · cases hs; simpa [stWF] using hw
    · rcases jsonValStart_cases _ _ _ hs with
        ⟨h1, rfl⟩ | ⟨h1, rfl⟩ | ⟨h1, rfl⟩ | ⟨h1, rfl⟩ | ⟨h1, rfl⟩ |
        ⟨h1, h2, rfl⟩ | ⟨h1, rfl⟩ | ⟨h1, rfl⟩ | ⟨h1, rfl⟩ <;>
        simp [stWF, litTail]
  case vStartOrClose =>
    simp only [jsonStep] at hs
    split_ifs at hs
    · cases hs; simpa [stWF] using hw
    · split at hs
      · cases hs; simp [stWF]
      · simp at hs
    · rcases jsonValStart_cases _ _ _ hs with
        ⟨h1, rfl⟩ | ⟨h1, rfl⟩ | ⟨h1, rfl⟩ | ⟨h1, rfl⟩ | ⟨h1, rfl⟩ |
        ⟨h1, h2, rfl⟩ | ⟨h1, rfl⟩ | ⟨h1, rfl⟩ | ⟨h1, rfl⟩ <;>
        simp [stWF, litTail]
  case kStartOrClose =>
    simp only [jsonStep] at hs
    split_ifs at hs
    · cases hs; simpa [stWF] using hw
    · cases hs; simp [stWF]
    · split at hs
      · cases hs; simp [stWF]
      · simp at hs
  case kStart =>
    simp only [jsonStep] at hs
    split_ifs at hs
    · cases hs; simpa [stWF] using hw
    · cases hs; simp [stWF]
  case colonStart =>
    simp only [jsonStep] at hs
    split_ifs at hs <;> cases hs <;> simp [stWF]
  case afterVal =>
    simp only [jsonStep] at hs
    split_ifs at hs
    · cases hs; simpa [stWF] using hw
    · rcases jsonAfterVal_cases _ _ _ hs with
        ⟨s, hstk, ⟨h1, rfl⟩ | ⟨h1, rfl⟩⟩ | ⟨s, hstk, ⟨h1, rfl⟩ | ⟨h1, rfl⟩⟩ <;>
        simp [stWF]
  case nNeg =>
    simp only [jsonStep] at hs
    split_ifs at hs <;> cases hs <;> simp [stWF]
  case nDot =>
    simp only [jsonStep] at hs
    split_ifs at hs <;> cases hs <;> simp [stWF]
  case nE =>
    simp only [jsonStep] at hs
    split_ifs at hs <;> cases hs <;> simp [stWF]
  case nESign =>
    simp only [jsonStep] at hs
    split_ifs at hs <;> cases hs <;> simp [stWF]
  case n0 =>
    simp only [jsonStep] at hs
    split_ifs at hs <;>
      first
      | (cases hs; simp [stWF])
      | (rcases jsonAfterVal_cases _ _ _ hs with
          ⟨s, hstk, ⟨h1, rfl⟩ | ⟨h1, rfl⟩⟩ | ⟨s, hstk, ⟨h1, rfl⟩ | ⟨h1, rfl⟩⟩ <;>
          simp [stWF])
  case nInt =>
    simp only [jsonStep] at hs
    split_ifs at hs <;>
      first
      | (cases hs; simp [stWF])
      | (rcases jsonAfterVal_cases _ _ _ hs with
          ⟨s, hstk, ⟨h1, rfl⟩ | ⟨h1, rfl⟩⟩ | ⟨s, hstk, ⟨h1, rfl⟩ | ⟨h1, rfl⟩⟩ <;>
          simp [stWF])
  case nFrac =>
    simp only [jsonStep] at hs
    split_ifs at hs <;>
      first
      | (cases hs; simp [stWF])
      | (rcases jsonAfterVal_cases _ _ _ hs with
          ⟨s, hstk, ⟨h1, rfl⟩ | ⟨h1, rfl⟩⟩ | ⟨s, hstk, ⟨h1, rfl⟩ | ⟨h1, rfl⟩⟩ <;>
          simp [stWF])
  case nExp =>
    simp only [jsonStep] at hs
    split_ifs at hs <;>
      first
      | (cases hs; simp [stWF])
      | (rcases jsonAfterVal_cases _ _ _ hs with
          ⟨s, hstk, ⟨h1, rfl⟩ | ⟨h1, rfl⟩⟩ | ⟨s, hstk, ⟨h1, rfl⟩ | ⟨h1, rfl⟩⟩ <;>
          simp [stWF])

/-! ## Shape lemmas for emitted atoms (claim C8) -/

/-- The double-quote string scanner produces well-shaped bodies. -/
theorem strSpanR_sbody : ∀ (n : Nat) (cs t r : Bytes), cs.length ≤ n →
    strSpanR 34 cs = some (t, r) → SBody t := by
  intro n
  induction n with
  | zero =>
    intro cs t r hlen h
    match cs with
    | [] => simp [strSpanR] at h
    | c :: cs1 => simp at hlen
  | succ n ih =>
    intro cs t r hlen h
    match cs with
    | [] => simp [strSpanR] at h
    | c :: cs1 =>
      rw [strSpanR.eq_def] at h
      dsimp only at h
      split_ifs at h with h34 hnl h92
      · cases h
        exact SBody.done
      · subst h92
        rcases cs1 with _ | ⟨e, cs2⟩
        · simp at h
        · dsimp only at h
          rcases hrec : strSpanR 34 cs2 with _ | ⟨t2, r2⟩ <;> rw [hrec] at h
          · simp at h
          · dsimp only at h
            simp only [Option.some.injEq, Prod.mk.injEq] at h
            obtain ⟨rfl, rfl⟩ := h
            refine SBody.esc e t2 (ih cs2 t2 r2 ?_ hrec)
            simp at hlen
            omega
      · rcases hrec : strSpanR 34 cs1 with _ | ⟨t2, r2⟩ <;> rw [hrec] at h
        · simp at h
        · dsimp only at h
          simp only [Option.some.injEq, Prod.mk.injEq] at h
          obtain ⟨rfl, rfl⟩ := h
          refine SBody.single c t2 h34 h92 (by simpa using hnl) (ih cs1 t2 r2 ?_ hrec)
          simp at hlen
          omega


/-- The single-quote string scanner produces well-shaped bodies. -/
theorem strSpanR_sqsrc : ∀ (n : Nat) (cs t r : Bytes), cs.length ≤ n →
    strSpanR 39 cs = some (t, r) → SQSrc t := by
  intro n
  induction n with
  | zero =>
    intro cs t r hlen h
    match cs with
    | [] => simp [strSpanR] at h
    | c :: cs1 => simp at hlen
  | succ n ih =>
    intro cs t r hlen h
    match cs with
    | [] => simp [strSpanR] at h
    | c :: cs1 =>
      rw [strSpanR.eq_def] at h
      dsimp only at h
      split_ifs at h with h39 hnl h92
      · cases h
        exact SQSrc.done
      · subst h92
        rcases cs1 with _ | ⟨e, cs2⟩
        · simp at h
        · dsimp only at h
          rcases hrec : strSpanR 39 cs2 with _ | ⟨t2, r2⟩ <;> rw [hrec] at h
          · simp at h
          · dsimp only at h
            simp only [Option.some.injEq, Prod.mk.injEq] at h
            obtain ⟨rfl, rfl⟩ := h
            refine SQSrc.esc e t2 (ih cs2 t2 r2 ?_ hrec)
            simp at hlen
            omega
      · rcases hrec : strSpanR 39 cs1 with _ | ⟨t2, r2⟩ <;> rw [hrec] at h
        · simp at h
        · dsimp only at h
          simp only [Option.some.injEq, Prod.mk.injEq] at h
          obtain ⟨rfl, rfl⟩ := h
          refine SQSrc.single c t2 h39 h92 (by simpa using hnl) (ih cs1 t2 r2 ?_ hrec)
          simp at hlen
          omega

/-- A scanned string body ends with the closing quote. -/
theorem strSpanR_last (q : Nat) (hq0 : q ≠ 0) : ∀ (n : Nat) (cs t r : Bytes), cs.length ≤ n →
    strSpanR q cs = some (t, r) → t.getLastD 0 = q := by
  intro n
  induction n with
  | zero =>
    intro cs t r hlen h
    match cs with
    | [] => simp [strSpanR] at h
    | c :: cs1 => simp at hlen
  | succ n ih =>
    intro cs t r hlen h
    match cs with
    | [] => simp [strSpanR] at h
    | c :: cs1 =>
      rw [strSpanR.eq_def] at h
      dsimp only at h
      split_ifs at h with hq hnl h92
      · cases h
        rfl
      · subst h92
        rcases cs1 with _ | ⟨e, cs2⟩
        · simp at h
        · dsimp only at h
          rcases hrec : strSpanR q cs2 with _ | ⟨t2, r2⟩ <;> rw [hrec] at h
          · simp at h
          · dsimp only at h
            simp only [Option.some.injEq, Prod.mk.injEq] at h
            obtain ⟨rfl, rfl⟩ := h
            have ht2 := ih cs2 t2 r2 (by simp at hlen; omega) hrec
            rcases t2 with _ | ⟨x, xs⟩
            · simp at ht2
              omega
            · simpa using ht2
      · rcases hrec : strSpanR q cs1 with _ | ⟨t2, r2⟩ <;> rw [hrec] at h
        · simp at h
        · dsimp only at h
          simp only [Option.some.injEq, Prod.mk.injEq] at h
          obtain ⟨rfl, rfl⟩ := h
          have ht2 := ih cs1 t2 r2 (by simp at hlen; omega) hrec
          rcases t2 with _ | ⟨x, xs⟩
          · simp at ht2
            omega
          · simpa using ht2

/-- Hex digit bytes are ordinary string-body characters. -/
theorem hexDigL_ok (d : Nat) :
    hexDigL d ≠ 34 ∧ hexDigL d ≠ 92 ∧ isLineB (hexDigL d) = false := by
  unfold hexDigL
  split_ifs with h <;> refine ⟨by omega, by omega, ?_⟩ <;> simp [isLineB] <;> omega

/-- The marshal escaping loop produces a well-shaped string body. -/
theorem jmEsc_sbody (s : Bytes) : SBody (jmEsc s ++ [34]) := by
  induction s with
  | nil => exact SBody.done
  | cons c cs ih =>
    rw [jmEsc]
    split_ifs with h1 h2 h3 h4 h5 h6 h7 h8 h9
    · exact SBody.esc 34 _ ih
    · exact SBody.esc 92 _ ih
    · exact SBody.esc 110 _ ih
    · exact SBody.esc 114 _ ih
    · exact SBody.esc 116 _ ih
    · refine SBody.esc 117 _ ?_
      refine SBody.single 48 _ (by omega) (by omega) (by simp [isLineB]) ?_
      refine SBody.single 48 _ (by omega) (by omega) (by simp [isLineB]) ?_
      refine SBody.single (hexDigL (c / 16)) _ (hexDigL_ok _).1 (hexDigL_ok _).2.1
        (hexDigL_ok _).2.2 ?_
      exact SBody.single (hexDigL (c % 16)) _ (hexDigL_ok _).1 (hexDigL_ok _).2.1
        (hexDigL_ok _).2.2 ih
    · refine SBody.esc 117 _ ?_
      refine SBody.single 48 _ (by omega) (by omega) (by simp [isLineB]) ?_
      refine SBody.single 48 _ (by omega) (by omega) (by simp [isLineB]) ?_
      refine SBody.single 51 _ (by omega) (by omega) (by simp [isLineB]) ?_
      exact SBody.single 99 _ (by omega) (by omega) (by simp [isLineB]) ih
    · refine SBody.esc 117 _ ?_
      refine SBody.single 48 _ (by omega) (by omega) (by simp [isLineB]) ?_
      refine SBody.single 48 _ (by omega) (by omega) (by simp [isLineB]) ?_
      refine SBody.single 51 _ (by omega) (by omega) (by simp [isLineB]) ?_
      exact SBody.single 101 _ (by omega) (by omega) (by simp [isLineB]) ih
    · refine SBody.esc 117 _ ?_
      refine SBody.single 48 _ (by omega) (by omega) (by simp [isLineB]) ?_
      refine SBody.single 48 _ (by omega) (by omega) (by simp [isLineB]) ?_
      refine SBody.single 50 _ (by omega) (by omega) (by simp [isLineB]) ?_
      exact SBody.single 54 _ (by omega) (by omega) (by simp [isLineB]) ih
    · refine SBody.single c _ h1 h2 ?_ ih
      simp [isLineB]
      omega

/-- All bytes of the decimal printer are digits. -/
theorem natDecAux_digits : ∀ (f n : Nat) (acc : Bytes), n < f →
    (∀ c ∈ acc, 48 ≤ c ∧ c ≤ 57) →
    ∀ c ∈ natDecAux f n acc, 48 ≤ c ∧ c ≤ 57 := by
  intro f
  induction f with
  | zero => intro n acc h; omega
  | succ f ih =>
    intro n acc hlt hacc c hc
    rw [natDecAux] at hc
    split_ifs at hc with h10
    · rcases List.mem_cons.mp hc with rfl | hc
      · omega
      · exact hacc c hc
    · refine ih (n / 10) _ ?_ ?_ c hc
      · have := Nat.div_lt_self (by omega : 0 < n) (by omega : 1 < 10)
        omega
      · intro d hd
        rcases List.mem_cons.mp hd with rfl | hd
        · have := Nat.mod_lt n (by omega : 0 < 10)
          omega
        · exact hacc d hd

/-- All bytes of a printed natural are decimal digits. -/
theorem natDec_digits (n : Nat) : ∀ c ∈ natDec n, 48 ≤ c ∧ c ≤ 57 :=
  natDecAux_digits (n + 1) n [] (by omega) (by simp)

/-- The decimal printer never returns the empty string. -/
theorem natDecAux_ne_nil : ∀ (f n : Nat) (acc : Bytes), n < f →
    natDecAux f n acc ≠ [] := by
  intro f
  induction f with
  | zero => intro n acc h; omega
  | succ f ih =>
    intro n acc hlt
    rw [natDecAux]
    split_ifs with h10
    · simp
    · refine ih (n / 10) _ ?_
      have := Nat.div_lt_self (by omega : 0 < n) (by omega : 1 < 10)
      omega

/-- A printed natural is nonempty. -/
theorem natDec_ne_nil (n : Nat) : natDec n ≠ [] :=
  natDecAux_ne_nil (n + 1) n [] (by omega)

/-! ## Run-level lemmas for atoms (claim C8) -/

/-- State well-formedness is preserved by whole runs. -/
theorem jsonRun_stWF : ∀ (l : Bytes) (aw : Bool) (st fin : JSt), stWF st = true →
    jsonRun aw st l = some fin → stWF fin = true := by
  intro l
  induction l with
  | nil =>
    intro aw st fin hw h
    cases h
    exact hw
  | cons c cs ih =>
    intro aw st fin hw h
    rw [jsonRun] at h
    rcases hstep : jsonStep aw st c with _ | st1 <;> rw [hstep] at h
    · simp at h
    · exact ih aw st1 fin (stWF_step aw st c st1 hw hstep) h

/-- Over bytes that are not whitespace the two automata agree. -/
theorem jsonRun_nws_eq : ∀ (l : Bytes), (∀ c ∈ l, 32 < c) → ∀ (st : JSt),
    jsonRun true st l = jsonRun false st l := by
  intro l
  induction l with
  | nil => intro _ st; rfl
  | cons c cs ih =>
    intro hall st
    rw [jsonRun, jsonRun]
    rw [jsonStep_nws_eq st c (by have := hall c (by simp); simp [isJsonWs]; omega)]
    rcases jsonStep false st c with _ | st1
    · rfl
    · exact ih (fun d hd => hall d (by simp [hd])) st1

/-- Over token bytes a run from a non-string state stays non-string. -/
theorem tok_run_nstr : ∀ (t : Bytes), (∀ c ∈ t, 32 < c ∧ c ≠ 34 ∧ c ≠ 92) →
    ∀ (aw : Bool) (st fin : JSt), strMode st.mode = false →
    jsonRun aw st t = some fin → strMode fin.mode = false := by
  intro t
  induction t with
  | nil =>
    intro _ aw st fin h hr
    cases hr
    exact h
  | cons c cs ih =>
    intro hall aw st fin h hr
    rw [jsonRun] at hr
    rcases hstep : jsonStep aw st c with _ | st1 <;> rw [hstep] at hr
    · simp at hr
    · exact ih (fun d hd => hall d (by simp [hd])) aw st1 fin
        (jsonStep_preserve_nstr aw st c st1 h (hall c (by simp)).2.1 hstep) hr

/-- A string-content step: any byte other than the quote and the
backslash keeps or kills an `inStr` state. -/
theorem jsonStep_inStr_other (aw : Bool) (stk : List JFrame) (k : Bool) (c : Nat)
    (h34 : c ≠ 34) (h92 : c ≠ 92) :
    jsonStep aw ⟨stk, JMode.inStr k⟩ c =
      if c < 32 then none else some ⟨stk, JMode.inStr k⟩ := by
  simp only [jsonStep]
  rw [if_neg (by simpa using h34), if_neg (by simpa using h92)]

/-- Over token bytes a run from inside a string stays exactly in place. -/
theorem tok_run_inStr : ∀ (t : Bytes), (∀ c ∈ t, 32 < c ∧ c ≠ 34 ∧ c ≠ 92) →
    ∀ (aw : Bool) (stk : List JFrame) (k : Bool),
    jsonRun aw ⟨stk, JMode.inStr k⟩ t = some ⟨stk, JMode.inStr k⟩ := by
  intro t
  induction t with
  | nil => intro _ aw stk k; rfl
  | cons c cs ih =>
    intro hall aw stk k
    rw [jsonRun]
    rw [jsonStep_inStr_other aw stk k c (hall c (by simp)).2.1 (hall c (by simp)).2.2]
    rw [if_neg (by have := (hall c (by simp)).1; omega)]
    exact ih (fun d hd => hall d (by simp [hd])) aw stk k

/-- Single punctuators are plain printable token bytes. -/
theorem isSinglePunct_ok (c : Nat) (h : isSinglePunct c = true) :
    32 < c ∧ c ≠ 34 ∧ c ≠ 92 := by
  simp only [isSinglePunct, Bool.or_eq_true, decide_eq_true_eq] at h
  omega

/-- The quote closes a string. -/
theorem jsonStep_inStr_34 (aw : Bool) (stk : List JFrame) (k : Bool) :
    jsonStep aw ⟨stk, JMode.inStr k⟩ 34 =
      some ⟨stk, if k then JMode.colonStart else JMode.afterVal⟩ := by
  simp [jsonStep]

/-- The backslash enters the escape mode. -/
theorem jsonStep_inStr_92 (aw : Bool) (stk : List JFrame) (k : Bool) :
    jsonStep aw ⟨stk, JMode.inStr k⟩ 92 = some ⟨stk, JMode.inStrEsc k⟩ := by
  simp [jsonStep]

/-- Steps of the unicode-escape mode. -/
theorem jsonStep_inStrU (aw : Bool) (stk : List JFrame) (k : Bool) (j : Nat) (c : Nat) :
    jsonStep aw ⟨stk, JMode.inStrU k j⟩ c =
      if isHexB c then
        if j ≤ 1 then some ⟨stk, JMode.inStr k⟩ else some ⟨stk, JMode.inStrU k (j - 1)⟩
      else none := rfl

/-- Steps of the escape mode. -/
theorem jsonStep_inStrEsc (aw : Bool) (stk : List JFrame) (k : Bool) (e : Nat) :
    jsonStep aw ⟨stk, JMode.inStrEsc k⟩ e =
      if e = 34 || e = 92 || e = 47 || e = 98 || e = 102 || e = 110 || e = 114 || e = 116 then
        some ⟨stk, JMode.inStr k⟩
      else if e = 117 then some ⟨stk, JMode.inStrU k 4⟩ else none := rfl

/-- Unfolding a run over a byte whose step succeeds. -/
theorem jsonRun_cons_some (aw : Bool) (st : JSt) (c : Nat) (st1 : JSt) (cs : Bytes)
    (h : jsonStep aw st c = some st1) :
    jsonRun aw st (c :: cs) = jsonRun aw st1 cs := by
  rw [jsonRun, h]

/-- Unfolding a run over a byte whose step fails. -/
theorem jsonRun_cons_none (aw : Bool) (st : JSt) (c : Nat) (cs : Bytes)
    (h : jsonStep aw st c = none) :
    jsonRun aw st (c :: cs) = none := by
  rw [jsonRun, h]

/-- Running a well-shaped string body from inside the string: the two
automata agree, and on success the string is closed. -/
theorem sbody_run_str : ∀ {b : Bytes}, SBody b → ∀ (stk : List JFrame) (k : Bool)
    (j : Nat) (m : JMode), (m = JMode.inStr k ∨ m = JMode.inStrU k j) →
    jsonRun true ⟨stk, m⟩ b = jsonRun false ⟨stk, m⟩ b ∧
    (∀ fin, jsonRun true ⟨stk, m⟩ b = some fin →
      fin.mode = JMode.colonStart ∨ fin.mode = JMode.afterVal) := by
  intro b hb
  induction hb with
  | done =>
    intro stk k j m hm
    rcases hm with rfl | rfl
    · have h1 : ∀ aw : Bool, jsonRun aw ⟨stk, JMode.inStr k⟩ [34] =
          some ⟨stk, if k then JMode.colonStart else JMode.afterVal⟩ := by
        intro aw
        rw [jsonRun_cons_some aw _ _ _ _ (jsonStep_inStr_34 aw stk k)]
        rfl
      refine ⟨by rw [h1 true, h1 false], ?_⟩
      intro fin hfin
      rw [h1 true] at hfin
      simp only [Option.some.injEq] at hfin
      subst hfin
      by_cases hk : k = true <;> simp [hk]
    · have h0 : ∀ aw : Bool, jsonStep aw ⟨stk, JMode.inStrU k j⟩ 34 = none := by
        intro aw
        rw [jsonStep_inStrU, if_neg (by decide : ¬isHexB 34 = true)]
      refine ⟨by rw [jsonRun_cons_none _ _ _ _ (h0 true),
        jsonRun_cons_none _ _ _ _ (h0 false)], ?_⟩
      intro fin hfin
      rw [jsonRun_cons_none _ _ _ _ (h0 true)] at hfin
      simp at hfin
  | single c rest h34 h92 hnl ihb ih =>
    intro stk k j m hm
    rcases hm with rfl | rfl
    · by_cases hlt : c < 32
      · have hst : ∀ aw : Bool, jsonStep aw ⟨stk, JMode.inStr k⟩ c = none := by
          intro aw
          rw [jsonStep_inStr_other aw stk k c h34 h92, if_pos hlt]
        refine ⟨by rw [jsonRun_cons_none _ _ _ _ (hst true),
          jsonRun_cons_none _ _ _ _ (hst false)], ?_⟩
        intro fin hfin
        rw [jsonRun_cons_none _ _ _ _ (hst true)] at hfin
        simp at hfin
      · have hst : ∀ aw : Bool, jsonStep aw ⟨stk, JMode.inStr k⟩ c =
            some ⟨stk, JMode.inStr k⟩ := by
          intro aw
          rw [jsonStep_inStr_other aw stk k c h34 h92, if_neg hlt]
        constructor
        · rw [jsonRun_cons_some _ _ _ _ _ (hst true), jsonRun_cons_some _ _ _ _ _ (hst false)]
          exact (ih stk k j _ (Or.inl rfl)).1
        · intro fin hfin
          rw [jsonRun_cons_some _ _ _ _ _ (hst true)] at hfin
          exact (ih stk k j _ (Or.inl rfl)).2 fin hfin
    · by_cases hhex : isHexB c = true
      · by_cases hj : j ≤ 1
        · have hst : ∀ aw : Bool, jsonStep aw ⟨stk, JMode.inStrU k j⟩ c =
              some ⟨stk, JMode.inStr k⟩ := by
            intro aw
            rw [jsonStep_inStrU, if_pos hhex, if_pos hj]
          constructor
          · rw [jsonRun_cons_some _ _ _ _ _ (hst true),
              jsonRun_cons_some _ _ _ _ _ (hst false)]
            exact (ih stk k j _ (Or.inl rfl)).1
          · intro fin hfin
            rw [jsonRun_cons_some _ _ _ _ _ (hst true)] at hfin
            exact (ih stk k j _ (Or.inl rfl)).2 fin hfin
        · have hst : ∀ aw : Bool, jsonStep aw ⟨stk, JMode.inStrU k j⟩ c =
              some ⟨stk, JMode.inStrU k (j - 1)⟩ := by
            intro aw
            rw [jsonStep_inStrU, if_pos hhex, if_neg hj]
          constructor
          · rw [jsonRun_cons_some _ _ _ _ _ (hst true),
              jsonRun_cons_some _ _ _ _ _ (hst false)]
            exact (ih stk k (j - 1) _ (Or.inr rfl)).1
          · intro fin hfin
            rw [jsonRun_cons_some _ _ _ _ _ (hst true)] at hfin
            exact (ih stk k (j - 1) _ (Or.inr rfl)).2 fin hfin
      · have hst : ∀ aw : Bool, jsonStep aw ⟨stk, JMode.inStrU k j⟩ c = none := by
          intro aw
          rw [jsonStep_inStrU, if_neg hhex]
        refine ⟨by rw [jsonRun_cons_none _ _ _ _ (hst true),
          jsonRun_cons_none _ _ _ _ (hst false)], ?_⟩
        intro fin hfin
        rw [jsonRun_cons_none _ _ _ _ (hst true)] at hfin
        simp at hfin
  | esc e rest ihb ih =>
    intro stk k j m hm
    rcases hm with rfl | rfl
    · by_cases hesc : (e = 34 || e = 92 || e = 47 || e = 98 || e = 102 || e = 110 ||
          e = 114 || e = 116) = true
      · have hst : ∀ aw : Bool, jsonStep aw ⟨stk, JMode.inStrEsc k⟩ e =
            some ⟨stk, JMode.inStr k⟩ := by
          intro aw
          rw [jsonStep_inStrEsc, if_pos hesc]
        constructor
        · rw [jsonRun_cons_some _ _ _ _ _ (jsonStep_inStr_92 true stk k),
            jsonRun_cons_some _ _ _ _ _ (jsonStep_inStr_92 false stk k),
            jsonRun_cons_some _ _ _ _ _ (hst true), jsonRun_cons_some _ _ _ _ _ (hst false)]
          exact (ih stk k j _ (Or.inl rfl)).1
        · intro fin hfin
          rw [jsonRun_cons_some _ _ _ _ _ (jsonStep_inStr_92 true stk k),
            jsonRun_cons_some _ _ _ _ _ (hst true)] at hfin
          exact (ih stk k j _ (Or.inl rfl)).2 fin hfin
      · by_cases h117 : e = 117
        · have hst : ∀ aw : Bool, jsonStep aw ⟨stk, JMode.inStrEsc k⟩ e =
              some ⟨stk, JMode.inStrU k 4⟩ := by
            intro aw
            rw [jsonStep_inStrEsc, if_neg hesc, if_pos h117]
          constructor
          · rw [jsonRun_cons_some _ _ _ _ _ (jsonStep_inStr_92 true stk k),
              jsonRun_cons_some _ _ _ _ _ (jsonStep_inStr_92 false stk k),
              jsonRun_cons_some _ _ _ _ _ (hst true), jsonRun_cons_some _ _ _ _ _ (hst false)]
            exact (ih stk k 4 _ (Or.inr rfl)).1
          · intro fin hfin
            rw [jsonRun_cons_some _ _ _ _ _ (jsonStep_inStr_92 true stk k),
              jsonRun_cons_some _ _ _ _ _ (hst true)] at hfin
            exact (ih stk k 4 _ (Or.inr rfl)).2 fin hfin
        · have hst : ∀ aw : Bool, jsonStep aw ⟨stk, JMode.inStrEsc k⟩ e = none := by
            intro aw
            rw [jsonStep_inStrEsc, if_neg hesc, if_neg h117]
          refine ⟨?_, ?_⟩
          · rw [jsonRun_cons_some _ _ _ _ _ (jsonStep_inStr_92 true stk k),
              jsonRun_cons_some _ _ _ _ _ (jsonStep_inStr_92 false stk k),
              jsonRun_cons_none _ _ _ _ (hst true), jsonRun_cons_none _ _ _ _ (hst false)]
          · intro fin hfin
            rw [jsonRun_cons_some _ _ _ _ _ (jsonStep_inStr_92 true stk k),
              jsonRun_cons_none _ _ _ _ (hst true)] at hfin
            simp at hfin
    · have hst : ∀ aw : Bool, jsonStep aw ⟨stk, JMode.inStrU k j⟩ 92 = none := by
        intro aw
        rw [jsonStep_inStrU, if_neg (by decide : ¬isHexB 92 = true)]
      refine ⟨by rw [jsonRun_cons_none _ _ _ _ (hst true),
        jsonRun_cons_none _ _ _ _ (hst false)], ?_⟩
      intro fin hfin
      rw [jsonRun_cons_none _ _ _ _ (hst true)] at hfin
      simp at hfin

/-- Running a well-shaped string body from a non-string state with the
whitespace-tolerant automaton: the run dies or ends inside a string. -/
theorem sbody_run_nstr : ∀ {b : Bytes}, SBody b → ∀ (st : JSt),
    strMode st.mode = false → stWF st = true →
    jsonRun true st b = none ∨
      ∃ fin k, jsonRun true st b = some fin ∧ fin.mode = JMode.inStr k := by
  intro b hb
  induction hb with
  | done =>
    intro st h hw
    rcases hstep : jsonStep true st 34 with _ | st1
    · rw [jsonRun_cons_none _ _ _ _ hstep]
      exact Or.inl rfl
    · obtain ⟨k, hk⟩ := jsonStep_34_nstr true st st1 h hw hstep
      rw [jsonRun_cons_some _ _ _ _ _ hstep]
      exact Or.inr ⟨st1, k, rfl, hk⟩
  | single c rest h34 h92 hnl ihb ih =>
    intro st h hw
    rcases hstep : jsonStep true st c with _ | st1
    · rw [jsonRun_cons_none _ _ _ _ hstep]
      exact Or.inl rfl
    · rw [jsonRun_cons_some _ _ _ _ _ hstep]
      exact ih st1 (jsonStep_preserve_nstr true st c st1 h h34 hstep)
        (stWF_step true st c st1 hw hstep)
  | esc e rest ihb ih =>
    intro st h hw
    rw [jsonRun_cons_none _ _ _ _ (jsonStep_92_none true st h hw)]
    exact Or.inl rfl

/-- Unfolding equations of the single-quote replacer. -/
theorem sqReplace_39 (cs : Bytes) : sqReplace (39 :: cs) = 34 :: sqReplace cs := rfl

/-- A double quote in a single-quoted body is escaped. -/
theorem sqReplace_34 (cs : Bytes) : sqReplace (34 :: cs) = 92 :: 34 :: sqReplace cs := rfl

/-- An escaped single quote is unescaped. -/
theorem sqReplace_92_39 (cs : Bytes) : sqReplace (92 :: 39 :: cs) = 39 :: sqReplace cs := rfl

/-- Ordinary bytes pass through the single-quote replacer. -/
theorem sqReplace_other (c : Nat) (cs : Bytes) (h39 : c ≠ 39) (h34 : c ≠ 34)
    (h92 : c ≠ 92) : sqReplace (c :: cs) = c :: sqReplace cs := by
  simp [sqReplace, h39, h34, h92]

/-- A backslash not followed by a single quote passes through. -/
theorem sqReplace_92 (e : Nat) (cs : Bytes) (h39 : e ≠ 39) :
    sqReplace (92 :: e :: cs) = 92 :: sqReplace (e :: cs) := by
  simp [sqReplace, h39]

/-- Running a replaced single-quoted body from a non-string state with
the whitespace-tolerant automaton: the run dies or ends inside a
string. -/
theorem sq_run_nstr : ∀ {b : Bytes}, SQSrc b → ∀ (st : JSt),
    strMode st.mode = false → stWF st = true →
    jsonRun true st (sqReplace b) = none ∨
      ∃ fin k, jsonRun true st (sqReplace b) = some fin ∧ fin.mode = JMode.inStr k := by
  intro b hb
  induction hb with
  | done =>
    intro st h hw
    rw [sqReplace_39]
    rcases hstep : jsonStep true st 34 with _ | st1
    · rw [jsonRun_cons_none _ _ _ _ hstep]
      exact Or.inl rfl
    · obtain ⟨k, hk⟩ := jsonStep_34_nstr true st st1 h hw hstep
      rw [jsonRun_cons_some _ _ _ _ _ hstep]
      exact Or.inr ⟨st1, k, rfl, hk⟩
  | single c rest h39 h92 hnl ihb ih =>
    intro st h hw
    by_cases h34 : c = 34
    · subst h34
      rw [sqReplace_34]
      rw [jsonRun_cons_none _ _ _ _ (jsonStep_92_none true st h hw)]
      exact Or.inl rfl
    · rw [sqReplace_other c _ h39 h34 h92]
      rcases hstep : jsonStep true st c with _ | st1
      · rw [jsonRun_cons_none _ _ _ _ hstep]
        exact Or.inl rfl
      · rw [jsonRun_cons_some _ _ _ _ _ hstep]
        exact ih st1 (jsonStep_preserve_nstr true st c st1 h h34 hstep)
          (stWF_step true st c st1 hw hstep)
  | esc e rest ihb ih =>
    intro st h hw
    by_cases h39 : e = 39
    · subst h39
      rw [sqReplace_92_39]
      rw [jsonRun_cons_none _ _ _ _ (jsonStep_39_none true st h hw)]
      exact Or.inl rfl
    · rw [sqReplace_92 e _ h39]
      rw [jsonRun_cons_none _ _ _ _ (jsonStep_92_none true st h hw)]
      exact Or.inl rfl

/-- The replacer on the empty list. -/
theorem sqReplace_nil : sqReplace [] = [] := rfl

/-- Pushing a backslash in front of a scanned single-quoted body. -/
theorem sqsrc_92_push : ∀ {rest : Bytes}, SQSrc rest →
    rest = [39] ∨ sqReplace (92 :: rest) = 92 :: sqReplace rest := by
  intro rest h
  cases h with
  | done => exact Or.inl rfl
  | single c2 rest2 h39 h92 hnl ih => exact Or.inr (sqReplace_92 c2 rest2 h39)
  | esc e2 rest2 ih => exact Or.inr (sqReplace_92 92 (e2 :: rest2) (by decide))

set_option maxHeartbeats 1000000 in
/-- Running a replaced single-quoted body from inside the string:
either the two automata agree and the string closes, or the
whitespace-tolerant run dies or dangles inside a string. -/
theorem sq_run_str : ∀ {b : Bytes}, SQSrc b → ∀ (stk : List JFrame) (k : Bool)
    (j : Nat) (m : JMode), (m = JMode.inStr k ∨ m = JMode.inStrU k j) →
    (jsonRun true ⟨stk, m⟩ (sqReplace b) = jsonRun false ⟨stk, m⟩ (sqReplace b) ∧
     ∀ fin, jsonRun true ⟨stk, m⟩ (sqReplace b) = some fin →
       fin.mode = JMode.colonStart ∨ fin.mode = JMode.afterVal) ∨
    (jsonRun true ⟨stk, m⟩ (sqReplace b) = none ∨
     ∃ fin k2, jsonRun true ⟨stk, m⟩ (sqReplace b) = some fin ∧
       fin.mode = JMode.inStr k2) := by
  intro b hb
  induction hb with
  | done =>
    intro stk k j m hm
    rcases hm with rfl | rfl
    · left
      rw [sqReplace_39, sqReplace_nil]
      have h1 : ∀ aw : Bool, jsonRun aw ⟨stk, JMode.inStr k⟩ [34] =
          some ⟨stk, if k then JMode.colonStart else JMode.afterVal⟩ := by
        intro aw
        rw [jsonRun_cons_some aw _ _ _ _ (jsonStep_inStr_34 aw stk k)]
        rfl
      refine ⟨by rw [h1 true, h1 false], ?_⟩
      intro fin hfin
      rw [h1 true] at hfin
      simp only [Option.some.injEq] at hfin
      subst hfin
      by_cases hk : k = true <;> simp [hk]
    · left
      rw [sqReplace_39, sqReplace_nil]
      have h0 : ∀ aw : Bool, jsonStep aw ⟨stk, JMode.inStrU k j⟩ 34 = none := by
        intro aw
        rw [jsonStep_inStrU, if_neg (by decide : ¬isHexB 34 = true)]
      refine ⟨by rw [jsonRun_cons_none _ _ _ _ (h0 true),
        jsonRun_cons_none _ _ _ _ (h0 false)], ?_⟩
      intro fin hfin
      rw [jsonRun_cons_none _ _ _ _ (h0 true)] at hfin
      simp at hfin
  | single c rest h39 h92 hnl ihb ih =>
    intro stk k j m hm
    by_cases h34 : c = 34
    · subst h34
      rw [sqReplace_34]
      rcases hm with rfl | rfl
      · have hs2 : ∀ aw : Bool, jsonStep aw ⟨stk, JMode.inStrEsc k⟩ 34 =
            some ⟨stk, JMode.inStr k⟩ := by
          intro aw
          rw [jsonStep_inStrEsc, if_pos (by decide)]
        rcases ih stk k j _ (Or.inl rfl) with ⟨heq, hex⟩ | hbad
        · left
          constructor
          · rw [jsonRun_cons_some _ _ _ _ _ (jsonStep_inStr_92 true stk k),
              jsonRun_cons_some _ _ _ _ _ (jsonStep_inStr_92 false stk k),
              jsonRun_cons_some _ _ _ _ _ (hs2 true), jsonRun_cons_some _ _ _ _ _ (hs2 false)]
            exact heq
          · intro fin hfin
            rw [jsonRun_cons_some _ _ _ _ _ (jsonStep_inStr_92 true stk k),
              jsonRun_cons_some _ _ _ _ _ (hs2 true)] at hfin
            exact hex fin hfin
        · right
          rw [jsonRun_cons_some _ _ _ _ _ (jsonStep_inStr_92 true stk k),
            jsonRun_cons_some _ _ _ _ _ (hs2 true)]
          exact hbad
      · left
        have h0 : ∀ aw : Bool, jsonStep aw ⟨stk, JMode.inStrU k j⟩ 92 = none := by
          intro aw
          rw [jsonStep_inStrU, if_neg (by decide : ¬isHexB 92 = true)]
        refine ⟨by rw [jsonRun_cons_none _ _ _ _ (h0 true),
          jsonRun_cons_none _ _ _ _ (h0 false)], ?_⟩
        intro fin hfin
        rw [jsonRun_cons_none _ _ _ _ (h0 true)] at hfin
        simp at hfin
    · rw [sqReplace_other c _ h39 h34 h92]
      rcases hm with rfl | rfl
      · by_cases hlt : c < 32
        · left
          have hst : ∀ aw : Bool, jsonStep aw ⟨stk, JMode.inStr k⟩ c = none := by
            intro aw
            rw [jsonStep_inStr_other aw stk k c h34 h92, if_pos hlt]
          refine ⟨by rw [jsonRun_cons_none _ _ _ _ (hst true),
            jsonRun_cons_none _ _ _ _ (hst false)], ?_⟩
          intro fin hfin
          rw [jsonRun_cons_none _ _ _ _ (hst true)] at hfin
          simp at hfin
        · have hst : ∀ aw : Bool, jsonStep aw ⟨stk, JMode.inStr k⟩ c =
              some ⟨stk, JMode.inStr k⟩ := by
            intro aw
            rw [jsonStep_inStr_other aw stk k c h34 h92, if_neg hlt]
          rcases ih stk k j _ (Or.inl rfl) with ⟨heq, hex⟩ | hbad
          · left
            constructor
            · rw [jsonRun_cons_some _ _ _ _ _ (hst true),
                jsonRun_cons_some _ _ _ _ _ (hst false)]
              exact heq
            · intro fin hfin
              rw [jsonRun_cons_some _ _ _ _ _ (hst true)] at hfin
              exact hex fin hfin
          · right
            rw [jsonRun_cons_some _ _ _ _ _ (hst true)]
            exact hbad
      · by_cases hhex : isHexB c = true
        · by_cases hj : j ≤ 1
          · have hst : ∀ aw : Bool, jsonStep aw ⟨stk, JMode.inStrU k j⟩ c =
                some ⟨stk, JMode.inStr k⟩ := by
              intro aw
              rw [jsonStep_inStrU, if_pos hhex, if_pos hj]
            rcases ih stk k j _ (Or.inl rfl) with ⟨heq, hex⟩ | hbad
            · left
              constructor
              · rw [jsonRun_cons_some _ _ _ _ _ (hst true),
                  jsonRun_cons_some _ _ _ _ _ (hst false)]
                exact heq
              · intro fin hfin
                rw [jsonRun_cons_some _ _ _ _ _ (hst true)] at hfin
                exact hex fin hfin
            · right
              rw [jsonRun_cons_some _ _ _ _ _ (hst true)]
              exact hbad
          · have hst : ∀ aw : Bool, jsonStep aw ⟨stk, JMode.inStrU k j⟩ c =
                some ⟨stk, JMode.inStrU k (j - 1)⟩ := by
              intro aw
              rw [jsonStep_inStrU, if_pos hhex, if_neg hj]
            rcases ih stk k (j - 1) _ (Or.inr rfl) with ⟨heq, hex⟩ | hbad
            · left
              constructor
              · rw [jsonRun_cons_some _ _ _ _ _ (hst true),
                  jsonRun_cons_some _ _ _ _ _ (hst false)]
                exact heq
              · intro fin hfin
                rw [jsonRun_cons_some _ _ _ _ _ (hst true)] at hfin
                exact hex fin hfin
            · right
              rw [jsonRun_cons_some _ _ _ _ _ (hst true)]
              exact hbad
        · left
          have hst : ∀ aw : Bool, jsonStep aw ⟨stk, JMode.inStrU k j⟩ c = none := by
            intro aw
            rw [jsonStep_inStrU, if_neg hhex]
          refine ⟨by rw [jsonRun_cons_none _ _ _ _ (hst true),
            jsonRun_cons_none _ _ _ _ (hst false)], ?_⟩
          intro fin hfin
          rw [jsonRun_cons_none _ _ _ _ (hst true)] at hfin
          simp at hfin
  | esc e rest ihb ih =>
    intro stk k j m hm
    by_cases h39e : e = 39
    · subst h39e
      rw [sqReplace_92_39]
      rcases hm with rfl | rfl
      · have hst : ∀ aw : Bool, jsonStep aw ⟨stk, JMode.inStr k⟩ 39 =
            some ⟨stk, JMode.inStr k⟩ := by
          intro aw
          rw [jsonStep_inStr_other aw stk k 39 (by decide) (by decide),
            if_neg (by decide : ¬(39 : Nat) < 32)]
        rcases ih stk k j _ (Or.inl rfl) with ⟨heq, hex⟩ | hbad
        · left
          constructor
          · rw [jsonRun_cons_some _ _ _ _ _ (hst true),
              jsonRun_cons_some _ _ _ _ _ (hst false)]
            exact heq
          · intro fin hfin
            rw [jsonRun_cons_some _ _ _ _ _ (hst true)] at hfin
            exact hex fin hfin
        · right
          rw [jsonRun_cons_some _ _ _ _ _ (hst true)]
          exact hbad
      · left
        have hst : ∀ aw : Bool, jsonStep aw ⟨stk, JMode.inStrU k j⟩ 39 = none := by
          intro aw
          rw [jsonStep_inStrU, if_neg (by decide : ¬isHexB 39 = true)]
        refine ⟨by rw [jsonRun_cons_none _ _ _ _ (hst true),
          jsonRun_cons_none _ _ _ _ (hst false)], ?_⟩
        intro fin hfin
        rw [jsonRun_cons_none _ _ _ _ (hst true)] at hfin
        simp at hfin
    · rw [sqReplace_92 e _ h39e]
      rcases hm with rfl | rfl
      · by_cases h34e : e = 34
        · subst h34e
          rw [sqReplace_34]
          have hs2 : ∀ aw : Bool, jsonStep aw ⟨stk, JMode.inStrEsc k⟩ 92 =
              some ⟨stk, JMode.inStr k⟩ := by
            intro aw
            rw [jsonStep_inStrEsc, if_pos (by decide)]
          right
          rw [jsonRun_cons_some _ _ _ _ _ (jsonStep_inStr_92 true stk k),
            jsonRun_cons_some _ _ _ _ _ (hs2 true),
            jsonRun_cons_some _ _ _ _ _ (jsonStep_inStr_34 true stk k)]
          exact sq_run_nstr ihb ⟨stk, if k then JMode.colonStart else JMode.afterVal⟩
            (by cases k <;> simp [strMode]) (by cases k <;> rfl)
        · by_cases h92e : e = 92
          · subst h92e
            rcases sqsrc_92_push ihb with hdone | hpush
            · subst hdone
              rw [sqReplace_92_39, sqReplace_nil]
              have hs2 : ∀ aw : Bool, jsonStep aw ⟨stk, JMode.inStrEsc k⟩ 39 = none := by
                intro aw
                rw [jsonStep_inStrEsc, if_neg (by decide), if_neg (by decide)]
              left
              refine ⟨?_, ?_⟩
              · rw [jsonRun_cons_some _ _ _ _ _ (jsonStep_inStr_92 true stk k),
                  jsonRun_cons_some _ _ _ _ _ (jsonStep_inStr_92 false stk k),
                  jsonRun_cons_none _ _ _ _ (hs2 true), jsonRun_cons_none _ _ _ _ (hs2 false)]
              · intro fin hfin
                rw [jsonRun_cons_some _ _ _ _ _ (jsonStep_inStr_92 true stk k),
                  jsonRun_cons_none _ _ _ _ (hs2 true)] at hfin
                simp at hfin
            · rw [hpush]
              have hs2 : ∀ aw : Bool, jsonStep aw ⟨stk, JMode.inStrEsc k⟩ 92 =
                  some ⟨stk, JMode.inStr k⟩ := by
                intro aw
                rw [jsonStep_inStrEsc, if_pos (by decide)]
              rcases ih stk k j _ (Or.inl rfl) with ⟨heq, hex⟩ | hbad
              · left
                constructor
                · rw [jsonRun_cons_some _ _ _ _ _ (jsonStep_inStr_92 true stk k),
                    jsonRun_cons_some _ _ _ _ _ (jsonStep_inStr_92 false stk k),
                    jsonRun_cons_some _ _ _ _ _ (hs2 true),
                    jsonRun_cons_some _ _ _ _ _ (hs2 false)]
                  exact heq
                · intro fin hfin
                  rw [jsonRun_cons_some _ _ _ _ _ (jsonStep_inStr_92 true stk k),
                    jsonRun_cons_some _ _ _ _ _ (hs2 true)] at hfin
                  exact hex fin hfin
              · right
                rw [jsonRun_cons_some _ _ _ _ _ (jsonStep_inStr_92 true stk k),
                  jsonRun_cons_some _ _ _ _ _ (hs2 true)]
                exact hbad
          · rw [sqReplace_other e _ h39e h34e h92e]
            by_cases hesc : (e = 34 || e = 92 || e = 47 || e = 98 || e = 102 || e = 110 ||
                e = 114 || e = 116) = true
            · have hs2 : ∀ aw : Bool, jsonStep aw ⟨stk, JMode.inStrEsc k⟩ e =
                  some ⟨stk, JMode.inStr k⟩ := by
                intro aw
                rw [jsonStep_inStrEsc, if_pos hesc]
              rcases ih stk k j _ (Or.inl rfl) with ⟨heq, hex⟩ | hbad
              · left
                constructor
                · rw [jsonRun_cons_some _ _ _ _ _ (jsonStep_inStr_92 true stk k),
                    jsonRun_cons_some _ _ _ _ _ (jsonStep_inStr_92 false stk k),
                    jsonRun_cons_some _ _ _ _ _ (hs2 true),
                    jsonRun_cons_some _ _ _ _ _ (hs2 false)]
                  exact heq
                · intro fin hfin
                  rw [jsonRun_cons_some _ _ _ _ _ (jsonStep_inStr_92 true stk k),
                    jsonRun_cons_some _ _ _ _ _ (hs2 true)] at hfin
                  exact hex fin hfin
              · right
                rw [jsonRun_cons_some _ _ _ _ _ (jsonStep_inStr_92 true stk k),
                  jsonRun_cons_some _ _ _ _ _ (hs2 true)]
                exact hbad
            · by_cases h117 : e = 117
              · have hs2 : ∀ aw : Bool, jsonStep aw ⟨stk, JMode.inStrEsc k⟩ e =
                    some ⟨stk, JMode.inStrU k 4⟩ := by
                  intro aw
                  rw [jsonStep_inStrEsc, if_neg hesc, if_pos h117]
                rcases ih stk k 4 _ (Or.inr rfl) with ⟨heq, hex⟩ | hbad
                · left
                  constructor
                  · rw [jsonRun_cons_some _ _ _ _ _ (jsonStep_inStr_92 true stk k),
                      jsonRun_cons_some _ _ _ _ _ (jsonStep_inStr_92 false stk k),
                      jsonRun_cons_some _ _ _ _ _ (hs2 true),
                      jsonRun_cons_some _ _ _ _ _ (hs2 false)]
                    exact heq
                  · intro fin hfin
                    rw [jsonRun_cons_some _ _ _ _ _ (jsonStep_inStr_92 true stk k),
                      jsonRun_cons_some _ _ _ _ _ (hs2 true)] at hfin
                    exact hex fin hfin
                · right
                  rw [jsonRun_cons_some _ _ _ _ _ (jsonStep_inStr_92 true stk k),
                    jsonRun_cons_some _ _ _ _ _ (hs2 true)]
                  exact hbad
              · have hs2 : ∀ aw : Bool, jsonStep aw ⟨stk, JMode.inStrEsc k⟩ e = none := by
                  intro aw
                  rw [jsonStep_inStrEsc, if_neg hesc, if_neg h117]
                left
                refine ⟨?_, ?_⟩
                · rw [jsonRun_cons_some _ _ _ _ _ (jsonStep_inStr_92 true stk k),
                    jsonRun_cons_some _ _ _ _ _ (jsonStep_inStr_92 false stk k),
                    jsonRun_cons_none _ _ _ _ (hs2 true), jsonRun_cons_none _ _ _ _ (hs2 false)]
                · intro fin hfin
                  rw [jsonRun_cons_some _ _ _ _ _ (jsonStep_inStr_92 true stk k),
                    jsonRun_cons_none _ _ _ _ (hs2 true)] at hfin
                  simp at hfin
      · left
        have hst : ∀ aw : Bool, jsonStep aw ⟨stk, JMode.inStrU k j⟩ 92 = none := by
          intro aw
          rw [jsonStep_inStrU, if_neg (by decide : ¬isHexB 92 = true)]
        refine ⟨by rw [jsonRun_cons_none _ _ _ _ (hst true),
          jsonRun_cons_none _ _ _ _ (hst false)], ?_⟩
        intro fin hfin
        rw [jsonRun_cons_none _ _ _ _ (hst true)] at hfin
        simp at hfin

/-- One atom from an aligned state: either both automata agree and the
state stays aligned, or the tolerant run dies or dangles in a string. -/
theorem atom_run : ∀ {a : Bytes}, Atom a → ∀ (st : JSt),
    strMode st.mode = false → stWF st = true →
    (jsonRun true st a = jsonRun false st a ∧
     ∀ fin, jsonRun true st a = some fin → strMode fin.mode = false) ∨
    (jsonRun true st a = none ∨
     ∃ fin k, jsonRun true st a = some fin ∧ fin.mode = JMode.inStr k) := by
  intro a ha
  cases ha with
  | tok t0 hne hall hl43 hl44 =>
    intro st h hw
    left
    refine ⟨jsonRun_nws_eq a (fun c hc => (hall c hc).1) st, ?_⟩
    intro fin hfin
    exact tok_run_nstr a hall true st fin h hfin
  | punct c hp =>
    intro st h hw
    left
    have hok := isSinglePunct_ok c hp
    have hall : ∀ d ∈ [c], 32 < d ∧ d ≠ 34 ∧ d ≠ 92 := by
      intro d hd
      rcases List.mem_singleton.mp hd with rfl
      exact hok
    refine ⟨jsonRun_nws_eq [c] (fun d hd => (hall d hd).1) st, ?_⟩
    intro fin hfin
    exact tok_run_nstr [c] hall true st fin h hfin
  | str body hsb =>
    intro st h hw
    have hstep_eq : jsonStep true st 34 = jsonStep false st 34 :=
      jsonStep_nws_eq st 34 (by decide)
    rcases hstep : jsonStep true st 34 with _ | st1
    · left
      refine ⟨?_, ?_⟩
      · rw [jsonRun_cons_none _ _ _ _ hstep,
          jsonRun_cons_none _ _ _ _ (hstep_eq ▸ hstep)]
      · intro fin hfin
        rw [jsonRun_cons_none _ _ _ _ hstep] at hfin
        simp at hfin
    · obtain ⟨k, hk⟩ := jsonStep_34_nstr true st st1 h hw hstep
      obtain ⟨stk1, m1⟩ := st1
      simp only at hk
      subst hk
      obtain ⟨heq, hex⟩ := sbody_run_str hsb stk1 k 0 _ (Or.inl rfl)
      left
      refine ⟨?_, ?_⟩
      · rw [jsonRun_cons_some _ _ _ _ _ hstep,
          jsonRun_cons_some _ _ _ _ _ (hstep_eq ▸ hstep)]
        exact heq
      · intro fin hfin
        rw [jsonRun_cons_some _ _ _ _ _ hstep] at hfin
        rcases hex fin hfin with hm | hm <;> simp [hm, strMode]
  | sq body hsq =>
    intro st h hw
    have hstep_eq : jsonStep true st 34 = jsonStep false st 34 :=
      jsonStep_nws_eq st 34 (by decide)
    rcases hstep : jsonStep true st 34 with _ | st1
    · left
      refine ⟨?_, ?_⟩
      · rw [jsonRun_cons_none _ _ _ _ hstep,
          jsonRun_cons_none _ _ _ _ (hstep_eq ▸ hstep)]
      · intro fin hfin
        rw [jsonRun_cons_none _ _ _ _ hstep] at hfin
        simp at hfin
    · obtain ⟨k, hk⟩ := jsonStep_34_nstr true st st1 h hw hstep
      obtain ⟨stk1, m1⟩ := st1
      simp only at hk
      subst hk
      rcases sq_run_str hsq stk1 k 0 _ (Or.inl rfl) with ⟨heq, hex⟩ | hbad
      · left
        refine ⟨?_, ?_⟩
        · rw [jsonRun_cons_some _ _ _ _ _ hstep,
            jsonRun_cons_some _ _ _ _ _ (hstep_eq ▸ hstep)]
          exact heq
        · intro fin hfin
          rw [jsonRun_cons_some _ _ _ _ _ hstep] at hfin
          rcases hex fin hfin with hm | hm <;> simp [hm, strMode]
      · right
        rw [jsonRun_cons_some _ _ _ _ _ hstep]
        exact hbad

/-- One atom from inside a dangling string: the tolerant run dies or
stays inside a string. -/
theorem atom_run_inStr : ∀ {a : Bytes}, Atom a → ∀ (stk : List JFrame) (k : Bool),
    jsonRun true ⟨stk, JMode.inStr k⟩ a = none ∨
    ∃ fin k2, jsonRun true ⟨stk, JMode.inStr k⟩ a = some fin ∧
      fin.mode = JMode.inStr k2 := by
  intro a ha
  cases ha with
  | tok t0 hne hall hl43 hl44 =>
    intro stk k
    exact Or.inr ⟨⟨stk, JMode.inStr k⟩, k, tok_run_inStr a hall true stk k, rfl⟩
  | punct c hp =>
    intro stk k
    have hok := isSinglePunct_ok c hp
    have hall : ∀ d ∈ [c], 32 < d ∧ d ≠ 34 ∧ d ≠ 92 := by
      intro d hd
      rcases List.mem_singleton.mp hd with rfl
      exact hok
    exact Or.inr ⟨⟨stk, JMode.inStr k⟩, k, tok_run_inStr [c] hall true stk k, rfl⟩
  | str body hsb =>
    intro stk k
    rw [jsonRun_cons_some _ _ _ _ _ (jsonStep_inStr_34 true stk k)]
    exact sbody_run_nstr hsb ⟨stk, if k then JMode.colonStart else JMode.afterVal⟩
      (by cases k <;> simp [strMode]) (by cases k <;> rfl)
  | sq body hsq =>
    intro stk k
    rw [jsonRun_cons_some _ _ _ _ _ (jsonStep_inStr_34 true stk k)]
    exact sq_run_nstr hsq ⟨stk, if k then JMode.colonStart else JMode.afterVal⟩
      (by cases k <;> simp [strMode]) (by cases k <;> rfl)

/-- A chain of atoms from inside a dangling string never realigns. -/
theorem atoms_run_inStr : ∀ (ats : List Bytes), (∀ a ∈ ats, Atom a) →
    ∀ (stk : List JFrame) (k : Bool),
    jsonRun true ⟨stk, JMode.inStr k⟩ ats.flatten = none ∨
    ∃ fin k2, jsonRun true ⟨stk, JMode.inStr k⟩ ats.flatten = some fin ∧
      fin.mode = JMode.inStr k2 := by
  intro ats
  induction ats with
  | nil =>
    intro _ stk k
    exact Or.inr ⟨⟨stk, JMode.inStr k⟩, k, rfl, rfl⟩
  | cons a ats ih =>
    intro hats stk k
    rw [List.flatten_cons, jsonRun_append]
    rcases atom_run_inStr (hats a (by simp)) stk k with hnone | ⟨fin, k2, hfin, hmode⟩
    · rw [hnone]
      exact Or.inl rfl
    · rw [hfin]
      obtain ⟨stkf, mf⟩ := fin
      simp only at hmode
      subst hmode
      exact ih (fun b hb => hats b (by simp [hb])) stkf k2

/-- A chain of atoms from an aligned state: agreement or permanent
misalignment. -/
theorem atoms_run : ∀ (ats : List Bytes), (∀ a ∈ ats, Atom a) → ∀ (st : JSt),
    strMode st.mode = false → stWF st = true →
    (jsonRun true st ats.flatten = jsonRun false st ats.flatten ∧
     ∀ fin, jsonRun true st ats.flatten = some fin → strMode fin.mode = false) ∨
    (jsonRun true st ats.flatten = none ∨
     ∃ fin k, jsonRun true st ats.flatten = some fin ∧ fin.mode = JMode.inStr k) := by
  intro ats
  induction ats with
  | nil =>
    intro _ st h hw
    left
    refine ⟨rfl, ?_⟩
    intro fin hfin
    cases hfin
    exact h
  | cons a ats ih =>
    intro hats st h hw
    rw [List.flatten_cons, jsonRun_append, jsonRun_append]
    rcases atom_run (hats a (by simp)) st h hw with ⟨heqa, hexa⟩ | hbad
    · rw [← heqa]
      rcases hra : jsonRun true st a with _ | fin1
      · left
        exact ⟨rfl, by intro fin hfin; simp at hfin⟩
      · have hm1 : strMode fin1.mode = false := hexa fin1 hra
        have hw1 : stWF fin1 = true := jsonRun_stWF a true st fin1 hw hra
        exact ih (fun b hb => hats b (by simp [hb])) fin1 hm1 hw1
    · rcases hbad with hnone | ⟨fin1, k, hfin1, hmode⟩
      · rw [hnone]
        exact Or.inr (Or.inl rfl)
      · rw [hfin1]
        obtain ⟨stkf, mf⟩ := fin1
        simp only at hmode
        subst hmode
        exact Or.inr (atoms_run_inStr ats (fun b hb => hats b (by simp [hb])) stkf k)

/-- The bridge: a flatten of emitted atoms accepted by `json.Valid` is
whitespace-free strict JSON. -/
theorem atoms_valid_compact (ats : List Bytes) (hats : ∀ a ∈ ats, Atom a)
    (hv : jsonValidB ats.flatten = true) : jsonCompactB ats.flatten = true := by
  rcases atoms_run ats hats jsonStart rfl rfl with ⟨heq, hex⟩ | hbad
  · unfold jsonCompactB
    rw [← heq]
    unfold jsonValidB at hv
    exact hv
  · exfalso
    unfold jsonValidB at hv
    rcases hbad with hnone | ⟨fin, k, hfin, hmode⟩
    · rw [hnone] at hv
      simp at hv
    · rw [hfin] at hv
      dsimp only at hv
      rw [accept_strMode fin (by simp [hmode, strMode])] at hv
      simp at hv

/-- The default last element of a nonempty list is an element. -/
theorem getLastD_mem : ∀ (l : Bytes), l ≠ [] → l.getLastD 0 ∈ l := by
  intro l
  induction l with
  | nil => intro h; exact absurd rfl h
  | cons c cs ih =>
    intro _
    rcases hcs : cs with _ | ⟨d, ds⟩
    · simp
    · rw [← hcs]
      have : (c :: cs).getLastD 0 = cs.getLastD 0 := by
        rw [hcs]
        rfl
      rw [this]
      exact List.mem_cons_of_mem c (ih (by simp [hcs]))

/-- Hexadecimal digits are printable non-quote token bytes. -/
theorem isHexB_ok (c : Nat) (h : isHexB c = true) :
    32 < c ∧ c ≠ 34 ∧ c ≠ 92 ∧ c ≠ 44 ∧ c ≠ 43 := by
  simp only [isHexB, isDigitB, Bool.or_eq_true, Bool.and_eq_true, decide_eq_true_eq] at h
  rcases h with h | h
  · omega
  · have hgt : 64 ≤ c := by
      by_contra hle
      have : lowerB c < 64 :=
        Nat.or_lt_two_pow (x := c) (y := 32) (n := 6) (by omega) (by omega)
      omega
    refine ⟨by omega, by omega, ?_, by omega, by omega⟩
    intro hc
    subst hc
    exact absurd h (by decide)

/-- A single-byte punctuator token comes from the single-punct table. -/
theorem lexPunct_single : ∀ (l : Bytes) (c : Nat) (r : Bytes),
    lexPunct l = some ([c], r) → isSinglePunct c = true := by
  intro l c r h
  rw [lexPunct.eq_def] at h
  split at h
  · simp at h
  · split_ifs at h with h1
    · simp only [Option.some.injEq, Prod.mk.injEq, List.cons.injEq] at h
      obtain ⟨⟨rfl, -⟩, -⟩ := h
      exact h1
  · split_ifs at h with h1 h2
    · simp at h
    · simp only [Option.some.injEq, Prod.mk.injEq, List.cons.injEq] at h
      obtain ⟨⟨rfl, -⟩, -⟩ := h
      exact h2
  · split_ifs at h with h1 h2 h3
    · simp at h
    · simp at h
    · simp only [Option.some.injEq, Prod.mk.injEq, List.cons.injEq] at h
      obtain ⟨⟨rfl, -⟩, -⟩ := h
      exact h3

/-- Appending a nonempty list on the right fixes the default last
element. -/
theorem getLastD_append_right (b : Bytes) (h : b ≠ []) :
    ∀ (a : Bytes) (d : Nat), (a ++ b).getLastD d = b.getLastD d := by
  intro a
  induction a with
  | nil => intro d; rfl
  | cons x xs ih =>
    intro d
    rw [List.cons_append, List.getLastD_cons, ih]
    cases b with
    | nil => exact absurd rfl h
    | cons y ys => rw [List.getLastD_cons, List.getLastD_cons]

/-- The head of an append with a nonempty left part. -/
theorem headD_append_left (a : Bytes) (h : a ≠ []) (b : Bytes) :
    (a ++ b).headD 0 = a.headD 0 := by
  cases a with
  | nil => exact absurd rfl h
  | cons x xs => rfl

/-- Every byte of the first span component satisfies the predicate. -/
theorem span_fst_sat (p : Nat → Bool) (l : Bytes) : ∀ c ∈ (l.span p).1, p c = true := by
  intro c hc
  rw [List.span_eq_take_drop] at hc
  exact List.mem_takeWhile_imp hc

/-- Bounds of the digit test. -/
theorem isDigitB_ok (c : Nat) (h : isDigitB c = true) : 48 ≤ c ∧ c ≤ 57 := by
  simpa [isDigitB, Bool.and_eq_true, decide_eq_true_eq] using h

/-- The number lexer returns only numeric or big-integer tokens. -/
theorem lexNum_kinds : ∀ (l : Bytes) (k : LTok) (t r : Bytes),
    lexNum l = some (k, t, r) → k = LTok.numericT ∨ k = LTok.bigIntT := by
  have hexp : ∀ (pre l2 : Bytes) (k : LTok) (t r : Bytes),
      expTail pre l2 = some (k, t, r) → k = LTok.numericT := by
    intro pre l2 k t r h
    rw [expTail.eq_def] at h
    split at h
    · split_ifs at h
      · rename_i r2 c r3 hc
        match r3, h with
        | s :: r4, h =>
          dsimp only at h
          split_ifs at h <;>
            (simp only [Option.some.injEq, Prod.mk.injEq] at h; exact h.1.symm)
      · simp only [Option.some.injEq, Prod.mk.injEq] at h
        exact h.1.symm
    · simp only [Option.some.injEq, Prod.mk.injEq] at h
      exact h.1.symm
  have hdec : ∀ (l2 : Bytes) (k : LTok) (t r : Bytes),
      decNum l2 = some (k, t, r) → k = LTok.numericT ∨ k = LTok.bigIntT := by
    intro l2 k t r h
    rw [decNum.eq_def] at h
    dsimp only at h
    split at h
    · split_ifs at h
      simp only [Option.some.injEq, Prod.mk.injEq] at h
      exact Or.inl h.1.symm
    · split_ifs at h with h46 h110 hnil he
      · exact Or.inl (hexp _ _ _ _ _ h)
      · simp only [Option.some.injEq, Prod.mk.injEq] at h
        exact Or.inr h.1.symm
      · exact Or.inl (hexp _ _ _ _ _ h)
      · simp only [Option.some.injEq, Prod.mk.injEq] at h
        exact Or.inl h.1.symm
  have hpre : ∀ (p0 p1 : Nat) (dig : Nat → Bool) (rest : Bytes) (k : LTok) (t r : Bytes),
      prefixNum p0 p1 dig rest = some (k, t, r) → k = LTok.numericT ∨ k = LTok.bigIntT := by
    intro p0 p1 dig rest k t r h
    rw [prefixNum.eq_def] at h
    dsimp only at h
    split_ifs at h
    split at h
    · simp only [Option.some.injEq, Prod.mk.injEq] at h
      exact Or.inl h.1.symm
    · split_ifs at h <;>
        (simp only [Option.some.injEq, Prod.mk.injEq] at h)
      · exact Or.inr h.1.symm
      · exact Or.inl h.1.symm
  intro l k t r h
  rw [lexNum.eq_def] at h
  split at h
  · split_ifs at h with h48 h120 h111 h98 hd
    · exact hpre _ _ _ _ _ _ _ h
    · exact hpre _ _ _ _ _ _ _ h
    · exact hpre _ _ _ _ _ _ _ h
    · exact hdec _ _ _ _ h
    · exact hdec _ _ _ _ h
  · exact hdec _ _ _ _ h

/-- A punctuator token read by the lexer comes from `lexPunct`. -/
theorem lexNext_inv_punct : ∀ (l text rest : Bytes),
    lexNext l = (LTok.punctT, text, rest) → lexPunct l = some (text, rest) := by
  intro l text rest h
  rw [lexNext.eq_def] at h
  match l, h with
  | [], h => simp at h
  | c :: cs, h =>
    dsimp only at h
    split_ifs at h with h1 h2 h3 h4 h5 h6 h7
    · simp at h
    · simp at h
    · match cs, h with
      | [], h => simp at h
      | c2 :: r, h =>
        dsimp only at h
        split_ifs at h
        · simp at h
        · rcases hb : blockCmtAux (r.length + 1) r false with _ | ⟨bt, brest, sl⟩ <;>
            rw [hb] at h
          · simp at h
          · dsimp only at h
            cases sl <;> simp at h
        · simp at h
        · simp at h
    · rcases hsp : strSpanR c cs with _ | ⟨st, sr⟩ <;> rw [hsp] at h
      · simp at h
      · simp at h
    · rcases hsp : tmplSpanR cs with _ | ⟨st, sr⟩ <;> rw [hsp] at h
      · simp at h
      · simp at h
    · rcases hn : lexNum (c :: cs) with _ | ⟨k, kt, kr⟩ <;> rw [hn] at h
      · simp at h
      · dsimp only at h
        rcases lexNum_kinds _ _ _ _ hn with hk | hk <;> (subst hk; simp at h)
    · simp at h
    · rcases hp : lexPunct (c :: cs) with _ | ⟨pt, pr⟩ <;> rw [hp] at h
      · simp at h
      · simp only [Prod.mk.injEq] at h
        rw [h.2.1, h.2.2]

/-- A string token read by the lexer comes from the string scanner. -/
theorem lexNext_inv_string : ∀ (l text rest : Bytes),
    lexNext l = (LTok.stringT, text, rest) →
    ∃ c cs t, l = c :: cs ∧ (c = 34 ∨ c = 39) ∧ strSpanR c cs = some (t, rest) ∧
      text = c :: t := by
  intro l text rest h
  rw [lexNext.eq_def] at h
  match l, h with
  | [], h => simp at h
  | c :: cs, h =>
    dsimp only at h
    split_ifs at h with h1 h2 h3 h4 h5 h6 h7
    · simp at h
    · simp at h
    · match cs, h with
      | [], h => simp at h
      | c2 :: r, h =>
        dsimp only at h
        split_ifs at h
        · simp at h
        · rcases hb : blockCmtAux (r.length + 1) r false with _ | ⟨bt, brest, sl⟩ <;>
            rw [hb] at h
          · simp at h
          · dsimp only at h
            cases sl <;> simp at h
        · simp at h
        · simp at h
    · rcases hsp : strSpanR c cs with _ | ⟨st, sr⟩ <;> rw [hsp] at h
      · simp at h
      · simp only [Prod.mk.injEq] at h
        refine ⟨c, cs, st, rfl, ?_, ?_, h.2.1.symm⟩
        · simpa [Bool.or_eq_true, decide_eq_true_eq] using h4
        · rw [← h.2.2]
          exact hsp
    · rcases hsp : tmplSpanR cs with _ | ⟨st, sr⟩ <;> rw [hsp] at h
      · simp at h
      · simp at h
    · rcases hn : lexNum (c :: cs) with _ | ⟨k, kt, kr⟩ <;> rw [hn] at h
      · simp at h
      · dsimp only at h
        rcases lexNum_kinds _ _ _ _ hn with hk | hk <;> (subst hk; simp at h)
    · simp at h
    · rcases hp : lexPunct (c :: cs) with _ | ⟨pt, pr⟩ <;> rw [hp] at h
      · simp at h
      · simp at h

/-- A numeric or big-integer token read by the lexer comes from the
number lexer. -/
theorem lexNext_inv_num : ∀ (l : Bytes) (k : LTok) (text rest : Bytes),
    lexNext l = (k, text, rest) → k = LTok.numericT ∨ k = LTok.bigIntT →
    lexNum l = some (k, text, rest) := by
  intro l k text rest h hk
  rw [lexNext.eq_def] at h
  match l, h with
  | [], h =>
    simp only [Prod.mk.injEq] at h
    rcases hk with hk | hk <;> (rw [← h.1] at hk; simp at hk)
  | c :: cs, h =>
    dsimp only at h
    split_ifs at h with h1 h2 h3 h4 h5 h6 h7
    · simp only [Prod.mk.injEq] at h
      rcases hk with hk | hk <;> (rw [← h.1] at hk; simp at hk)
    · simp only [Prod.mk.injEq] at h
      rcases hk with hk | hk <;> (rw [← h.1] at hk; simp at hk)
    · match cs, h with
      | [], h =>
        simp only [Prod.mk.injEq] at h
        rcases hk with hk | hk <;> (rw [← h.1] at hk; simp at hk)
      | c2 :: r, h =>
        dsimp only at h
        split_ifs at h
        · simp only [Prod.mk.injEq] at h
          rcases hk with hk | hk <;> (rw [← h.1] at hk; simp at hk)
        · rcases hb : blockCmtAux (r.length + 1) r false with _ | ⟨bt, brest, sl⟩ <;>
            rw [hb] at h
          · simp only [Prod.mk.injEq] at h
            rcases hk with hk | hk <;> (rw [← h.1] at hk; simp at hk)
          · dsimp only at h
            cases sl
            all_goals
              simp only [Prod.mk.injEq] at h
              rcases hk with hk | hk <;> (rw [← h.1] at hk; simp at hk)
        · simp only [Prod.mk.injEq] at h
          rcases hk with hk | hk <;> (rw [← h.1] at hk; simp at hk)
        · simp only [Prod.mk.injEq] at h
          rcases hk with hk | hk <;> (rw [← h.1] at hk; simp at hk)
    · rcases hsp : strSpanR c cs with _ | ⟨st, sr⟩ <;> rw [hsp] at h
      · simp only [Prod.mk.injEq] at h
        rcases hk with hk | hk <;> (rw [← h.1] at hk; simp at hk)
      · simp only [Prod.mk.injEq] at h
        rcases hk with hk | hk <;> (rw [← h.1] at hk; simp at hk)
    · rcases hsp : tmplSpanR cs with _ | ⟨st, sr⟩ <;> rw [hsp] at h
      · simp only [Prod.mk.injEq] at h
        rcases hk with hk | hk <;> (rw [← h.1] at hk; simp at hk)
      · simp only [Prod.mk.injEq] at h
        rcases hk with hk | hk <;> (rw [← h.1] at hk; simp at hk)
    · rcases hn : lexNum (c :: cs) with _ | ⟨k2, kt, kr⟩ <;> rw [hn] at h
      · simp only [Prod.mk.injEq] at h
        rcases hk with hk | hk <;> (rw [← h.1] at hk; simp at hk)
      · simp only [Prod.mk.injEq] at h
        obtain ⟨rfl, rfl, rfl⟩ := h
        rfl
    · simp only [Prod.mk.injEq] at h
      rcases hk with hk | hk <;> (rw [← h.1] at hk; simp at hk)
    · rcases hp : lexPunct (c :: cs) with _ | ⟨pt, pr⟩ <;> rw [hp] at h
      · simp only [Prod.mk.injEq] at h
        rcases hk with hk | hk <;> (rw [← h.1] at hk; simp at hk)
      · simp only [Prod.mk.injEq] at h
        rcases hk with hk | hk <;> (rw [← h.1] at hk; simp at hk)


/-- The default head of a nonempty list is an element. -/
theorem headD_mem (l : Bytes) (h : l ≠ []) : l.headD 0 ∈ l := by
  cases l with
  | nil => exact absurd rfl h
  | cons x xs => simp

/-- A list ending in a cons cell is nonempty. -/
theorem append_cons_ne_nil (a : Bytes) (c : Nat) (b : Bytes) : a ++ c :: b ≠ [] := by
  cases a <;> simp

/-- Shape of a successful exponent-tail scan: the scanned part is the
prefix possibly extended by an exponent group ending in a digit. -/
theorem expTail_fact (pre r : Bytes) (k : LTok) (t r2 : Bytes)
    (h : expTail pre r = some (k, t, r2)) :
    k = LTok.numericT ∧
    (t = pre ∨
     ∃ mid, t = pre ++ mid ∧ mid ≠ [] ∧
       (∀ c ∈ mid, isDigitB c = true ∨ c = 101 ∨ c = 69 ∨ c = 43 ∨ c = 45) ∧
       isDigitB (t.getLastD 0) = true) := by
  rw [expTail.eq_def] at h
  split at h
  · rename_i c r2x
    split_ifs at h with hc
    · match r2x, h with
      | s :: r3, h =>
        dsimp only at h
        split_ifs at h with hs hd1 hd2
        · simp only [Option.some.injEq, Prod.mk.injEq] at h
          obtain ⟨rfl, rfl, rfl⟩ := h
          refine ⟨rfl, Or.inr ⟨c :: s :: (r3.span (fun b => isDigitB b)).1, rfl, by simp, ?_, ?_⟩⟩
          · intro d hd
            rcases List.mem_cons.mp hd with rfl | hd
            · simp only [Bool.or_eq_true, decide_eq_true_eq] at hc
              rcases hc with hc | hc <;> simp [hc]
            · rcases List.mem_cons.mp hd with rfl | hd
              · simp only [Bool.or_eq_true, decide_eq_true_eq] at hs
                rcases hs with hs | hs <;> simp [hs]
              · exact Or.inl (span_fst_sat _ _ d hd)
          · rw [getLastD_append_right _ (by simp)]
            have h1 : (c :: s :: (r3.span (fun b => isDigitB b)).1).getLastD 0 =
                ((r3.span (fun b => isDigitB b)).1).getLastD 0 := by
              have := getLastD_append_right ((r3.span (fun b => isDigitB b)).1) hd1 [c, s] 0
              simpa using this
            rw [h1]
            exact span_fst_sat _ _ _ (getLastD_mem _ hd1)
        · simp only [Option.some.injEq, Prod.mk.injEq] at h
          obtain ⟨rfl, rfl, rfl⟩ := h
          refine ⟨rfl, Or.inr ⟨c :: ((s :: r3).span (fun b => isDigitB b)).1, rfl, by simp, ?_, ?_⟩⟩
          · intro d hd
            rcases List.mem_cons.mp hd with rfl | hd
            · simp only [Bool.or_eq_true, decide_eq_true_eq] at hc
              rcases hc with hc | hc <;> simp [hc]
            · exact Or.inl (span_fst_sat _ _ d hd)
          · rw [getLastD_append_right _ (by simp)]
            have h1 : (c :: ((s :: r3).span (fun b => isDigitB b)).1).getLastD 0 =
                (((s :: r3).span (fun b => isDigitB b)).1).getLastD 0 := by
              have := getLastD_append_right (((s :: r3).span (fun b => isDigitB b)).1) hd2 [c] 0
              simpa using this
            rw [h1]
            exact span_fst_sat _ _ _ (getLastD_mem _ hd2)
    · simp only [Option.some.injEq, Prod.mk.injEq] at h
      obtain ⟨rfl, rfl, rfl⟩ := h
      exact ⟨rfl, Or.inl rfl⟩
  · simp only [Option.some.injEq, Prod.mk.injEq] at h
    obtain ⟨rfl, rfl, rfl⟩ := h
    exact ⟨rfl, Or.inl rfl⟩

/-- Digit bytes are plain printable token bytes. -/
theorem digit_byte_ok (c : Nat) (h : isDigitB c = true) :
    32 < c ∧ c ≠ 34 ∧ c ≠ 92 := by
  have := isDigitB_ok c h
  omega

/-- Byte-level facts about a successful decimal-number token. -/
theorem decNum_fact (l : Bytes) (k : LTok) (t r : Bytes)
    (h : decNum l = some (k, t, r)) :
    (∀ c ∈ t, 32 < c ∧ c ≠ 34 ∧ c ≠ 92) ∧ t ≠ [] ∧
    t.headD 0 ≠ 43 ∧ t.headD 0 ≠ 45 ∧
    (k = LTok.numericT → t.getLastD 0 ≠ 43 ∧ t.getLastD 0 ≠ 44) ∧
    (k = LTok.bigIntT → t.getLastD 0 = 110 ∧ t.dropLast ≠ [] ∧
      t.dropLast.headD 0 ≠ 43 ∧ t.dropLast.headD 0 ≠ 45 ∧
      t.dropLast.getLastD 0 ≠ 43 ∧ t.dropLast.getLastD 0 ≠ 44) := by
  have hdig : ∀ (m : Bytes) (c : Nat), c ∈ (m.span (fun b => isDigitB b)).1 →
      48 ≤ c ∧ c ≤ 57 := fun m c hc => isDigitB_ok c (span_fst_sat _ m c hc)
  have hs1head : (l.span (fun b => isDigitB b)).1 ≠ [] →
      48 ≤ (l.span (fun b => isDigitB b)).1.headD 0 ∧
        (l.span (fun b => isDigitB b)).1.headD 0 ≤ 57 :=
    fun hne => hdig l _ (headD_mem _ hne)
  have hs1last : (l.span (fun b => isDigitB b)).1 ≠ [] →
      48 ≤ (l.span (fun b => isDigitB b)).1.getLastD 0 ∧
        (l.span (fun b => isDigitB b)).1.getLastD 0 ≤ 57 :=
    fun hne => hdig l _ (getLastD_mem _ hne)
  rw [decNum.eq_def] at h
  dsimp only at h
  split at h
  · split_ifs at h with h0
    simp only [Option.some.injEq, Prod.mk.injEq] at h
    obtain ⟨rfl, rfl, rfl⟩ := h
    refine ⟨fun c hc => by have := hdig l c hc; omega, h0, ?_, ?_, fun _ => ⟨?_, ?_⟩,
      fun hk => by simp at hk⟩
    · have := hs1head h0; omega
    · have := hs1head h0; omega
    · have := hs1last h0; omega
    · have := hs1last h0; omega
  · rename_i c r2 hs2
    split_ifs at h with h46 hboth h110 hs1 he
    · -- fraction case: expTail over s1.1 ++ 46 :: s2.1
      obtain ⟨hknum, hshape⟩ := expTail_fact _ _ _ _ _ h
      subst hknum
      have hprene : (l.span (fun b => isDigitB b)).1 ++ 46 :: (r2.span (fun b => isDigitB b)).1 ≠ [] :=
        append_cons_ne_nil _ _ _
      have hpreall : ∀ d ∈ (l.span (fun b => isDigitB b)).1 ++ 46 :: (r2.span (fun b => isDigitB b)).1,
          32 < d ∧ d ≠ 34 ∧ d ≠ 92 := by
        intro d hd
        rcases List.mem_append.mp hd with hd | hd
        · have := hdig l d hd; omega
        · rcases List.mem_cons.mp hd with rfl | hd
          · omega
          · have := hdig r2 d hd; omega
      have hprehead : ((l.span (fun b => isDigitB b)).1 ++ 46 :: (r2.span (fun b => isDigitB b)).1).headD 0 ≠ 43 ∧
          ((l.span (fun b => isDigitB b)).1 ++ 46 :: (r2.span (fun b => isDigitB b)).1).headD 0 ≠ 45 := by
        by_cases hsne : (l.span (fun b => isDigitB b)).1 = []
        · rw [hsne]
          simp
        · rw [headD_append_left _ hsne]
          have := hs1head hsne
          omega
      have hprelast : ((l.span (fun b => isDigitB b)).1 ++ 46 :: (r2.span (fun b => isDigitB b)).1).getLastD 0 ≠ 43 ∧
          ((l.span (fun b => isDigitB b)).1 ++ 46 :: (r2.span (fun b => isDigitB b)).1).getLastD 0 ≠ 44 := by
        rw [getLastD_append_right _ (by simp)]
        by_cases hsne : (r2.span (fun b => isDigitB b)).1 = []
        · rw [hsne]
          simp
        · have h1 : (46 :: (r2.span (fun b => isDigitB b)).1).getLastD 0 =
              ((r2.span (fun b => isDigitB b)).1).getLastD 0 := by
            have := getLastD_append_right ((r2.span (fun b => isDigitB b)).1) hsne [46] 0
            simpa using this
          rw [h1]
          have := hdig r2 _ (getLastD_mem _ hsne)
          omega
      rcases hshape with rfl | ⟨mid, rfl, hmne, hmall, hmlast⟩
      · exact ⟨hpreall, hprene, hprehead.1, hprehead.2, fun _ => hprelast,
          fun hk => by simp at hk⟩
      · refine ⟨?_, by simp [append_cons_ne_nil], ?_, ?_, fun _ => ?_, fun hk => by simp at hk⟩
        · intro d hd
          rcases List.mem_append.mp hd with hd | hd
          · exact hpreall d hd
          · rcases hmall d hd with hd2 | hd2 | hd2 | hd2 | hd2
            · have := isDigitB_ok d hd2; omega
            · omega
            · omega
            · omega
            · omega
        · rw [headD_append_left _ hprene]
          exact hprehead.1
        · rw [headD_append_left _ hprene]
          exact hprehead.2
        · have := isDigitB_ok _ hmlast
          omega
    · -- big-integer token: s1.1 ++ [110]
      simp only [Option.some.injEq, Prod.mk.injEq] at h
      obtain ⟨rfl, rfl, rfl⟩ := h
      have hlast110 : ((l.span (fun b => isDigitB b)).1 ++ [110]).getLastD 0 = 110 := by
        rw [getLastD_append_right _ (by simp)]
        rfl
      refine ⟨?_, by simp [append_cons_ne_nil], ?_, ?_, fun hk => by simp at hk, fun _ => ?_⟩
      · intro d hd
        rcases List.mem_append.mp hd with hd | hd
        · have := hdig l d hd; omega
        · rcases List.mem_cons.mp hd with rfl | hd
          · omega
          · simp at hd
      · rw [headD_append_left _ hs1]
        have := hs1head hs1; omega
      · rw [headD_append_left _ hs1]
        have := hs1head hs1; omega
      · rw [List.dropLast_concat]
        refine ⟨hlast110, hs1, ?_, ?_, ?_, ?_⟩
        · have := hs1head hs1; omega
        · have := hs1head hs1; omega
        · have := hs1last hs1; omega
        · have := hs1last hs1; omega
    · -- exponent directly after the integer part
      obtain ⟨hknum, hshape⟩ := expTail_fact _ _ _ _ _ h
      subst hknum
      rcases hshape with rfl | ⟨mid, rfl, hmne, hmall, hmlast⟩
      · refine ⟨fun d hd => by have := hdig l d hd; omega, he, ?_, ?_, fun _ => ⟨?_, ?_⟩,
          fun hk => by simp at hk⟩
        · have := hs1head he; omega
        · have := hs1head he; omega
        · have := hs1last he; omega
        · have := hs1last he; omega
      · refine ⟨?_, ?_, ?_, ?_, fun _ => ?_, fun hk => by simp at hk⟩
        · intro d hd
          rcases List.mem_append.mp hd with hd | hd
          · have := hdig l d hd; omega
          · rcases hmall d hd with hd2 | hd2 | hd2 | hd2 | hd2
            · have := isDigitB_ok d hd2; omega
            · omega
            · omega
            · omega
            · omega
        · intro hc
          rw [List.append_eq_nil] at hc
          exact he hc.1
        · rw [headD_append_left _ he]
          have := hs1head he; omega
        · rw [headD_append_left _ he]
          have := hs1head he; omega
        · have := isDigitB_ok _ hmlast
          omega
    · -- plain integer token with a non-number continuation
      simp only [Option.some.injEq, Prod.mk.injEq] at h
      obtain ⟨rfl, rfl, rfl⟩ := h
      refine ⟨fun d hd => by have := hdig l d hd; omega, he, ?_, ?_, fun _ => ⟨?_, ?_⟩,
        fun hk => by simp at hk⟩
      · have := hs1head he; omega
      · have := hs1head he; omega
      · have := hs1last he; omega
      · have := hs1last he; omega

/-- Hex digit bytes are plain printable non-sign token bytes. -/
theorem isHexB_ok1 (c : Nat) (h : isHexB c = true) :
    32 < c ∧ c ≠ 34 ∧ c ≠ 92 ∧ c ≠ 43 ∧ c ≠ 44 := by
  have := isHexB_ok c h
  omega

/-- Octal digit bounds. -/
theorem isOctB_ok (c : Nat) (h : isOctB c = true) : 48 ≤ c ∧ c ≤ 55 := by
  simpa [isOctB, Bool.and_eq_true, decide_eq_true_eq] using h

/-- Binary digit bounds. -/
theorem isBinB_ok (c : Nat) (h : isBinB c = true) : 48 ≤ c ∧ c ≤ 49 := by
  rcases (by simpa [isBinB, Bool.or_eq_true, decide_eq_true_eq] using h : c = 48 ∨ c = 49)
    with h1 | h1 <;> omega

/-- Byte-level facts about a successful prefixed-number token. -/
theorem prefixNum_fact (p1 : Nat) (dig : Nat → Bool) (rest : Bytes) (k : LTok) (t r : Bytes)
    (hp1 : 32 < p1 ∧ p1 ≠ 34 ∧ p1 ≠ 92)
    (hdig : ∀ c, dig c = true → 32 < c ∧ c ≠ 34 ∧ c ≠ 92 ∧ c ≠ 43 ∧ c ≠ 44)
    (h : prefixNum 48 p1 dig rest = some (k, t, r)) :
    (∀ c ∈ t, 32 < c ∧ c ≠ 34 ∧ c ≠ 92) ∧ t ≠ [] ∧
    t.headD 0 ≠ 43 ∧ t.headD 0 ≠ 45 ∧
    (k = LTok.numericT → t.getLastD 0 ≠ 43 ∧ t.getLastD 0 ≠ 44) ∧
    (k = LTok.bigIntT → t.getLastD 0 = 110 ∧ t.dropLast ≠ [] ∧
      t.dropLast.headD 0 ≠ 43 ∧ t.dropLast.headD 0 ≠ 45 ∧
      t.dropLast.getLastD 0 ≠ 43 ∧ t.dropLast.getLastD 0 ≠ 44) := by
  have hsp : ∀ c ∈ (rest.span dig).1, 32 < c ∧ c ≠ 34 ∧ c ≠ 92 ∧ c ≠ 43 ∧ c ≠ 44 :=
    fun c hc => hdig c (span_fst_sat _ _ c hc)
  rw [prefixNum.eq_def] at h
  dsimp only at h
  split_ifs at h with hne
  have hqall : ∀ d ∈ 48 :: p1 :: (rest.span dig).1, 32 < d ∧ d ≠ 34 ∧ d ≠ 92 := by
    intro d hd
    rcases List.mem_cons.mp hd with rfl | hd
    · omega
    · rcases List.mem_cons.mp hd with rfl | hd
      · exact hp1
      · have := hsp d hd; omega
  have hqlast : (48 :: p1 :: (rest.span dig).1).getLastD 0 ≠ 43 ∧
      (48 :: p1 :: (rest.span dig).1).getLastD 0 ≠ 44 := by
    have h1 : (48 :: p1 :: (rest.span dig).1).getLastD 0 = ((rest.span dig).1).getLastD 0 := by
      have := getLastD_append_right ((rest.span dig).1) hne [48, p1] 0
      simpa using this
    rw [h1]
    exact ⟨(hsp _ (getLastD_mem _ hne)).2.2.2.1, (hsp _ (getLastD_mem _ hne)).2.2.2.2⟩
  split at h
  · simp only [Option.some.injEq, Prod.mk.injEq] at h
    obtain ⟨rfl, rfl, rfl⟩ := h
    exact ⟨hqall, by simp, by simp, by simp, fun _ => hqlast, fun hk => by simp at hk⟩
  · rename_i c r3
    split_ifs at h with hc110
    · simp only [Option.some.injEq, Prod.mk.injEq] at h
      obtain ⟨rfl, rfl, rfl⟩ := h
      have hform : (48 :: p1 :: (rest.span dig).1 ++ [110] : Bytes) =
          (48 :: p1 :: (rest.span dig).1) ++ [110] := by simp
      refine ⟨?_, by simp, by simp, by simp, fun hk => by simp at hk, fun _ => ?_⟩
      · intro d hd
        rw [hform] at hd
        rcases List.mem_append.mp hd with hd | hd
        · exact hqall d hd
        · rcases List.mem_cons.mp hd with rfl | hd
          · omega
          · simp at hd
      · rw [hform, getLastD_append_right [110] (by simp), List.dropLast_concat]
        exact ⟨rfl, by simp, by simp, by simp, hqlast.1, hqlast.2⟩
    · simp only [Option.some.injEq, Prod.mk.injEq] at h
      obtain ⟨rfl, rfl, rfl⟩ := h
      exact ⟨hqall, by simp, by simp, by simp, fun _ => hqlast, fun hk => by simp at hk⟩

/-- Byte-level facts about any successful number token. -/
theorem lexNum_fact (l : Bytes) (k : LTok) (t r : Bytes)
    (h : lexNum l = some (k, t, r)) :
    (∀ c ∈ t, 32 < c ∧ c ≠ 34 ∧ c ≠ 92) ∧ t ≠ [] ∧
    t.headD 0 ≠ 43 ∧ t.headD 0 ≠ 45 ∧
    (k = LTok.numericT → t.getLastD 0 ≠ 43 ∧ t.getLastD 0 ≠ 44) ∧
    (k = LTok.bigIntT → t.getLastD 0 = 110 ∧ t.dropLast ≠ [] ∧
      t.dropLast.headD 0 ≠ 43 ∧ t.dropLast.headD 0 ≠ 45 ∧
      t.dropLast.getLastD 0 ≠ 43 ∧ t.dropLast.getLastD 0 ≠ 44) := by
  rw [lexNum.eq_def] at h
  split at h
  · rename_i b0 c restx
    split_ifs at h with h48 h120 h111 h98 hd
    · refine prefixNum_fact c _ restx k t r ⟨?_, ?_, ?_⟩ (fun d hdd => isHexB_ok1 d hdd) h
      · by_contra hle
        have : c ||| 32 < 64 :=
          Nat.or_lt_two_pow (x := c) (y := 32) (n := 6) (by omega) (by omega)
        simp only [lowerB] at h120
        omega
      · intro hc
        subst hc
        simp [lowerB] at h120
      · intro hc
        subst hc
        simp [lowerB] at h120
    · refine prefixNum_fact c _ restx k t r ⟨?_, ?_, ?_⟩
        (fun d hdd => by have := isOctB_ok d hdd; omega) h
      · by_contra hle
        have : c ||| 32 < 64 :=
          Nat.or_lt_two_pow (x := c) (y := 32) (n := 6) (by omega) (by omega)
        simp only [lowerB] at h111
        omega
      · intro hc
        subst hc
        simp [lowerB] at h111
      · intro hc
        subst hc
        simp [lowerB] at h111
    · refine prefixNum_fact c _ restx k t r ⟨?_, ?_, ?_⟩
        (fun d hdd => by have := isBinB_ok d hdd; omega) h
      · by_contra hle
        have : c ||| 32 < 64 :=
          Nat.or_lt_two_pow (x := c) (y := 32) (n := 6) (by omega) (by omega)
        simp only [lowerB] at h98
        omega
      · intro hc
        subst hc
        simp [lowerB] at h98
      · intro hc
        subst hc
        simp [lowerB] at h98
    · exact decNum_fact _ _ _ _ h
    · exact decNum_fact _ _ _ _ h
  · exact decNum_fact _ _ _ _ h

/-- Bytes of the decimal printer are digits. -/
theorem natDec_byte_ok (n : Nat) : ∀ c ∈ natDec n, 32 < c ∧ c ≠ 34 ∧ c ≠ 92 := by
  intro c hc
  have := natDec_digits n c hc
  omega

/-- The last byte of the decimal printer is a digit. -/
theorem natDec_last_ok (n : Nat) :
    (natDec n).getLastD 0 ≠ 43 ∧ (natDec n).getLastD 0 ≠ 44 := by
  have := natDec_digits n _ (getLastD_mem _ (natDec_ne_nil n))
  omega

/-- `transformNumber` turns a sign-free printable token into an atom
whose last byte is neither a comma nor a plus. -/
theorem transformNumber_fact (t : Bytes) (hne : t ≠ [])
    (hall : ∀ c ∈ t, 32 < c ∧ c ≠ 34 ∧ c ≠ 92)
    (hh43 : t.headD 0 ≠ 43) (hh45 : t.headD 0 ≠ 45)
    (hl43 : t.getLastD 0 ≠ 43) (hl44 : t.getLastD 0 ≠ 44) :
    Atom (transformNumber t) ∧ (transformNumber t).getLastD 0 ≠ 43 ∧
      (transformNumber t).getLastD 0 ≠ 44 := by
  obtain ⟨c, rest, rfl⟩ : ∃ c rest, t = c :: rest := by
    cases t with
    | nil => exact absurd rfl hne
    | cons c rest => exact ⟨c, rest, rfl⟩
  have hc43 : c ≠ 43 := by simpa using hh43
  have hc45 : c ≠ 45 := by simpa using hh45
  rw [transformNumber.eq_def]
  dsimp only
  rw [if_neg hc43, if_neg hc45]
  rcases hp : parseUintGo (c :: rest) with _ | ui
  · dsimp only
    rw [List.nil_append]
    exact ⟨Atom.tok _ hne hall hl43 hl44, hl43, hl44⟩
  · dsimp only
    rw [List.nil_append]
    refine ⟨Atom.tok _ (natDec_ne_nil ui) (natDec_byte_ok ui) (natDec_last_ok ui).1
      (natDec_last_ok ui).2, (natDec_last_ok ui).1, (natDec_last_ok ui).2⟩

/-- A scanned string body is nonempty. -/
theorem strSpanR_ne_nil (q : Nat) (hq : q ≠ 0) (cs t r : Bytes)
    (h : strSpanR q cs = some (t, r)) : t ≠ [] :=
  ne_nil_of_getLastD t q hq (strSpanR_last q hq cs.length cs t r le_rfl h)

/-- Splitting off a singleton last atom from the flattened output. -/
theorem flatten_last_single (ats : List Bytes) (x : Nat)
    (h : ats.getLast? = some [x]) :
    ats.flatten = ats.dropLast.flatten ++ [x] ∧
    ats.flatten.dropLast = ats.dropLast.flatten := by
  have hsplit := List.dropLast_append_getLast? _ h
  have h1 : ats.flatten = ats.dropLast.flatten ++ [x] := by
    conv_lhs => rw [← hsplit]
    rw [List.flatten_append]
    simp
  exact ⟨h1, by rw [h1, List.dropLast_concat]⟩

/-- Atoms flatten over a snoc. -/
theorem flatten_concat_tok (ats : List Bytes) (t : Bytes) :
    (ats ++ [t]).flatten = ats.flatten ++ t := by
  rw [List.flatten_append]
  simp

/-- Membership in a snoc list of atoms. -/
theorem atoms_concat (ats : List Bytes) (t : Bytes) (hats : ∀ a ∈ ats, Atom a)
    (ht : Atom t) : ∀ a ∈ ats ++ [t], Atom a := by
  intro a ha
  rcases List.mem_append.mp ha with ha | ha
  · exact hats a ha
  · rw [List.mem_singleton.mp ha]
    exact ht

set_option maxHeartbeats 1000000 in
/-- Everything `readJSObject` ever returns is a concatenation of atoms:
the invariant of the token loop. -/
theorem rjAux_atoms :
    ∀ (f : Nat) (rem buf : Bytes) (level : Int) (lastB first cnt : Nat)
      (msg : Bytes) (n : Nat) (ats : List Bytes),
      (∀ a ∈ ats, Atom a) → buf = ats.flatten →
      (lastB = 44 → ats.getLast? = some [44]) →
      (lastB = 43 → ats.getLast? = some [43]) →
      rjAux f rem buf level lastB first cnt = some (msg, n) →
      ∃ ats2 : List Bytes, (∀ a ∈ ats2, Atom a) ∧ msg = ats2.flatten := by
  intro f
  induction f with
  | zero =>
    intro rem buf level lastB first cnt msg n ats hats hbuf h44 h43 hrun
    simp [rjAux] at hrun
  | succ f ih =>
    intro rem buf level lastB first cnt msg n ats hats hbuf h44 h43 hrun
    rw [rjAux] at hrun
    rcases hlex : lexNext rem with ⟨tt, text, rest⟩
    rw [hlex] at hrun
    cases tt with
    | eofT =>
      simp only [Option.some.injEq, Prod.mk.injEq] at hrun
      exact ⟨ats, hats, by rw [← hrun.1, hbuf]⟩
    | badT => simp at hrun
    | wsT => exact ih _ _ _ _ _ _ _ _ _ hats hbuf h44 h43 hrun
    | lineT => exact ih _ _ _ _ _ _ _ _ _ hats hbuf h44 h43 hrun
    | commentT => exact ih _ _ _ _ _ _ _ _ _ hats hbuf h44 h43 hrun
    | commentLineT => exact ih _ _ _ _ _ _ _ _ _ hats hbuf h44 h43 hrun
    | identT =>
      dsimp only at hrun
      rcases hjs : jsIdentLookup text with _ | v
      · rw [hjs] at hrun
        dsimp only at hrun
        refine ih _ _ _ _ _ _ _ _ (ats ++ [jsonMarshalStr text])
          (atoms_concat _ _ hats (Atom.str _ (jmEsc_sbody text)))
          (by rw [hbuf, flatten_concat_tok, jsonMarshalStr])
          (fun hl => ?_) (fun hl => ?_) hrun <;>
          (rw [jsonMarshalStr_last] at hl; omega)
      · rw [hjs] at hrun
        dsimp only at hrun
        unfold jsIdentLookup at hjs
        split_ifs at hjs with ht1 ht2 ht3 ht4 ht5 <;>
          simp only [Option.some.injEq] at hjs <;> subst hjs
        · subst ht1
          exact ih _ _ _ _ _ _ _ _ (ats ++ [[116, 114, 117, 101]])
            (atoms_concat _ _ hats (Atom.tok _ (by simp) (by decide) (by decide) (by decide)))
            (by rw [hbuf, flatten_concat_tok])
            (fun hl => absurd hl (by decide)) (fun hl => absurd hl (by decide)) hrun
        · subst ht2
          exact ih _ _ _ _ _ _ _ _ (ats ++ [[102, 97, 108, 115, 101]])
            (atoms_concat _ _ hats (Atom.tok _ (by simp) (by decide) (by decide) (by decide)))
            (by rw [hbuf, flatten_concat_tok])
            (fun hl => absurd hl (by decide)) (fun hl => absurd hl (by decide)) hrun
        · subst ht3
          exact ih _ _ _ _ _ _ _ _ (ats ++ [[110, 117, 108, 108]])
            (atoms_concat _ _ hats (Atom.tok _ (by simp) (by decide) (by decide) (by decide)))
            (by rw [hbuf, flatten_concat_tok])
            (fun hl => absurd hl (by decide)) (fun hl => absurd hl (by decide)) hrun
        · subst ht4
          exact ih _ _ _ _ _ _ _ _ (ats ++ [[110, 117, 108, 108]])
            (atoms_concat _ _ hats (Atom.tok _ (by simp) (by decide) (by decide) (by decide)))
            (by rw [hbuf, flatten_concat_tok])
            (fun hl => absurd hl (by decide)) (fun hl => absurd hl (by decide)) hrun
        · subst ht5
          exact ih _ _ _ _ _ _ _ _ (ats ++ [[110, 117, 108, 108]])
            (atoms_concat _ _ hats (Atom.tok _ (by simp) (by decide) (by decide) (by decide)))
            (by rw [hbuf, flatten_concat_tok])
            (fun hl => absurd hl (by decide)) (fun hl => absurd hl (by decide)) hrun
    | divT =>
      dsimp only at hrun
      rcases hre : lexRegExp rem with _ | ⟨rt, rr⟩
      · rw [hre] at hrun
        simp at hrun
      · rw [hre] at hrun
        dsimp only at hrun
        refine ih _ _ _ _ _ _ _ _ (ats ++ [jsonMarshalStr rt])
          (atoms_concat _ _ hats (Atom.str _ (jmEsc_sbody rt)))
          (by rw [hbuf, flatten_concat_tok, jsonMarshalStr])
          (fun hl => ?_) (fun hl => ?_) hrun <;>
          (rw [jsonMarshalStr_last] at hl; omega)
    | divEqT =>
      dsimp only at hrun
      rcases hre : lexRegExp rem with _ | ⟨rt, rr⟩
      · rw [hre] at hrun
        simp at hrun
      · rw [hre] at hrun
        dsimp only at hrun
        refine ih _ _ _ _ _ _ _ _ (ats ++ [jsonMarshalStr rt])
          (atoms_concat _ _ hats (Atom.str _ (jmEsc_sbody rt)))
          (by rw [hbuf, flatten_concat_tok, jsonMarshalStr])
          (fun hl => ?_) (fun hl => ?_) hrun <;>
          (rw [jsonMarshalStr_last] at hl; omega)
    | punctT =>
      have hpl := lexNext_inv_punct rem text rest hlex
      rcases text with _ | ⟨c, trest⟩
      · dsimp only at hrun
        exact absurd hrun (by simp)
      · rcases trest with _ | ⟨c2, t3⟩
        · have hsp : isSinglePunct c = true := lexPunct_single rem c rest hpl
          dsimp only at hrun
          generalize hf : (if cnt = 0 then ([c] : Bytes).headD 0 else first) = fst at hrun
          split at hrun
          · next hopen =>
            simp only [Bool.or_eq_true, decide_eq_true_eq] at hopen
            generalize hop : (if c = fst then level + 1 else level) = lvlop at hrun
            split at hrun
            · exact absurd hrun (by simp)
            · refine ih _ _ _ _ _ _ _ _ (ats ++ [[c]])
                (atoms_concat _ _ hats (Atom.punct c hsp))
                (by rw [hbuf, flatten_concat_tok])
                (fun hl => ?_) (fun hl => ?_) hrun <;>
                (rcases hopen with h4 | h4 <;> omega)
          · split at hrun
            · next hclose =>
              simp only [Bool.or_eq_true, decide_eq_true_eq] at hclose
              generalize hcl : (if c = matchingClose fst then level - 1 else level) =
                lvl1 at hrun
              have hbufs : ∃ ats1 : List Bytes, (∀ a ∈ ats1, Atom a) ∧
                  (if lastB = 44 then buf.dropLast else buf) ++ [c] = ats1.flatten ∧
                  ats1.getLast? = some [c] := by
                by_cases hl44 : lastB = 44
                · have hsur := flatten_last_single ats 44 (h44 hl44)
                  refine ⟨ats.dropLast ++ [[c]], atoms_concat _ _
                    (fun a ha => hats a (List.mem_of_mem_dropLast ha)) (Atom.punct c hsp),
                    ?_, List.getLast?_concat _⟩
                  rw [if_pos hl44, hbuf, hsur.2, flatten_concat_tok]
                · refine ⟨ats ++ [[c]], atoms_concat _ _ hats (Atom.punct c hsp),
                    ?_, List.getLast?_concat _⟩
                  rw [if_neg hl44, hbuf, flatten_concat_tok]
              obtain ⟨ats1, hats1, hbuf1, hlast1⟩ := hbufs
              rw [hbuf1] at hrun
              split at hrun
              · simp only [Option.some.injEq, Prod.mk.injEq] at hrun
                exact ⟨ats1, hats1, hrun.1.symm⟩
              · refine ih _ _ _ _ _ _ _ _ ats1 hats1 rfl
                  (fun hl => ?_) (fun hl => ?_) hrun <;>
                  (rcases hclose with h4 | h4 <;> omega)
            · split at hrun
              · next hc43 =>
                split at hrun
                · exact absurd hrun (by simp)
                · refine ih _ _ _ _ _ _ _ _ (ats ++ [[c]])
                    (atoms_concat _ _ hats (Atom.punct c hsp))
                    (by rw [hbuf, flatten_concat_tok])
                    (fun hl => by omega) (fun hl => ?_) hrun
                  subst hc43
                  exact List.getLast?_concat _
              · next hc43 =>
                refine ih _ _ _ _ _ _ _ _ (ats ++ [[c]])
                  (atoms_concat _ _ hats (Atom.punct c hsp))
                  (by rw [hbuf, flatten_concat_tok])
                  (fun hl => ?_) (fun hl => absurd hl hc43) hrun
                subst hl
                exact List.getLast?_concat _
        · dsimp only at hrun
          exact absurd hrun (by simp)
    | stringT =>
      obtain ⟨q, cs1, t1, hremeq, hq, hspan, htext⟩ := lexNext_inv_string rem text rest hlex
      subst htext
      dsimp only at hrun
      rcases hq with rfl | rfl
      · rw [if_neg (by simp), if_pos (by simp)] at hrun
        have hlast : (34 :: t1).getLastD 0 = 34 := by
          have ht1 := strSpanR_last 34 (by omega) cs1.length cs1 t1 rest le_rfl hspan
          have htne := strSpanR_ne_nil 34 (by omega) cs1 t1 rest hspan
          have h2 : (34 :: t1).getLastD 0 = t1.getLastD 0 := getLastD_append_right t1 htne [34] 0
          rw [h2, ht1]
        refine ih _ _ _ _ _ _ _ _ (ats ++ [34 :: t1])
          (atoms_concat _ _ hats
            (Atom.str t1 (strSpanR_sbody cs1.length cs1 t1 rest le_rfl hspan)))
          (by rw [hbuf, flatten_concat_tok])
          (fun hl => ?_) (fun hl => ?_) hrun <;> omega
      · rw [if_pos (by simp)] at hrun
        have hlast : (39 :: t1).getLastD 0 = 39 := by
          have ht1 := strSpanR_last 39 (by omega) cs1.length cs1 t1 rest le_rfl hspan
          have htne := strSpanR_ne_nil 39 (by omega) cs1 t1 rest hspan
          have h2 : (39 :: t1).getLastD 0 = t1.getLastD 0 := getLastD_append_right t1 htne [39] 0
          rw [h2, ht1]
        have hatom : Atom (sqReplace (39 :: t1)) := by
          rw [sqReplace_39]
          exact Atom.sq t1 (strSpanR_sqsrc cs1.length cs1 t1 rest le_rfl hspan)
        refine ih _ _ _ _ _ _ _ _ (ats ++ [sqReplace (39 :: t1)])
          (atoms_concat _ _ hats hatom)
          (by rw [hbuf, flatten_concat_tok])
          (fun hl => ?_) (fun hl => ?_) hrun <;> omega
    | templateT =>
      dsimp only at hrun
      split at hrun
      · exact absurd hrun (by simp)
      · refine ih _ _ _ _ _ _ _ _
          (ats ++ [jsonMarshalStr (tmplReplace ((text.drop 1).dropLast))])
          (atoms_concat _ _ hats (Atom.str _ (jmEsc_sbody _)))
          (by rw [hbuf, flatten_concat_tok, jsonMarshalStr])
          (fun hl => ?_) (fun hl => ?_) hrun <;>
          (rw [jsonMarshalStr_last] at hl; omega)
    | numericT =>
      have hnum := lexNext_inv_num rem _ text rest hlex (Or.inl rfl)
      obtain ⟨hall, hne, hh43, hh45, hnumc, -⟩ := lexNum_fact rem _ text rest hnum
      obtain ⟨hl43x, hl44x⟩ := hnumc rfl
      obtain ⟨hatom, ht43, ht44⟩ := transformNumber_fact text hne hall hh43 hh45 hl43x hl44x
      dsimp only at hrun
      by_cases hl43 : lastB = 43
      · have hsur := flatten_last_single ats 43 (h43 hl43)
        rw [if_pos hl43] at hrun
        refine ih _ _ _ _ _ _ _ _ (ats.dropLast ++ [transformNumber text])
          (atoms_concat _ _ (fun a ha => hats a (List.mem_of_mem_dropLast ha)) hatom)
          ?_ (fun hl => absurd hl ht44) (fun hl => absurd hl ht43) hrun
        rw [hbuf, hsur.2, flatten_concat_tok]
      · rw [if_neg hl43] at hrun
        refine ih _ _ _ _ _ _ _ _ (ats ++ [transformNumber text])
          (atoms_concat _ _ hats hatom)
          ?_ (fun hl => absurd hl ht44) (fun hl => absurd hl ht43) hrun
        rw [hbuf, flatten_concat_tok]
    | bigIntT =>
      have hnum := lexNext_inv_num rem _ text rest hlex (Or.inr rfl)
      obtain ⟨hall, hne, hh43, hh45, -, hbig⟩ := lexNum_fact rem _ text rest hnum
      obtain ⟨hb110, hbne, hbh43, hbh45, hbl43, hbl44⟩ := hbig rfl
      have htrim : trimSuffixN text = text.dropLast := by
        rw [trimSuffixN, if_pos hb110]
      have hdall : ∀ c ∈ text.dropLast, 32 < c ∧ c ≠ 34 ∧ c ≠ 92 :=
        fun c hc => hall c (List.mem_of_mem_dropLast hc)
      obtain ⟨hatom, ht43, ht44⟩ :=
        transformNumber_fact text.dropLast hbne hdall hbh43 hbh45 hbl43 hbl44
      dsimp only at hrun
      rw [htrim] at hrun
      by_cases hl43 : lastB = 43
      · have hsur := flatten_last_single ats 43 (h43 hl43)
        rw [if_pos hl43] at hrun
        refine ih _ _ _ _ _ _ _ _ (ats.dropLast ++ [transformNumber text.dropLast])
          (atoms_concat _ _ (fun a ha => hats a (List.mem_of_mem_dropLast ha)) hatom)
          ?_ (fun hl => absurd hl ht44) (fun hl => absurd hl ht43) hrun
        rw [hbuf, hsur.2, flatten_concat_tok]
      · rw [if_neg hl43] at hrun
        refine ih _ _ _ _ _ _ _ _ (ats ++ [transformNumber text.dropLast])
          (atoms_concat _ _ hats hatom)
          ?_ (fun hl => absurd hl ht44) (fun hl => absurd hl ht43) hrun
        rw [hbuf, flatten_concat_tok]

/-- The output of a successful normalisation is a concatenation of
atoms. -/
theorem rjRun_atoms (l msg : Bytes) (n : Nat) (h : rjRun l = some (msg, n)) :
    ∃ ats : List Bytes, (∀ a ∈ ats, Atom a) ∧ msg = ats.flatten := by
  exact rjAux_atoms (l.length + 1) l [] 0 0 0 0 msg n []
    (by simp) rfl (by simp) (by simp) h

/-- A normaliser output accepted by the JSON validator is whitespace
free: it is also accepted by the compact automaton. -/
theorem rjRun_valid_compact (l msg : Bytes) (n : Nat) (h : rjRun l = some (msg, n))
    (hv : jsonValidB msg = true) : jsonCompactB msg = true := by
  obtain ⟨ats, hats, rfl⟩ := rjRun_atoms l msg n h
  exact atoms_valid_compact ats hats hv

/-- `getLast?` ignores a cons onto a nonempty list. -/
theorem getLast_cons_ne (a : JFrame) (l : List JFrame) (h : l ≠ []) :
    (a :: l).getLast? = l.getLast? := by
  cases l with
  | nil => exact absurd rfl h
  | cons b t => exact List.getLast?_cons_cons

/-- The after-value transition fails on every byte that is neither a
comma nor a closing bracket. -/
theorem jsonAfterVal_none (st : JSt) (c : Nat) (h44 : c ≠ 44) (h125 : c ≠ 125)
    (h93 : c ≠ 93) : jsonAfterVal st c = none := by
  unfold jsonAfterVal
  rcases st.stack with _ | ⟨fr, s⟩
  · rfl
  · cases fr <;> split_ifs <;> simp_all

/-- Step unfolding: value-start mode without whitespace. -/
theorem jsonStep_vStart (stk : List JFrame) (c : Nat) :
    jsonStep false ⟨stk, JMode.vStart⟩ c = jsonValStart ⟨stk, JMode.vStart⟩ c := rfl

/-- Step unfolding: value-or-close mode without whitespace. -/
theorem jsonStep_vStartOrClose (stk : List JFrame) (c : Nat) :
    jsonStep false ⟨stk, JMode.vStartOrClose⟩ c =
      if c = 93 then
        match stk with
        | JFrame.fArr :: s => some ⟨s, JMode.afterVal⟩
        | _ => none
      else jsonValStart ⟨stk, JMode.vStartOrClose⟩ c := rfl

/-- Step unfolding: key-or-close mode without whitespace. -/
theorem jsonStep_kStartOrClose (stk : List JFrame) (c : Nat) :
    jsonStep false ⟨stk, JMode.kStartOrClose⟩ c =
      if c = 34 then some ⟨stk, JMode.inStr true⟩
      else if c = 125 then
        match stk with
        | JFrame.fObj :: s => some ⟨s, JMode.afterVal⟩
        | _ => none
      else none := rfl

/-- Step unfolding: key-start mode without whitespace. -/
theorem jsonStep_kStart (stk : List JFrame) (c : Nat) :
    jsonStep false ⟨stk, JMode.kStart⟩ c =
      if c = 34 then some ⟨stk, JMode.inStr true⟩ else none := rfl

/-- Step unfolding: colon mode without whitespace. -/
theorem jsonStep_colonStart (stk : List JFrame) (c : Nat) :
    jsonStep false ⟨stk, JMode.colonStart⟩ c =
      if c = 58 then some ⟨stk, JMode.vStart⟩ else none := rfl

/-- Step unfolding: after-value mode without whitespace. -/
theorem jsonStep_afterVal (stk : List JFrame) (c : Nat) :
    jsonStep false ⟨stk, JMode.afterVal⟩ c = jsonAfterVal ⟨stk, JMode.afterVal⟩ c := rfl

/-- Step unfolding: after a minus sign. -/
theorem jsonStep_nNeg (stk : List JFrame) (c : Nat) :
    jsonStep false ⟨stk, JMode.nNeg⟩ c =
      if c = 48 then some ⟨stk, JMode.n0⟩
      else if 49 ≤ c && c ≤ 57 then some ⟨stk, JMode.nInt⟩
      else none := rfl

/-- Step unfolding: after a bare zero. -/
theorem jsonStep_n0 (stk : List JFrame) (c : Nat) :
    jsonStep false ⟨stk, JMode.n0⟩ c =
      if c = 46 then some ⟨stk, JMode.nDot⟩
      else if c = 101 || c = 69 then some ⟨stk, JMode.nE⟩
      else jsonAfterVal ⟨stk, JMode.afterVal⟩ c := rfl

/-- Step unfolding: inside the integer part. -/
theorem jsonStep_nInt (stk : List JFrame) (c : Nat) :
    jsonStep false ⟨stk, JMode.nInt⟩ c =
      if isDigitB c then some ⟨stk, JMode.nInt⟩
      else if c = 46 then some ⟨stk, JMode.nDot⟩
      else if c = 101 || c = 69 then some ⟨stk, JMode.nE⟩
      else jsonAfterVal ⟨stk, JMode.afterVal⟩ c := rfl

/-- Step unfolding: after the decimal dot. -/
theorem jsonStep_nDot (stk : List JFrame) (c : Nat) :
    jsonStep false ⟨stk, JMode.nDot⟩ c =
      if isDigitB c then some ⟨stk, JMode.nFrac⟩ else none := rfl

/-- Step unfolding: inside the fraction. -/
theorem jsonStep_nFrac (stk : List JFrame) (c : Nat) :
    jsonStep false ⟨stk, JMode.nFrac⟩ c =
      if isDigitB c then some ⟨stk, JMode.nFrac⟩
      else if c = 101 || c = 69 then some ⟨stk, JMode.nE⟩
      else jsonAfterVal ⟨stk, JMode.afterVal⟩ c := rfl

/-- Step unfolding: after the exponent letter. -/
theorem jsonStep_nE (stk : List JFrame) (c : Nat) :
    jsonStep false ⟨stk, JMode.nE⟩ c =
      if c = 43 || c = 45 then some ⟨stk, JMode.nESign⟩
      else if isDigitB c then some ⟨stk, JMode.nExp⟩
      else none := rfl

/-- Step unfolding: after the exponent sign. -/
theorem jsonStep_nESign (stk : List JFrame) (c : Nat) :
    jsonStep false ⟨stk, JMode.nESign⟩ c =
      if isDigitB c then some ⟨stk, JMode.nExp⟩ else none := rfl

/-- Step unfolding: inside the exponent digits. -/
theorem jsonStep_nExp (stk : List JFrame) (c : Nat) :
    jsonStep false ⟨stk, JMode.nExp⟩ c =
      if isDigitB c then some ⟨stk, JMode.nExp⟩
      else jsonAfterVal ⟨stk, JMode.afterVal⟩ c := rfl

/-- Step unfolding: inside a literal. -/
theorem jsonStep_lit (stk : List JFrame) (tl : Bytes) (c : Nat) :
    jsonStep false ⟨stk, JMode.lit tl⟩ c =
      match tl with
      | [] => none
      | r :: rs =>
        if c = r then
          some ⟨stk, if rs = [] then JMode.afterVal else JMode.lit rs⟩
        else none := rfl

/-- Digits keep the integer, fraction and exponent modes in place. -/
theorem run_digits (m : JMode)
    (hm : m = JMode.nInt ∨ m = JMode.nFrac ∨ m = JMode.nExp) :
    ∀ (ds : Bytes), (∀ d ∈ ds, isDigitB d = true) → ∀ (stk : List JFrame),
    jsonRun false ⟨stk, m⟩ ds = some ⟨stk, m⟩ := by
  intro ds
  induction ds with
  | nil => intro _ stk; rfl
  | cons d dt ih =>
    intro hall stk
    have hd : isDigitB d = true := hall d (by simp)
    have hstep : jsonStep false ⟨stk, m⟩ d = some ⟨stk, m⟩ := by
      rcases hm with rfl | rfl | rfl
      · rw [jsonStep_nInt, if_pos hd]
      · rw [jsonStep_nFrac, if_pos hd]
      · rw [jsonStep_nExp, if_pos hd]
    rw [jsonRun_cons_some false _ d _ dt hstep]
    exact ih (fun x hx => hall x (by simp [hx])) stk

/-- A nonempty digit group after the dot reaches the fraction mode. -/
theorem run_dot_digits (ds : Bytes) (hne : ds ≠ []) (hall : ∀ d ∈ ds, isDigitB d = true)
    (stk : List JFrame) :
    jsonRun false ⟨stk, JMode.nDot⟩ ds = some ⟨stk, JMode.nFrac⟩ := by
  cases ds with
  | nil => exact absurd rfl hne
  | cons d dt =>
    have hd : isDigitB d = true := hall d (by simp)
    rw [jsonRun_cons_some false _ d ⟨stk, JMode.nFrac⟩ dt (by rw [jsonStep_nDot, if_pos hd])]
    exact run_digits JMode.nFrac (Or.inr (Or.inl rfl)) dt
      (fun x hx => hall x (by simp [hx])) stk

/-- A nonempty digit group after the exponent letter reaches the
exponent mode. -/
theorem run_nE_digits (ds : Bytes) (hne : ds ≠ []) (hall : ∀ d ∈ ds, isDigitB d = true)
    (stk : List JFrame) :
    jsonRun false ⟨stk, JMode.nE⟩ ds = some ⟨stk, JMode.nExp⟩ := by
  cases ds with
  | nil => exact absurd rfl hne
  | cons d dt =>
    have hd : isDigitB d = true := hall d (by simp)
    have hd2 : ¬(d = 43 || d = 45) = true := by
      have := isDigitB_ok d hd
      simp only [Bool.or_eq_true, decide_eq_true_eq]
      omega
    rw [jsonRun_cons_some false _ d ⟨stk, JMode.nExp⟩ dt
      (by rw [jsonStep_nE, if_neg hd2, if_pos hd])]
    exact run_digits JMode.nExp (Or.inr (Or.inr rfl)) dt
      (fun x hx => hall x (by simp [hx])) stk

/-- A nonempty digit group after the exponent sign reaches the exponent
mode. -/
theorem run_nESign_digits (ds : Bytes) (hne : ds ≠ []) (hall : ∀ d ∈ ds, isDigitB d = true)
    (stk : List JFrame) :
    jsonRun false ⟨stk, JMode.nESign⟩ ds = some ⟨stk, JMode.nExp⟩ := by
  cases ds with
  | nil => exact absurd rfl hne
  | cons d dt =>
    have hd : isDigitB d = true := hall d (by simp)
    rw [jsonRun_cons_some false _ d ⟨stk, JMode.nExp⟩ dt (by rw [jsonStep_nESign, if_pos hd])]
    exact run_digits JMode.nExp (Or.inr (Or.inr rfl)) dt
      (fun x hx => hall x (by simp [hx])) stk

/-- Nothing can follow a complete value at the top level. -/
theorem afterVal_empty_end (r : Bytes) (fin : JSt)
    (h : jsonRun false ⟨[], JMode.afterVal⟩ r = some fin) : r = [] := by
  cases r with
  | nil => rfl
  | cons c rs =>
    rw [jsonRun_cons_none false _ c rs
      (by rw [jsonStep_afterVal]; unfold jsonAfterVal; rfl)] at h
    exact absurd h (by simp)

/-- `takeWhile`/`dropWhile` over an append whose left part satisfies the
predicate and whose right part starts failing it. -/
theorem takeWhile_pre (p : Nat → Bool) : ∀ (a b : Bytes), (∀ c ∈ a, p c = true) →
    (∀ d, b.head? = some d → p d = false) →
    (a ++ b).takeWhile p = a ∧ (a ++ b).dropWhile p = b := by
  intro a
  induction a with
  | nil =>
    intro b _ hb
    cases b with
    | nil => exact ⟨rfl, rfl⟩
    | cons d b2 =>
      have := hb d rfl
      constructor
      · rw [List.nil_append, List.takeWhile_cons, this]
        rfl
      · rw [List.nil_append, List.dropWhile_cons, this]
        rfl
  | cons c a2 ih =>
    intro b ha hb
    have hc : p c = true := ha c (by simp)
    obtain ⟨h1, h2⟩ := ih b (fun x hx => ha x (by simp [hx])) hb
    constructor
    · rw [List.cons_append, List.takeWhile_cons, hc]
      simp [h1]
    · rw [List.cons_append, List.dropWhile_cons, hc]
      simp [h2]

/-- Span over such an append. -/
theorem span_pre (p : Nat → Bool) (a b : Bytes) (ha : ∀ c ∈ a, p c = true)
    (hb : ∀ d, b.head? = some d → p d = false) : (a ++ b).span p = (a, b) := by
  rw [List.span_eq_take_drop, (takeWhile_pre p a b ha hb).1, (takeWhile_pre p a b ha hb).2]

/-- The string scanner succeeds on every string body the compact
automaton completes: inverse direction of the scanner/automaton
agreement.  The mode is `inStr` or a pending unicode escape. -/
theorem strExit : ∀ (n : Nat) (rs : Bytes) (stk : List JFrame) (k : Bool) (m : JMode)
    (fin : JSt), rs.length ≤ n →
    (m = JMode.inStr k ∨ ∃ j, 1 ≤ j ∧ m = JMode.inStrU k j) →
    jsonRun false ⟨stk, m⟩ rs = some fin → jsonAccept fin = true →
    ∃ t r, strSpanR 34 rs = some (t, r) ∧ rs = t ++ r ∧
      jsonRun false ⟨stk, m⟩ t =
        some ⟨stk, if k then JMode.colonStart else JMode.afterVal⟩ := by
  intro n
  induction n with
  | zero =>
    intro rs stk k m fin hlen hm hrun hacc
    match rs, hlen with
    | [], _ =>
      cases hrun
      rcases hm with rfl | ⟨j, hj, rfl⟩
      · rw [accept_strMode _ (by simp [strMode])] at hacc
        simp at hacc
      · rw [accept_strMode _ (by simp [strMode])] at hacc
        simp at hacc
  | succ n ih =>
    intro rs stk k m fin hlen hm hrun hacc
    match rs with
    | [] =>
      cases hrun
      rcases hm with rfl | ⟨j, hj, rfl⟩
      · rw [accept_strMode _ (by simp [strMode])] at hacc
        simp at hacc
      · rw [accept_strMode _ (by simp [strMode])] at hacc
        simp at hacc
    | c :: rs2 =>
      rcases hm with rfl | ⟨j, hj, rfl⟩
      · -- inside the string proper
        by_cases h34 : c = 34
        · subst h34
          rw [jsonRun_cons_some false _ 34 _ rs2 (jsonStep_inStr_34 false stk k)] at hrun
          refine ⟨[34], rs2, ?_, rfl, ?_⟩
          · rw [strSpanR.eq_def]
            simp
          · rw [jsonRun_cons_some false _ 34 _ [] (jsonStep_inStr_34 false stk k)]
            rfl
        · by_cases h92 : c = 92
          · subst h92
            rw [jsonRun_cons_some false _ 92 _ rs2 (jsonStep_inStr_92 false stk k)] at hrun
            match rs2, hrun with
            | [], hrun =>
              cases hrun
              rw [accept_strMode _ (by simp [strMode])] at hacc
              simp at hacc
            | e :: rs3, hrun =>
              rcases hstep : jsonStep false ⟨stk, JMode.inStrEsc k⟩ e with _ | st2
              · rw [jsonRun_cons_none false _ e rs3 hstep] at hrun
                simp at hrun
              · rw [jsonRun_cons_some false _ e st2 rs3 hstep] at hrun
                have hst2 : st2 = ⟨stk, JMode.inStr k⟩ ∨ st2 = ⟨stk, JMode.inStrU k 4⟩ := by
                  rw [jsonStep_inStrEsc] at hstep
                  split_ifs at hstep with he1 he2
                  · exact Or.inl (by injection hstep with h; exact h.symm)
                  · exact Or.inr (by injection hstep with h; exact h.symm)
                have hmode2 : st2.mode = JMode.inStr k ∨
                    ∃ j, 1 ≤ j ∧ st2.mode = JMode.inStrU k j := by
                  rcases hst2 with rfl | rfl
                  · exact Or.inl rfl
                  · exact Or.inr ⟨4, by omega, rfl⟩
                have hstk2 : st2.stack = stk := by
                  rcases hst2 with rfl | rfl <;> rfl
                have hrun2 : jsonRun false ⟨stk, st2.mode⟩ rs3 = some fin := by
                  rcases hst2 with rfl | rfl <;> exact hrun
                obtain ⟨t, r, hsp, hsplit, hrunt⟩ :=
                  ih rs3 stk k st2.mode fin (by simp at hlen; omega) hmode2 hrun2 hacc
                refine ⟨92 :: e :: t, r, ?_, by rw [hsplit]; rfl, ?_⟩
                · rw [strSpanR.eq_def]
                  dsimp only
                  rw [if_neg (by omega), if_neg (by simp [isLineB]), if_pos rfl, hsp]
                · rw [jsonRun_cons_some false _ 92 _ (e :: t) (jsonStep_inStr_92 false stk k)]
                  rw [jsonRun_cons_some false _ e st2 t hstep]
                  rcases hst2 with rfl | rfl <;> exact hrunt
          · -- ordinary byte
            rcases hstep : jsonStep false ⟨stk, JMode.inStr k⟩ c with _ | st1
            · rw [jsonRun_cons_none false _ c rs2 hstep] at hrun
              simp at hrun
            · have hlt : ¬c < 32 := by
                rw [jsonStep_inStr_other false stk k c h34 h92] at hstep
                intro hc
                rw [if_pos hc] at hstep
                simp at hstep
              have hst1 : st1 = ⟨stk, JMode.inStr k⟩ := by
                rw [jsonStep_inStr_other false stk k c h34 h92, if_neg hlt] at hstep
                injection hstep with h
                exact h.symm
              subst hst1
              rw [jsonRun_cons_some false _ c _ rs2 hstep] at hrun
              obtain ⟨t, r, hsp, hsplit, hrunt⟩ :=
                ih rs2 stk k (JMode.inStr k) fin (by simp at hlen; omega) (Or.inl rfl)
                  hrun hacc
              refine ⟨c :: t, r, ?_, by rw [hsplit]; rfl, ?_⟩
              · rw [strSpanR.eq_def]
                dsimp only
                rw [if_neg h34, if_neg (by simp [isLineB]; omega), if_neg h92, hsp]
              · rw [jsonRun_cons_some false _ c _ t hstep]
                exact hrunt
      · -- inside a unicode escape
        rcases hstep : jsonStep false ⟨stk, JMode.inStrU k j⟩ c with _ | st1
        · rw [jsonRun_cons_none false _ c rs2 hstep] at hrun
          simp at hrun
        · have hhex : isHexB c = true := by
            rw [jsonStep_inStrU] at hstep
            by_contra hc
            rw [if_neg (by simpa using hc)] at hstep
            simp at hstep
          obtain ⟨hgt, h34, h92, -, -⟩ := isHexB_ok c hhex
          have hst1 : st1 = ⟨stk, JMode.inStr k⟩ ∨
              (st1 = ⟨stk, JMode.inStrU k (j - 1)⟩ ∧ 1 ≤ j - 1) := by
            rw [jsonStep_inStrU, if_pos hhex] at hstep
            split_ifs at hstep with hj1
            · exact Or.inl (by injection hstep with h; exact h.symm)
            · exact Or.inr ⟨by injection hstep with h; exact h.symm, by omega⟩
          have hmode1 : st1.mode = JMode.inStr k ∨
              ∃ j2, 1 ≤ j2 ∧ st1.mode = JMode.inStrU k j2 := by
            rcases hst1 with rfl | ⟨rfl, hj2⟩
            · exact Or.inl rfl
            · exact Or.inr ⟨j - 1, hj2, rfl⟩
          have hrun2 : jsonRun false ⟨stk, st1.mode⟩ rs2 = some fin := by
            rcases hst1 with rfl | ⟨rfl, -⟩ <;>
              (rw [jsonRun_cons_some false _ c _ rs2 hstep] at hrun; exact hrun)
          obtain ⟨t, r, hsp, hsplit, hrunt⟩ :=
            ih rs2 stk k st1.mode fin (by simp at hlen; omega) hmode1 hrun2 hacc
          refine ⟨c :: t, r, ?_, by rw [hsplit]; rfl, ?_⟩
          · rw [strSpanR.eq_def]
            dsimp only
            rw [if_neg h34, if_neg (by simp [isLineB]; omega), if_neg h92, hsp]
          · rw [jsonRun_cons_some false _ c st1 t hstep]
            rcases hst1 with rfl | ⟨rfl, -⟩ <;> exact hrunt

/-- Running a literal tail consumes it exactly. -/
theorem lit_run : ∀ (tl : Bytes) (stk : List JFrame), tl ≠ [] →
    jsonRun false ⟨stk, JMode.lit tl⟩ tl = some ⟨stk, JMode.afterVal⟩ := by
  intro tl
  induction tl with
  | nil => intro stk h; exact absurd rfl h
  | cons x t ih =>
    intro stk _
    cases t with
    | nil =>
      rw [jsonRun_cons_some false _ x ⟨stk, JMode.afterVal⟩ []
        (by rw [jsonStep_lit]; simp)]
      rfl
    | cons y t2 =>
      rw [jsonRun_cons_some false _ x ⟨stk, JMode.lit (y :: t2)⟩ (y :: t2)
        (by rw [jsonStep_lit]; simp)]
      exact ih stk (by simp)

/-- An accepting run from inside a literal starts with the literal tail
and continues with a comma or closing bracket (or nothing). -/
theorem litExit : ∀ (tl : Bytes) (rs : Bytes) (stk : List JFrame) (fin : JSt),
    tl ≠ [] →
    jsonRun false ⟨stk, JMode.lit tl⟩ rs = some fin → jsonAccept fin = true →
    ∃ r, rs = tl ++ r ∧ (∀ d, r.head? = some d → d = 44 ∨ d = 125 ∨ d = 93) := by
  intro tl
  induction tl with
  | nil => intro rs stk fin h; exact absurd rfl h
  | cons x t ih =>
    intro rs stk fin _ hrun hacc
    match rs with
    | [] =>
      cases hrun
      simp [jsonAccept, numDone] at hacc
    | c :: rs2 =>
      rcases hstep : jsonStep false ⟨stk, JMode.lit (x :: t)⟩ c with _ | st1
      · rw [jsonRun_cons_none false _ c rs2 hstep] at hrun
        simp at hrun
      · have hstep2 := hstep
        rw [jsonStep_lit] at hstep2
        dsimp only at hstep2
        have hcx : c = x := by
          by_contra hc
          rw [if_neg hc] at hstep2
          simp at hstep2
        subst hcx
        have hst1 : st1 = ⟨stk, if t = [] then JMode.afterVal else JMode.lit t⟩ := by
          rw [if_pos rfl] at hstep2
          injection hstep2 with h
          exact h.symm
        subst hst1
        rw [jsonRun_cons_some false _ c _ rs2 hstep] at hrun
        cases t with
        | nil =>
          simp only [reduceIte] at hrun
          refine ⟨rs2, rfl, ?_⟩
          intro d hd
          match rs2, hd with
          | d :: rs3, hd =>
            injection hd with hd
            subst hd
            rcases hstep2 : jsonStep false ⟨stk, JMode.afterVal⟩ d with _ | st2
            · rw [jsonRun_cons_none false _ d rs3 hstep2] at hrun
              simp at hrun
            · rw [jsonStep_afterVal] at hstep2
              rcases jsonAfterVal_cases _ _ _ hstep2 with ⟨s, -, h⟩ | ⟨s, -, h⟩ <;>
                rcases h with ⟨hc2, -⟩ | ⟨hc2, -⟩ <;> omega
        | cons y t2 =>
          obtain ⟨r, hsplit, hr⟩ := ih rs2 stk fin (by simp) hrun hacc
          exact ⟨r, by rw [hsplit]; rfl, hr⟩

/-- A digit evaluates under `goDigitVal`. -/
theorem goDigitVal_digit (d : Nat) (h : isDigitB d = true) :
    goDigitVal d = some (d - 48) := by
  have := isDigitB_ok d h
  unfold goDigitVal
  rw [if_pos]
  simp only [Bool.and_eq_true, decide_eq_true_eq]
  omega

/-- The digit loop folds decimal digits into the accumulator. -/
theorem goDigitLoop_digits : ∀ (ds : Bytes) (n : Nat) (u : Bool),
    (∀ d ∈ ds, isDigitB d = true) →
    goDigitLoop 10 ds n u = some (ds.foldl (fun a c => 10 * a + (c - 48)) n, u) := by
  intro ds
  induction ds with
  | nil => intro n u _; rfl
  | cons d dt ih =>
    intro n u hall
    have hdig := hall d (by simp)
    have hd := isDigitB_ok d hdig
    rw [goDigitLoop, if_neg (by omega), goDigitVal_digit d hdig]
    dsimp only
    rw [if_pos (by omega), List.foldl_cons]
    exact ih (10 * n + (d - 48)) u (fun x hx => hall x (by simp [hx]))

/-- The base-ten digit loop fails at a dot or exponent letter. -/
theorem goDigitLoop_junk : ∀ (ds : Bytes) (x : Nat) (rest : Bytes) (n : Nat) (u : Bool),
    (∀ d ∈ ds, isDigitB d = true) → (x = 46 ∨ x = 101 ∨ x = 69) →
    goDigitLoop 10 (ds ++ x :: rest) n u = none := by
  intro ds
  induction ds with
  | nil =>
    intro x rest n u _ hx
    rw [List.nil_append, goDigitLoop]
    rcases hx with rfl | rfl | rfl <;> rfl
  | cons d dt ih =>
    intro x rest n u hall hx
    have hdig := hall d (by simp)
    have hd := isDigitB_ok d hdig
    rw [List.cons_append, goDigitLoop, if_neg (by omega), goDigitVal_digit d hdig]
    dsimp only
    rw [if_pos (by omega)]
    exact ih x rest _ u (fun y hy => hall y (by simp [hy])) hx

/-- The digit fold only grows away from zero. -/
theorem digitsVal_ge : ∀ (ds : Bytes) (a : Nat), 1 ≤ a →
    1 ≤ ds.foldl (fun a c => 10 * a + (c - 48)) a := by
  intro ds
  induction ds with
  | nil => intro a h; exact h
  | cons d dt ih =>
    intro a h
    rw [List.foldl_cons]
    exact ih _ (by omega)

/-- The decimal printer ignores extra fuel. -/
theorem natDecAux_fuel : ∀ (f f2 n : Nat) (acc : Bytes), n < f → n < f2 →
    natDecAux f n acc = natDecAux f2 n acc := by
  intro f
  induction f with
  | zero => intro f2 n acc h; omega
  | succ f ih =>
    intro f2 n acc h h2
    match f2, h2 with
    | f3 + 1, h2 =>
      rw [natDecAux, natDecAux]
      split_ifs with h10
      · rfl
      · exact ih f3 (n / 10) _ (by omega) (by omega)

/-- The decimal printer appends to its accumulator. -/
theorem natDecAux_acc : ∀ (f n : Nat) (acc : Bytes), n < f →
    natDecAux f n acc = natDecAux f n [] ++ acc := by
  intro f
  induction f with
  | zero => intro n acc h; omega
  | succ f ih =>
    intro n acc h
    rw [natDecAux, natDecAux]
    split_ifs with h10
    · rfl
    · rw [ih (n / 10) _ (by omega), ih (n / 10) [48 + n % 10] (by omega),
        List.append_assoc]
      rfl

/-- Peeling the least-significant digit off the printer. -/
theorem natDec_split (a b : Nat) (hb : b < 10) (ha : 1 ≤ a) :
    natDec (10 * a + b) = natDec a ++ [48 + b] := by
  unfold natDec
  rw [natDecAux, if_neg (by omega)]
  have h1 : (10 * a + b) / 10 = a := by omega
  have h2 : (10 * a + b) % 10 = b := by omega
  rw [h1, h2, natDecAux_fuel (10 * a + b) (a + 1) a _ (by omega) (by omega),
    natDecAux_acc (a + 1) a _ (by omega)]

/-- Round trip: printing the value of a leading-zero-free digit string
returns the same string. -/
theorem natDec_roundtrip : ∀ (ds : Bytes), (∀ d ∈ ds, isDigitB d = true) → ds ≠ [] →
    (ds.headD 0 ≠ 48 ∨ ds = [48]) →
    natDec (ds.foldl (fun a c => 10 * a + (c - 48)) 0) = ds := by
  intro ds
  induction ds using List.reverseRecOn with
  | nil => intro _ h; exact absurd rfl h
  | append_singleton dt d ih =>
    intro hall hne hlead
    have hdig := hall d (by simp)
    have hd := isDigitB_ok d hdig
    rw [List.foldl_append, List.foldl_cons, List.foldl_nil]
    cases dt with
    | nil =>
      simp only [List.foldl_nil, List.nil_append]
      unfold natDec
      rw [natDecAux, if_pos (by omega)]
      rw [show 10 * 0 + (d - 48) = d - 48 by omega, show 48 + (d - 48) = d by omega]
    | cons d0 dt2 =>
      have hlead2 : (d0 :: dt2 : Bytes).headD 0 ≠ 48 := by
        rcases hlead with h | h
        · rw [headD_append_left _ (by simp) [d]] at h
          exact h
        · exfalso
          have hlen := congrArg List.length h
          simp at hlen
      have hval : 1 ≤ (d0 :: dt2 : Bytes).foldl (fun a c => 10 * a + (c - 48)) 0 := by
        have hd0 := isDigitB_ok d0 (hall d0 (by simp))
        have h48 : d0 ≠ 48 := by simpa using hlead2
        rw [List.foldl_cons]
        exact digitsVal_ge dt2 _ (by omega)
      rw [natDec_split _ _ (by omega) hval,
        ih (fun x hx => hall x (by simp at hx ⊢; tauto)) (by simp) (Or.inl hlead2),
        show 48 + (d - 48) = d by omega]

/-- Evaluation form of `transformNumber` on a sign-free token. -/
theorem transformNumber_eval (c : Nat) (rest : Bytes) (h43 : c ≠ 43) (h45 : c ≠ 45) :
    transformNumber (c :: rest) =
      match parseUintGo (c :: rest) with
      | none => c :: rest
      | some ui => natDec ui := by
  rw [transformNumber.eq_def]
  dsimp only
  rw [if_neg h43, if_neg h45]
  rcases parseUintGo (c :: rest) with _ | ui <;> dsimp only <;> rw [List.nil_append]

/-- The Go integer parser fails on a dot or exponent letter after plain
decimal digits. -/
theorem parseUintGo_junk (D : Bytes) (x : Nat) (rest : Bytes)
    (hD : ∀ d ∈ D, isDigitB d = true) (hDne : D ≠ []) (hh : D.headD 0 ≠ 48)
    (hx : x = 46 ∨ x = 101 ∨ x = 69) :
    parseUintGo (D ++ x :: rest) = none := by
  obtain ⟨c, D2, rfl⟩ := List.exists_cons_of_ne_nil hDne
  rw [List.cons_append, parseUintGo.eq_def]
  dsimp only
  rw [if_neg (by simpa using hh)]
  dsimp only
  rw [← List.cons_append, goDigitLoop_junk (c :: D2) x rest 0 false hD hx]

/-- The Go integer parser fails on a zero followed by a dot or exponent
letter (legacy-octal path with a non-octal continuation). -/
theorem parseUintGo_zero_junk (x : Nat) (rest : Bytes) (hx : x = 46 ∨ x = 101 ∨ x = 69) :
    parseUintGo (48 :: x :: rest) = none := by
  have h46 : lowerB 46 = 46 := rfl
  have h101 : lowerB 101 = 101 := rfl
  have h69 : lowerB 69 = 101 := rfl
  rcases hx with rfl | rfl | rfl <;>
    (rw [parseUintGo.eq_def]
     dsimp only
     rw [if_pos rfl]
     rw [if_neg (by simp [h46, h101, h69]), if_neg (by simp [h46, h101, h69]),
       if_neg (by simp [h46, h101, h69])]
     dsimp only
     rw [goDigitLoop, if_neg (by omega)]
     rfl)

/-- `transformNumber` is the identity on a plain decimal integer token
without a leading zero (or the bare zero). -/
theorem transformNumber_digits (t : Bytes) (hall : ∀ d ∈ t, isDigitB d = true)
    (hne : t ≠ []) (hlead : t.headD 0 ≠ 48 ∨ t = [48]) : transformNumber t = t := by
  obtain ⟨c, rest, rfl⟩ := List.exists_cons_of_ne_nil hne
  have hcd := isDigitB_ok c (hall c (by simp))
  rw [transformNumber_eval c rest (by omega) (by omega)]
  rcases hlead with hlead | heq
  · have hc48 : c ≠ 48 := by simpa using hlead
    have hparse : parseUintGo (c :: rest) =
        if (c :: rest).foldl (fun a c => 10 * a + (c - 48)) 0 < 2 ^ 64
        then some ((c :: rest).foldl (fun a c => 10 * a + (c - 48)) 0) else none := by
      rw [parseUintGo.eq_def]
      dsimp only
      rw [if_neg hc48]
      dsimp only
      rw [goDigitLoop_digits _ 0 false hall]
      dsimp only
      rw [if_neg (by simp)]
    rw [hparse]
    split_ifs with hlt
    · exact natDec_roundtrip (c :: rest) hall (by simp) (Or.inl (by simpa using hlead))
    · rfl
  · rw [heq]
    rfl

/-- `transformNumber` is the identity on a token of decimal digits
followed by a dot or exponent letter (the parse fails). -/
theorem transformNumber_junk (D : Bytes) (x : Nat) (rest : Bytes)
    (hD : ∀ d ∈ D, isDigitB d = true) (hDne : D ≠ [])
    (hlead : D.headD 0 ≠ 48 ∨ D = [48]) (hx : x = 46 ∨ x = 101 ∨ x = 69) :
    transformNumber (D ++ x :: rest) = D ++ x :: rest := by
  obtain ⟨c, D2, rfl⟩ := List.exists_cons_of_ne_nil hDne
  have hcd := isDigitB_ok c (hD c (by simp))
  rw [show ((c :: D2) ++ x :: rest : Bytes) = c :: (D2 ++ x :: rest) from rfl]
  rw [transformNumber_eval c (D2 ++ x :: rest) (by omega) (by omega)]
  rcases hlead with hlead | heq
  · rw [show (c :: (D2 ++ x :: rest) : Bytes) = (c :: D2) ++ x :: rest from rfl,
      parseUintGo_junk (c :: D2) x rest hD (by simp) (by simpa using hlead) hx]
  · have hc : c = 48 ∧ D2 = [] := by
      have h1 : c = 48 := by
        have := congrArg (fun l => List.headD l 0) heq
        simpa using this
      have h2 : D2 = [] := by
        have := congrArg List.length heq
        simp at this
        exact this
      exact ⟨h1, h2⟩
    obtain ⟨rfl, rfl⟩ := hc
    simp only [List.nil_append]
    rw [parseUintGo_zero_junk x rest hx]

/-- The lexer on a colon. -/
theorem lexNext_58 (cs : Bytes) : lexNext (58 :: cs) = (LTok.punctT, [58], cs) := by
  have hp : lexPunct (58 :: cs) = some ([58], cs) :=
    lexPunct_plain 58 cs (fun b b2 => by simp [isPunct3]) (fun b => by simp [isPunct2])
      (by decide)
  simp [lexNext, isLexWs, isLineB, isDigitB, isIdentStart, hp]

/-- The lexer on a comma. -/
theorem lexNext_44 (cs : Bytes) : lexNext (44 :: cs) = (LTok.punctT, [44], cs) := by
  have hp : lexPunct (44 :: cs) = some ([44], cs) :=
    lexPunct_plain 44 cs (fun b b2 => by simp [isPunct3]) (fun b => by simp [isPunct2])
      (by decide)
  simp [lexNext, isLexWs, isLineB, isDigitB, isIdentStart, hp]

/-- The lexer on a closing brace. -/
theorem lexNext_125 (cs : Bytes) : lexNext (125 :: cs) = (LTok.punctT, [125], cs) := by
  have hp : lexPunct (125 :: cs) = some ([125], cs) :=
    lexPunct_plain 125 cs (fun b b2 => by simp [isPunct3]) (fun b => by simp [isPunct2])
      (by decide)
  simp [lexNext, isLexWs, isLineB, isDigitB, isIdentStart, hp]

/-- The lexer on a closing bracket. -/
theorem lexNext_93 (cs : Bytes) : lexNext (93 :: cs) = (LTok.punctT, [93], cs) := by
  have hp : lexPunct (93 :: cs) = some ([93], cs) :=
    lexPunct_plain 93 cs (fun b b2 => by simp [isPunct3]) (fun b => by simp [isPunct2])
      (by decide)
  simp [lexNext, isLexWs, isLineB, isDigitB, isIdentStart, hp]

/-- The lexer on a minus sign followed by a digit. -/
theorem lexNext_45_digit (d : Nat) (rs : Bytes) (hd : isDigitB d = true) :
    lexNext (45 :: d :: rs) = (LTok.punctT, [45], d :: rs) := by
  have hdb := isDigitB_ok d hd
  have hp : lexPunct (45 :: d :: rs) = some ([45], d :: rs) := by
    cases rs with
    | nil =>
      rw [lexPunct]
      rw [if_neg (by simp [isPunct2]; omega), if_pos (by decide)]
    | cons c3 rs2 =>
      rw [lexPunct]
      rw [if_neg (by simp [isPunct3]), if_neg (by simp [isPunct2]; omega),
        if_pos (by decide)]
  simp [lexNext, isLexWs, isLineB, isDigitB, isIdentStart, hp]

/-- The lexer on a double quote whose string body scans. -/
theorem lexNext_34_str (cs t r : Bytes) (hsp : strSpanR 34 cs = some (t, r)) :
    lexNext (34 :: cs) = (LTok.stringT, 34 :: t, r) := by
  simp [lexNext, isLexWs, isLineB, isDigitB, isIdentStart, hsp]

/-- The lexer on a digit start defers to the number lexer. -/
theorem lexNext_num (c : Nat) (cs : Bytes) (k : LTok) (t r : Bytes)
    (h : isDigitB c = true) (hnum : lexNum (c :: cs) = some (k, t, r)) :
    lexNext (c :: cs) = (k, t, r) := by
  have hb := isDigitB_ok c h
  rw [lexNext.eq_def]
  dsimp only
  rw [if_neg (by simp only [isLexWs, Bool.or_eq_true, decide_eq_true_eq]; omega),
    if_neg (by simp only [isLineB, Bool.or_eq_true, decide_eq_true_eq]; omega),
    if_neg (by omega),
    if_neg (by simp only [Bool.or_eq_true, decide_eq_true_eq]; omega),
    if_neg (by omega),
    if_pos (by simp [h]), hnum]

/-- The lexer on an identifier start. -/
theorem lexNext_ident (c : Nat) (cs : Bytes) (h : isIdentStart c = true) :
    lexNext (c :: cs) = (LTok.identT, c :: (cs.span (fun b => isIdentChar b)).1,
      (cs.span (fun b => isIdentChar b)).2) := by
  have hb : ((65 ≤ c ∧ c ≤ 90 ∨ 97 ≤ c ∧ c ≤ 122) ∨ c = 95) ∨ c = 36 := by
    simpa [isIdentStart, Bool.or_eq_true, decide_eq_true_eq, Bool.and_eq_true] using h
  rw [lexNext.eq_def]
  dsimp only
  rw [if_neg (by simp only [isLexWs, Bool.or_eq_true, decide_eq_true_eq]; omega),
    if_neg (by simp only [isLineB, Bool.or_eq_true, decide_eq_true_eq]; omega),
    if_neg (by omega),
    if_neg (by simp only [Bool.or_eq_true, decide_eq_true_eq]; omega),
    if_neg (by omega),
    if_neg (by
      simp only [Bool.or_eq_true, Bool.and_eq_true, decide_eq_true_eq, isDigitB]
      rintro (h1 | ⟨h1, -⟩) <;> omega),
    if_pos h]

/-- The head of `dropWhile` fails the predicate. -/
theorem dropWhile_head_false (p : Nat → Bool) : ∀ (l : Bytes) (d : Nat),
    (l.dropWhile p).head? = some d → p d = false := by
  intro l
  induction l with
  | nil => intro d h; simp at h
  | cons x xs ih =>
    intro d h
    rw [List.dropWhile_cons] at h
    split_ifs at h with hp
    · exact ih d h
    · injection h with h
      subst h
      simpa using hp

/-- The take/drop split of a list along a predicate. -/
theorem takeWhile_dropWhile_split (p : Nat → Bool) (l : Bytes) :
    l = l.takeWhile p ++ l.dropWhile p := (List.takeWhile_append_dropWhile p l).symm

/-- Every element of `takeWhile` satisfies the predicate. -/
theorem takeWhile_all (p : Nat → Bool) (l : Bytes) : ∀ d ∈ l.takeWhile p, p d = true :=
  fun _ hd => List.mem_takeWhile_imp hd

/-- An accepting run from the exponent-letter mode: sign and digits (or
digits alone), ending the token at the first non-digit, exactly as the
lexer's exponent tail scans it. -/
theorem expExit (stk : List JFrame) (e : Nat) (he : e = 101 ∨ e = 69) (R5 : Bytes)
    (fin : JSt) (hrun : jsonRun false ⟨stk, JMode.nE⟩ R5 = some fin)
    (hacc : jsonAccept fin = true) :
    ∃ mid R7, R5 = mid ++ R7 ∧ mid ≠ [] ∧
      isDigitB (mid.getLastD 0) = true ∧
      (∀ d ∈ mid, 32 < d ∧ d ≠ 34 ∧ d ≠ 92) ∧
      jsonRun false ⟨stk, JMode.nE⟩ mid = some ⟨stk, JMode.nExp⟩ ∧
      jsonRun false ⟨stk, JMode.nExp⟩ R7 = some fin ∧
      (∀ d, R7.head? = some d → isDigitB d = false) ∧
      (∀ pre, expTail pre (e :: R5) = some (LTok.numericT, pre ++ e :: mid, R7)) := by
  match R5 with
  | [] =>
    cases hrun
    simp [jsonAccept, numDone] at hacc
  | y :: R6 =>
    rcases hstep : jsonStep false ⟨stk, JMode.nE⟩ y with _ | st2
    · rw [jsonRun_cons_none false _ y R6 hstep] at hrun
      simp at hrun
    · rw [jsonRun_cons_some false _ y st2 R6 hstep] at hrun
      rw [jsonStep_nE] at hstep
      by_cases hsgn : (y = 43 || y = 45) = true
      · -- signed exponent
        rw [if_pos hsgn] at hstep
        injection hstep with hstep
        subst hstep
        match R6, hrun with
        | [], hrun =>
          cases hrun
          simp [jsonAccept, numDone] at hacc
        | z :: R7x, hrun =>
          rcases hstepz : jsonStep false ⟨stk, JMode.nESign⟩ z with _ | st3
          · rw [jsonRun_cons_none false _ z R7x hstepz] at hrun
            simp at hrun
          · have hz : isDigitB z = true := by
              rw [jsonStep_nESign] at hstepz
              by_contra hc
              rw [if_neg (by simpa using hc)] at hstepz
              simp at hstepz
            have hsplit := takeWhile_dropWhile_split (fun b => isDigitB b) (z :: R7x)
            have hD3ne : (z :: R7x).takeWhile (fun b => isDigitB b) ≠ [] := by
              rw [List.takeWhile_cons, hz]
              simp
            have hD3 := takeWhile_all (fun b => isDigitB b) (z :: R7x)
            have hR7h := dropWhile_head_false (fun b => isDigitB b) (z :: R7x)
            refine ⟨y :: (z :: R7x).takeWhile (fun b => isDigitB b),
              (z :: R7x).dropWhile (fun b => isDigitB b), ?_, by simp, ?_, ?_, ?_, ?_,
              hR7h, ?_⟩
            · conv_lhs => rw [hsplit]
              rfl
            · have h1 : (y :: (z :: R7x).takeWhile (fun b => isDigitB b)).getLastD 0 =
                  ((z :: R7x).takeWhile (fun b => isDigitB b)).getLastD 0 :=
                getLastD_append_right _ hD3ne [y] 0
              rw [h1]
              exact hD3 _ (getLastD_mem _ hD3ne)
            · intro d hd
              rcases List.mem_cons.mp hd with rfl | hd
              · simp only [Bool.or_eq_true, decide_eq_true_eq] at hsgn
                rcases hsgn with rfl | rfl <;> omega
              · have := isDigitB_ok d (hD3 d hd)
                omega
            · rw [jsonRun_cons_some false _ y ⟨stk, JMode.nESign⟩ _
                (by rw [jsonStep_nE, if_pos hsgn])]
              exact run_nESign_digits _ hD3ne hD3 stk
            · rw [show (z :: R7x : Bytes) = (z :: R7x).takeWhile (fun b => isDigitB b) ++
                  (z :: R7x).dropWhile (fun b => isDigitB b) from hsplit] at hrun
              rw [jsonRun_append] at hrun
              rw [run_nESign_digits _ hD3ne hD3 stk] at hrun
              exact hrun
            · intro pre
              rw [expTail.eq_def]
              dsimp only
              rw [if_pos (by rcases he with rfl | rfl <;> simp), if_pos hsgn,
                List.span_eq_take_drop]
              dsimp only
              rw [if_neg hD3ne]
      · -- unsigned exponent: the next byte must be a digit
        rw [if_neg hsgn] at hstep
        have hy : isDigitB y = true := by
          by_contra hc
          rw [if_neg (by simpa using hc)] at hstep
          simp at hstep
        rw [if_pos hy] at hstep
        injection hstep with hstep
        subst hstep
        have hsplit := takeWhile_dropWhile_split (fun b => isDigitB b) (y :: R6)
        have hD3ne : (y :: R6).takeWhile (fun b => isDigitB b) ≠ [] := by
          rw [List.takeWhile_cons, hy]
          simp
        have hD3 := takeWhile_all (fun b => isDigitB b) (y :: R6)
        have hR7h := dropWhile_head_false (fun b => isDigitB b) (y :: R6)
        have htk : (y :: R6).takeWhile (fun b => isDigitB b) =
            y :: R6.takeWhile (fun b => isDigitB b) := by
          rw [List.takeWhile_cons]
          simp [hy]
        have hdr : (y :: R6).dropWhile (fun b => isDigitB b) =
            R6.dropWhile (fun b => isDigitB b) := by
          rw [List.dropWhile_cons]
          simp [hy]
        refine ⟨(y :: R6).takeWhile (fun b => isDigitB b),
          (y :: R6).dropWhile (fun b => isDigitB b), ?_, hD3ne, ?_, ?_, ?_, ?_, hR7h, ?_⟩
        · conv_lhs => rw [hsplit]
        · exact hD3 _ (getLastD_mem _ hD3ne)
        · intro d hd
          have := isDigitB_ok d (hD3 d hd)
          omega
        · exact run_nE_digits _ hD3ne hD3 stk
        · rw [hdr]
          rw [show R6 = R6.takeWhile (fun b => isDigitB b) ++
              R6.dropWhile (fun b => isDigitB b) from
            (List.takeWhile_append_dropWhile _ _).symm] at hrun
          rw [jsonRun_append] at hrun
          rw [run_digits JMode.nExp (Or.inr (Or.inr rfl)) _
            (fun d hd => hD3 d (by rw [htk]; exact List.mem_cons_of_mem y hd)) stk] at hrun
          exact hrun
        · intro pre
          rw [expTail.eq_def]
          dsimp only
          rw [if_pos (by rcases he with rfl | rfl <;> simp), if_neg hsgn,
            List.span_eq_take_drop]
          dsimp only
          rw [if_neg hD3ne]

set_option maxHeartbeats 1000000 in
/-- An accepting run continuing a number after its integer part: the
input extends the number through an optional fraction and exponent and
then delimits it, exactly as the decimal-number lexer scans it. -/
theorem numTail (stk : List JFrame) (m1 : JMode) (hm1 : m1 = JMode.n0 ∨ m1 = JMode.nInt)
    (R : Bytes) (fin : JSt)
    (hRh : ∀ d, R.head? = some d → isDigitB d = false)
    (hrun : jsonRun false ⟨stk, m1⟩ R = some fin) (hacc : jsonAccept fin = true) :
    ∃ ext r mEnd,
      R = ext ++ r ∧
      jsonRun false ⟨stk, m1⟩ ext = some ⟨stk, mEnd⟩ ∧
      jsonRun false ⟨stk, mEnd⟩ r = some fin ∧
      (mEnd = m1 ∨ mEnd = JMode.nFrac ∨ mEnd = JMode.nExp) ∧
      (ext = [] ∨ isDigitB (ext.getLastD 0) = true) ∧
      (∀ d ∈ ext, 32 < d ∧ d ≠ 34 ∧ d ≠ 92) ∧
      (ext = [] ∨ (∃ tail, ext = 46 :: tail) ∨
        (∃ e tail, (e = 101 ∨ e = 69) ∧ ext = e :: tail)) ∧
      ((mEnd = JMode.n0 ∨ mEnd = JMode.nInt) →
        ∀ d, r.head? = some d → isDigitB d = false ∧ d ≠ 46 ∧ d ≠ 101 ∧ d ≠ 69) ∧
      (mEnd = JMode.nFrac →
        ∀ d, r.head? = some d → isDigitB d = false ∧ d ≠ 101 ∧ d ≠ 69) ∧
      (mEnd = JMode.nExp → ∀ d, r.head? = some d → isDigitB d = false) ∧
      (∀ P, P ≠ [] → (∀ d ∈ P, isDigitB d = true) →
        decNum (P ++ R) = some (LTok.numericT, P ++ ext, r)) := by
  match R with
  | [] =>
    cases hrun
    refine ⟨[], [], m1, rfl, rfl, rfl, Or.inl rfl, Or.inl rfl, by simp,
      Or.inl rfl, fun _ d hd => by simp at hd, fun _ d hd => by simp at hd,
      fun _ d hd => by simp at hd, ?_⟩
    intro P hPne hP
    rw [decNum.eq_def]
    dsimp only
    rw [span_pre (fun b => isDigitB b) P [] hP (fun d hd => by simp at hd)]
    dsimp only
    rw [if_neg hPne, List.append_nil]
  | x :: R2 =>
    have hx : isDigitB x = false := hRh x rfl
    rcases hstep : jsonStep false ⟨stk, m1⟩ x with _ | st2
    · rw [jsonRun_cons_none false _ x R2 hstep] at hrun
      simp at hrun
    · rw [jsonRun_cons_some false _ x st2 R2 hstep] at hrun
      have hstep2 : (if x = 46 then some (⟨stk, JMode.nDot⟩ : JSt)
          else if x = 101 || x = 69 then some ⟨stk, JMode.nE⟩
          else jsonAfterVal ⟨stk, JMode.afterVal⟩ x) = some st2 := by
        rcases hm1 with rfl | rfl
        · rw [← hstep]
          rfl
        · rw [← hstep, jsonStep_nInt,
            if_neg (show ¬isDigitB x = true by simp [hx])]
      by_cases hx46 : x = 46
      · -- fraction
        subst hx46
        rw [if_pos rfl] at hstep2
        injection hstep2 with hstep2
        subst hstep2
        match R2, hrun with
        | [], hrun =>
          cases hrun
          simp [jsonAccept, numDone] at hacc
        | y :: R3, hrun =>
          rcases hstepy : jsonStep false ⟨stk, JMode.nDot⟩ y with _ | st3
          · rw [jsonRun_cons_none false _ y R3 hstepy] at hrun
            simp at hrun
          · have hy : isDigitB y = true := by
              rw [jsonStep_nDot] at hstepy
              by_contra hc
              rw [if_neg (by simpa using hc)] at hstepy
              simp at hstepy
            have hsplit2 := takeWhile_dropWhile_split (fun b => isDigitB b) (y :: R3)
            have hD2ne : (y :: R3).takeWhile (fun b => isDigitB b) ≠ [] := by
              rw [List.takeWhile_cons, hy]
              simp
            have hD2 := takeWhile_all (fun b => isDigitB b) (y :: R3)
            have hR4h := dropWhile_head_false (fun b => isDigitB b) (y :: R3)
            have hrunD2 : jsonRun false ⟨stk, JMode.nDot⟩
                ((y :: R3).takeWhile (fun b => isDigitB b)) = some ⟨stk, JMode.nFrac⟩ :=
              run_dot_digits _ hD2ne hD2 stk
            have hrunR4 : jsonRun false ⟨stk, JMode.nFrac⟩
                ((y :: R3).dropWhile (fun b => isDigitB b)) = some fin := by
              rw [show (y :: R3 : Bytes) = (y :: R3).takeWhile (fun b => isDigitB b) ++
                  (y :: R3).dropWhile (fun b => isDigitB b) from hsplit2] at hrun
              rw [jsonRun_append, hrunD2] at hrun
              exact hrun
            have hstep46 : jsonStep false ⟨stk, m1⟩ 46 = some ⟨stk, JMode.nDot⟩ := by
              rcases hm1 with rfl | rfl
              · rw [jsonStep_n0, if_pos rfl]
              · rw [jsonStep_nInt, if_neg (by simp [hx]), if_pos rfl]
            rcases hR4 : (y :: R3).dropWhile (fun b => isDigitB b) with _ | ⟨w, R5⟩
            · -- number ends with the fraction at end of input
              rw [hR4] at hrunR4
              refine ⟨46 :: (y :: R3).takeWhile (fun b => isDigitB b), [], JMode.nFrac,
                ?_, ?_, hrunR4, Or.inr (Or.inl rfl), ?_, ?_,
                Or.inr (Or.inl ⟨_, rfl⟩), fun hme => by rcases hme with hme | hme <;> simp at hme,
                fun _ d hd => by simp at hd, fun hme => by simp at hme, ?_⟩
              · conv_lhs => rw [hsplit2]
                rw [hR4, List.append_nil, List.append_nil]
              · rw [jsonRun_cons_some false _ 46 _ _ hstep46]
                exact hrunD2
              · refine Or.inr ?_
                have h1 : (46 :: (y :: R3).takeWhile (fun b => isDigitB b)).getLastD 0 =
                    ((y :: R3).takeWhile (fun b => isDigitB b)).getLastD 0 :=
                  getLastD_append_right _ hD2ne [46] 0
                rw [h1]
                exact hD2 _ (getLastD_mem _ hD2ne)
              · intro d hd
                rcases List.mem_cons.mp hd with rfl | hd
                · omega
                · have := isDigitB_ok d (hD2 d hd)
                  omega
              · intro P hPne hP
                rw [decNum.eq_def]
                dsimp only
                rw [span_pre (fun b => isDigitB b) P (46 :: y :: R3) hP
                  (fun d hd => by injection hd with hd; subst hd; simp [isDigitB])]
                dsimp only
                rw [if_pos rfl]
                rw [List.span_eq_take_drop]
                dsimp only
                rw [if_neg (by simp [hPne]), hR4]
                rfl
            · -- a byte follows the fraction digits
              have hw : isDigitB w = false := hR4h w (by rw [hR4]; rfl)
              rw [hR4] at hrunR4
              by_cases hwe : (w = 101 || w = 69) = true
              · -- exponent after the fraction
                have hstepw : jsonStep false ⟨stk, JMode.nFrac⟩ w =
                    some ⟨stk, JMode.nE⟩ := by
                  rw [jsonStep_nFrac, if_neg (by simp [hw]), if_pos hwe]
                rw [jsonRun_cons_some false _ w _ R5 hstepw] at hrunR4
                obtain ⟨mid, R7, hsplit5, hmidne, hmidlast, hmidall, hrunmid, hrunR7,
                  hR7h, hexpT⟩ := expExit stk w (by
                    simpa [Bool.or_eq_true, decide_eq_true_eq] using hwe) R5 fin
                    hrunR4 hacc
                refine ⟨46 :: (y :: R3).takeWhile (fun b => isDigitB b) ++ w :: mid, R7,
                  JMode.nExp, ?_, ?_, hrunR7, Or.inr (Or.inr rfl), ?_, ?_,
                  Or.inr (Or.inl ⟨_, rfl⟩), fun hme => by rcases hme with hme | hme <;> simp at hme,
                  fun hme => by simp at hme, fun _ => hR7h, ?_⟩
                · conv_lhs => rw [hsplit2, hR4, hsplit5]
                  simp
                · rw [show ((46 :: (y :: R3).takeWhile (fun b => isDigitB b)) ++ w :: mid :
                      Bytes) = 46 :: ((y :: R3).takeWhile (fun b => isDigitB b) ++ w :: mid)
                    by simp]
                  rw [jsonRun_cons_some false _ 46 _ _ hstep46]
                  rw [jsonRun_append, hrunD2]
                  dsimp only
                  rw [jsonRun_cons_some false _ w _ mid hstepw]
                  exact hrunmid
                · refine Or.inr ?_
                  have h1 : ((46 :: (y :: R3).takeWhile (fun b => isDigitB b)) ++
                      w :: mid).getLastD 0 = (w :: mid).getLastD 0 :=
                    getLastD_append_right _ (by simp) _ 0
                  have h2 : (w :: mid).getLastD 0 = mid.getLastD 0 :=
                    getLastD_append_right _ hmidne [w] 0
                  rw [show (46 :: (y :: R3).takeWhile (fun b => isDigitB b) ++ w :: mid :
                      Bytes) = (46 :: (y :: R3).takeWhile (fun b => isDigitB b)) ++
                      w :: mid from rfl, h1, h2]
                  exact hmidlast
                · intro d hd
                  rw [show (46 :: (y :: R3).takeWhile (fun b => isDigitB b) ++ w :: mid :
                      Bytes) = (46 :: (y :: R3).takeWhile (fun b => isDigitB b)) ++
                      w :: mid from rfl] at hd
                  rcases List.mem_append.mp hd with hd | hd
                  · rcases List.mem_cons.mp hd with rfl | hd
                    · omega
                    · have := isDigitB_ok d (hD2 d hd)
                      omega
                  · rcases List.mem_cons.mp hd with rfl | hd
                    · simp only [Bool.or_eq_true, decide_eq_true_eq] at hwe
                      rcases hwe with rfl | rfl <;> omega
                    · exact hmidall d hd
                · intro P hPne hP
                  rw [decNum.eq_def]
                  dsimp only
                  rw [span_pre (fun b => isDigitB b) P (46 :: y :: R3) hP
                    (fun d hd => by injection hd with hd; subst hd; simp [isDigitB])]
                  dsimp only
                  rw [if_pos rfl]
                  rw [List.span_eq_take_drop]
                  dsimp only
                  rw [if_neg (by simp [hPne]), hR4, hexpT]
                  simp
              · -- delimiter after the fraction
                refine ⟨46 :: (y :: R3).takeWhile (fun b => isDigitB b), w :: R5,
                  JMode.nFrac, ?_, ?_, hrunR4, Or.inr (Or.inl rfl), ?_, ?_,
                  Or.inr (Or.inl ⟨_, rfl⟩), fun hme => by rcases hme with hme | hme <;> simp at hme,
                  ?_, fun hme => by simp at hme, ?_⟩
                · conv_lhs => rw [hsplit2, hR4]
                  rfl
                · rw [jsonRun_cons_some false _ 46 _ _ hstep46]
                  exact hrunD2
                · refine Or.inr ?_
                  have h1 : (46 :: (y :: R3).takeWhile (fun b => isDigitB b)).getLastD 0 =
                      ((y :: R3).takeWhile (fun b => isDigitB b)).getLastD 0 :=
                    getLastD_append_right _ hD2ne [46] 0
                  rw [h1]
                  exact hD2 _ (getLastD_mem _ hD2ne)
                · intro d hd
                  rcases List.mem_cons.mp hd with rfl | hd
                  · omega
                  · have := isDigitB_ok d (hD2 d hd)
                    omega
                · intro _ d hd
                  injection hd with hd
                  subst hd
                  simp only [Bool.or_eq_true, decide_eq_true_eq] at hwe
                  exact ⟨hw, by omega, by omega⟩
                · intro P hPne hP
                  rw [decNum.eq_def]
                  dsimp only
                  rw [span_pre (fun b => isDigitB b) P (46 :: y :: R3) hP
                    (fun d hd => by injection hd with hd; subst hd; simp [isDigitB])]
                  dsimp only
                  rw [if_pos rfl]
                  rw [List.span_eq_take_drop]
                  dsimp only
                  rw [if_neg (by simp [hPne]), hR4]
                  rw [expTail.eq_def]
                  dsimp only
                  rw [if_neg hwe]
      · by_cases hxe : (x = 101 || x = 69) = true
        · -- exponent directly after the integer part
          rw [if_neg hx46, if_pos hxe] at hstep2
          injection hstep2 with hstep2
          subst hstep2
          obtain ⟨mid, R7, hsplit5, hmidne, hmidlast, hmidall, hrunmid, hrunR7, hR7h,
            hexpT⟩ := expExit stk x (by
              simpa [Bool.or_eq_true, decide_eq_true_eq] using hxe) R2 fin hrun hacc
          refine ⟨x :: mid, R7, JMode.nExp, ?_, ?_, hrunR7, Or.inr (Or.inr rfl), ?_, ?_,
            Or.inr (Or.inr ⟨x, mid, by
              simpa [Bool.or_eq_true, decide_eq_true_eq] using hxe, rfl⟩),
            fun hme => by rcases hme with hme | hme <;> simp at hme, fun hme => by simp at hme,
            fun _ => hR7h, ?_⟩
          · rw [hsplit5]
            rfl
          · rw [jsonRun_cons_some false _ x ⟨stk, JMode.nE⟩ mid hstep]
            exact hrunmid
          · refine Or.inr ?_
            have h2 : (x :: mid).getLastD 0 = mid.getLastD 0 :=
              getLastD_append_right _ hmidne [x] 0
            rw [h2]
            exact hmidlast
          · intro d hd
            rcases List.mem_cons.mp hd with rfl | hd
            · simp only [Bool.or_eq_true, decide_eq_true_eq] at hxe
              rcases hxe with rfl | rfl <;> omega
            · exact hmidall d hd
          · intro P hPne hP
            rw [decNum.eq_def]
            dsimp only
            rw [span_pre (fun b => isDigitB b) P (x :: R2) hP
              (fun d hd => by injection hd with hd; subst hd; exact hx)]
            dsimp only
            rw [if_neg hx46, if_neg (by
                simp only [Bool.or_eq_true, decide_eq_true_eq] at hxe
                rcases hxe with rfl | rfl <;> omega),
              if_neg hPne, if_pos hxe, hexpT]
        · -- delimiter right after the integer part
          rw [if_neg hx46, if_neg hxe] at hstep2
          have hx110 : x ≠ 110 := by
            intro hc
            subst hc
            rw [jsonAfterVal_none _ _ (by omega) (by omega) (by omega)] at hstep2
            simp at hstep2
          refine ⟨[], x :: R2, m1, rfl, rfl, ?_, Or.inl rfl, Or.inl rfl, by simp,
            Or.inl rfl, ?_, ?_, ?_, ?_⟩
          · rw [jsonRun_cons_some false _ x st2 R2 hstep]
            exact hrun
          · intro _ d hd
            injection hd with hd
            subst hd
            simp only [Bool.or_eq_true, decide_eq_true_eq] at hxe
            exact ⟨hx, hx46, by omega, by omega⟩
          · intro hme
            subst hme
            intro d hd
            injection hd with hd
            subst hd
            simp only [Bool.or_eq_true, decide_eq_true_eq] at hxe
            exact ⟨hx, by omega, by omega⟩
          · intro hme
            subst hme
            intro d hd
            injection hd with hd
            subst hd
            exact hx
          · intro P hPne hP
            rw [decNum.eq_def]
            dsimp only
            rw [span_pre (fun b => isDigitB b) P (x :: R2) hP
              (fun d hd => by injection hd with hd; subst hd; exact hx)]
            dsimp only
            rw [if_neg hx46, if_neg hx110, if_neg hPne, if_neg hxe, List.append_nil]

/-- The number lexer defers to the decimal scanner when the head is not
a zero. -/
theorem lexNum_ne48 (c : Nat) (cs : Bytes) (hc : c ≠ 48) :
    lexNum (c :: cs) = decNum (c :: cs) := by
  match cs with
  | [] =>
    rw [lexNum.eq_def]
  | x :: R2 =>
    rw [lexNum.eq_def]
    dsimp only
    rw [if_neg hc]

/-- The number lexer defers to the decimal scanner after a zero whose
next byte is no base prefix and no digit. -/
theorem lexNum_48 (x : Nat) (R2 : Bytes) (h120 : lowerB x ≠ 120) (h111 : lowerB x ≠ 111)
    (h98 : lowerB x ≠ 98) (hxd : isDigitB x = false) :
    lexNum (48 :: x :: R2) = decNum (48 :: x :: R2) := by
  rw [lexNum.eq_def]
  dsimp only
  rw [if_pos rfl, if_neg h120, if_neg h111, if_neg h98,
    if_neg (show ¬isDigitB x = true by simp [hxd])]

/-- The step out of the bare-zero mode only accepts number
continuations and delimiters. -/
theorem n0_step_chars (stk : List JFrame) (x : Nat) (st2 : JSt)
    (h : jsonStep false ⟨stk, JMode.n0⟩ x = some st2) :
    x = 46 ∨ x = 101 ∨ x = 69 ∨ x = 44 ∨ x = 125 ∨ x = 93 := by
  rw [jsonStep_n0] at h
  split_ifs at h with h46 he
  · exact Or.inl h46
  · simp only [Bool.or_eq_true, decide_eq_true_eq] at he
    rcases he with he | he
    · exact Or.inr (Or.inl he)
    · exact Or.inr (Or.inr (Or.inl he))
  · rcases jsonAfterVal_cases _ _ _ h with ⟨s, -, hcs⟩ | ⟨s, -, hcs⟩ <;>
      rcases hcs with ⟨hc2, -⟩ | ⟨hc2, -⟩ <;> omega

set_option maxHeartbeats 1000000 in
/-- An accepting compact run after the first digit of a number: the
number lexer scans exactly the number the automaton accepts, the
transform leaves it unchanged, and it ends in a digit at a maximal
boundary. -/
theorem numExit (stk : List JFrame) (c : Nat) (rs : Bytes) (fin : JSt)
    (hc : isDigitB c = true)
    (hrun : jsonRun false ⟨stk, if c = 48 then JMode.n0 else JMode.nInt⟩ rs = some fin)
    (hacc : jsonAccept fin = true) :
    ∃ tz r mEnd,
      lexNum (c :: rs) = some (LTok.numericT, c :: tz, r) ∧
      rs = tz ++ r ∧
      transformNumber (c :: tz) = c :: tz ∧
      isDigitB ((c :: tz).getLastD 0) = true ∧
      jsonRun false ⟨stk, if c = 48 then JMode.n0 else JMode.nInt⟩ tz =
        some ⟨stk, mEnd⟩ ∧
      jsonRun false ⟨stk, mEnd⟩ r = some fin ∧
      bMode mEnd = true ∧
      ((mEnd = JMode.n0 ∨ mEnd = JMode.nInt) →
        ∀ d, r.head? = some d → isDigitB d = false ∧ d ≠ 46 ∧ d ≠ 101 ∧ d ≠ 69) ∧
      (mEnd = JMode.nFrac →
        ∀ d, r.head? = some d → isDigitB d = false ∧ d ≠ 101 ∧ d ≠ 69) ∧
      (mEnd = JMode.nExp → ∀ d, r.head? = some d → isDigitB d = false) := by
  have hcd := isDigitB_ok c hc
  by_cases hc48 : c = 48
  · -- bare zero
    subst hc48
    rw [if_pos rfl] at hrun
    have hRh : ∀ d, rs.head? = some d → isDigitB d = false := by
      intro d hd
      match rs, hd with
      | x :: R2, hd =>
        injection hd with hd
        subst hd
        rcases hstep : jsonStep false ⟨stk, JMode.n0⟩ x with _ | st2
        · rw [jsonRun_cons_none false _ x R2 hstep] at hrun
          simp at hrun
        · rcases n0_step_chars stk x st2 hstep with h | h | h | h | h | h <;>
            (subst h; rfl)
    obtain ⟨ext, r, mEnd, hsplit, hrunext, hrunr, hmE, hextlast, hextall, hextshape,
      hcl1, hcl2, hcl3, hdecP⟩ := numTail stk JMode.n0 (Or.inl rfl) rs fin hRh hrun hacc
    have hlex : lexNum (48 :: rs) = decNum (48 :: rs) := by
      match rs with
      | [] => rw [lexNum.eq_def]
      | x :: R2 =>
        have hxd : isDigitB x = false := hRh x rfl
        have hxc : x = 46 ∨ x = 101 ∨ x = 69 ∨ x = 44 ∨ x = 125 ∨ x = 93 := by
          rcases hstep : jsonStep false ⟨stk, JMode.n0⟩ x with _ | st2
          · rw [jsonRun_cons_none false _ x R2 hstep] at hrun
            simp at hrun
          · exact n0_step_chars stk x st2 hstep
        refine lexNum_48 x R2 ?_ ?_ ?_ hxd <;>
          (rcases hxc with rfl | rfl | rfl | rfl | rfl | rfl <;> decide)
    refine ⟨ext, r, mEnd, ?_, hsplit, ?_, ?_, ?_, hrunr, ?_, hcl1, hcl2, hcl3⟩
    · rw [hlex, show (48 :: rs : Bytes) = [48] ++ rs from rfl,
        hdecP [48] (by simp) (by intro d hd; simp at hd; subst hd; exact hc)]
      rfl
    · -- transformNumber identity
      rcases hextshape with rfl | ⟨tail, rfl⟩ | ⟨e, tail, he, rfl⟩
      · exact transformNumber_digits [48] (fun d hd => by simp at hd; subst hd; exact hc)
          (by simp) (Or.inr rfl)
      · rw [show (48 :: (46 :: tail) : Bytes) = [48] ++ 46 :: tail from rfl]
        exact transformNumber_junk [48] 46 tail
          (fun d hd => by simp at hd; subst hd; exact hc) (by simp) (Or.inr rfl)
          (Or.inl rfl)
      · rw [show (48 :: (e :: tail) : Bytes) = [48] ++ e :: tail from rfl]
        exact transformNumber_junk [48] e tail
          (fun d hd => by simp at hd; subst hd; exact hc) (by simp) (Or.inr rfl)
          (Or.inr he)
    · -- last byte is a digit
      rcases hextlast with rfl | hlast
      · exact hc
      · rcases hextshape with rfl | ⟨tail, hext⟩ | ⟨e, tail, he, hext⟩
        · exact hc
        · rw [show (48 :: ext : Bytes) = [48] ++ ext from rfl,
            getLastD_append_right ext (by rw [hext]; simp) [48] 0]
          exact hlast
        · rw [show (48 :: ext : Bytes) = [48] ++ ext from rfl,
            getLastD_append_right ext (by rw [hext]; simp) [48] 0]
          exact hlast
    · rw [if_pos rfl]
      exact hrunext
    · rcases hmE with rfl | rfl | rfl <;> rfl
  · -- nonzero leading digit
    rw [if_neg hc48] at hrun
    have hsplitD := takeWhile_dropWhile_split (fun b => isDigitB b) rs
    have hD := takeWhile_all (fun b => isDigitB b) rs
    have hRh := dropWhile_head_false (fun b => isDigitB b) rs
    have hrunR : jsonRun false ⟨stk, JMode.nInt⟩ (rs.dropWhile (fun b => isDigitB b)) =
        some fin := by
      rw [show rs = rs.takeWhile (fun b => isDigitB b) ++
          rs.dropWhile (fun b => isDigitB b) from hsplitD] at hrun
      rw [jsonRun_append, run_digits JMode.nInt (Or.inl rfl) _ hD stk] at hrun
      exact hrun
    obtain ⟨ext, r, mEnd, hsplit, hrunext, hrunr, hmE, hextlast, hextall, hextshape,
      hcl1, hcl2, hcl3, hdecP⟩ := numTail stk JMode.nInt (Or.inr rfl)
        (rs.dropWhile (fun b => isDigitB b)) fin hRh hrunR hacc
    have hPall : ∀ d ∈ c :: rs.takeWhile (fun b => isDigitB b), isDigitB d = true := by
      intro d hd
      rcases List.mem_cons.mp hd with rfl | hd
      · exact hc
      · exact hD d hd
    have hcons : (c :: rs : Bytes) = (c :: rs.takeWhile (fun b => isDigitB b)) ++
        rs.dropWhile (fun b => isDigitB b) := by
      conv_lhs => rw [hsplitD]
      rfl
    refine ⟨rs.takeWhile (fun b => isDigitB b) ++ ext, r, mEnd, ?_, ?_, ?_, ?_, ?_,
      hrunr, ?_, hcl1, hcl2, hcl3⟩
    · rw [lexNum_ne48 c rs hc48, hcons,
        hdecP (c :: rs.takeWhile (fun b => isDigitB b)) (by simp) hPall]
      rfl
    · rw [hsplit] at hsplitD
      conv_lhs => rw [hsplitD]
      rw [List.append_assoc]
    · -- transformNumber identity
      rcases hextshape with rfl | ⟨tail, rfl⟩ | ⟨e, tail, he, rfl⟩
      · rw [List.append_nil]
        exact transformNumber_digits _ hPall (by simp) (Or.inl (by simpa using hc48))
      · rw [show (c :: (rs.takeWhile (fun b => isDigitB b) ++ 46 :: tail) : Bytes) =
            (c :: rs.takeWhile (fun b => isDigitB b)) ++ 46 :: tail from rfl]
        exact transformNumber_junk _ 46 tail hPall (by simp)
          (Or.inl (by simpa using hc48)) (Or.inl rfl)
      · rw [show (c :: (rs.takeWhile (fun b => isDigitB b) ++ e :: tail) : Bytes) =
            (c :: rs.takeWhile (fun b => isDigitB b)) ++ e :: tail from rfl]
        exact transformNumber_junk _ e tail hPall (by simp)
          (Or.inl (by simpa using hc48)) (Or.inr he)
    · -- last byte is a digit
      rcases hextlast with rfl | hlast
      · rw [List.append_nil]
        exact hPall _ (getLastD_mem _ (by simp))
      · have hextne : ext ≠ [] := by
          rcases hextshape with rfl | ⟨tail, hext⟩ | ⟨e, tail, he, hext⟩
          · exact absurd hlast (by decide)
          · rw [hext]
            simp
          · rw [hext]
            simp
        rw [show (c :: (rs.takeWhile (fun b => isDigitB b) ++ ext) : Bytes) =
            (c :: rs.takeWhile (fun b => isDigitB b)) ++ ext from rfl,
          getLastD_append_right ext hextne _ 0]
        exact hlast
    · rw [if_neg hc48]
      rw [show (rs.takeWhile (fun b => isDigitB b) ++ ext : Bytes) =
          rs.takeWhile (fun b => isDigitB b) ++ ext from rfl, jsonRun_append,
        run_digits JMode.nInt (Or.inl rfl) _ hD stk]
      exact hrunext
    · rcases hmE with rfl | rfl | rfl <;> rfl

end JX
